import Mathlib

/-!
# word_search: bucket-table builder (index.go) and query engine (konkordans.go)

A shallow embedding of the two Go programs.

* Files are lists of bytes (`Bytes`); a file handle is a file together with a
  read position, and every function that reads returns the new position.
* Text is handled in the single-byte (Windows-1252) encoding that both programs
  convert to with `converter.Encode`: a word is the list of its bytes.  Go compares
  the UTF-8 forms of two strings; on the bytes the programs work with (the alphabet,
  the digits, space and newline, all inside Latin-1) that order is the bytewise
  lexicographic order of the single-byte forms, which is the order used here.
* `int64` values are integers (`Int`); file positions are natural numbers.  The only
  place where the 64-bit range is visible to the programs on these inputs is
  `strconv.ParseInt` and the 8-byte table entries, and both are modelled with it.
* Calls that end the process are outcomes: `noOccurrences` for the message followed
  by `os.Exit(0)`, `cantHash` for "Can't hash this!" followed by `os.Exit(1)`,
  `fatal` for `checkErr` on an error (`log.Fatal`), `panic` for a run-time panic.
  The operating system is taken to serve every read, seek and write; the only
  errors are those the Go library reports on the file contents (end of file,
  invalid seek offset).
* Sums and differences of file offsets are not wrapped to 64 bits: they stay below
  the size of a file.
* Loops are recursive functions with a step budget bounded by the file length;
  `outOfFuel` (or `none` for the builder) says that the budget ran out.
-/

namespace WordSearch

/-- Bytes of a file, or of a string in the single-byte encoding. -/
abbrev Bytes := List Nat

/-- How a call ends: it returns a value, or the process ends inside it. -/
inductive Outcome (α : Type) where
  /-- the function returns -/
  | ok : α → Outcome α
  /-- the zero-occurrences message followed by `os.Exit(0)` -/
  | noOccurrences : Outcome α
  /-- "Can't hash this!" followed by `os.Exit(1)` -/
  | cantHash : Outcome α
  /-- `checkErr` on an error: `log.Fatal` -/
  | fatal : Outcome α
  /-- a run-time panic of Go (a slice bound or a buffer length out of range) -/
  | panic : Outcome α
  /-- the step budget of the model ran out -/
  | outOfFuel : Outcome α
  deriving DecidableEq

/-- The alphabet string `" abcdefghijklmnopqrstuvwxyzäåö"` after `converter.Encode`
(Windows-1252): space, `a`..`z`, `ä` = 0xE4, `å` = 0xE5, `ö` = 0xF6. -/
def alphabet : Bytes :=
  [32, 97, 98, 99, 100, 101, 102, 103, 104, 105, 106, 107, 108, 109, 110, 111, 112,
   113, 114, 115, 116, 117, 118, 119, 120, 121, 122, 228, 229, 246]

/-- The loop of `init`: `for k, c := range alphabet { charValues[c] = int64(k) }`.
The map is the function that looks a key up; a key that was never written gives
the zero value, as a Go map does. -/
def initLoop : Nat → Bytes → (Nat → Int) → (Nat → Int)
  | _, [], m => m
  | k, c :: rest, m => initLoop (k + 1) rest (fun x => if x = c then (k : Int) else m x)

/-- The map `charValues` as `init` leaves it (the same code in both programs). -/
def charValues : Nat → Int := initLoop 0 alphabet (fun _ => 0)

/-- Go string comparison `a < b`: bytewise lexicographic, a proper beginning of a
string is smaller than the string. -/
def strLt : Bytes → Bytes → Bool
  | [], [] => false
  | [], _ :: _ => true
  | _ :: _, [] => false
  | a :: as, b :: bs => if a < b then true else if b < a then false else strLt as bs

/-- White space as `strings.TrimSpace` sees it, among the characters that have a
single-byte form: tab, newline, vertical tab, form feed, carriage return, space and
the no-break space. -/
def isSpace (c : Nat) : Bool :=
  c = 9 || c = 10 || c = 11 || c = 12 || c = 13 || c = 32 || c = 160

/-- `strings.TrimSpace`: drop leading and trailing white space. -/
def trimSpace (w : Bytes) : Bytes :=
  ((w.dropWhile isSpace).reverse.dropWhile isSpace).reverse

namespace Konkordans

/-- `hash` of konkordans.go.  The word is trimmed and taken in its single-byte
form; the switch is on the number of bytes. -/
def hash (word : Bytes) : Outcome Int :=
  match trimSpace word with
  | c1 :: c2 :: c3 :: _ =>
      Outcome.ok (30 * 30 * charValues c1 + 30 * charValues c2 + charValues c3)
  | [c1, c2] => Outcome.ok (30 * 30 * charValues c1 + 30 * charValues c2)
  | [c1] => Outcome.ok (30 * 30 * charValues c1)
  | [] => Outcome.cantHash

end Konkordans

/-- A word over the 30-symbol alphabet (space, a-z, ä, å, ö). -/
def OverAlphabet (w : Bytes) : Prop := ∀ c ∈ w, c ∈ alphabet

instance (w : Bytes) : Decidable (OverAlphabet w) := by
  unfold OverAlphabet; infer_instance

/-- A word that is already trimmed of spaces: it neither begins nor ends with a
space. -/
def Trimmed (w : Bytes) : Prop := w.head? ≠ some 32 ∧ w.getLast? ≠ some 32

instance (w : Bytes) : Decidable (Trimmed w) := by
  unfold Trimmed; infer_instance

/-- The alphabet table in closed form (what `charValues` is proved to compute). -/
def charValuesSpec (c : Nat) : Int :=
  if c = 32 then 0 else if 97 ≤ c ∧ c ≤ 122 then (c : Int) - 96 else
    if c = 228 then 27 else if c = 229 then 28 else if c = 246 then 29 else 0

/-- The base-30 key of the first three characters of a word, a missing character
counting as a space (ordinal 0). -/
def key3 (w : Bytes) : Int :=
  900 * charValues (w.getD 0 32) + 30 * charValues (w.getD 1 32) + charValues (w.getD 2 32)

/-! ## index.go: the bucket-table builder -/

namespace Index

/-- `hash` of index.go, on the first three bytes of a record. -/
def hash (c1 c2 c3 : Nat) : Int :=
  if c2 = 32 then 30 * 30 * charValues c1
  else if c3 = 32 then 30 * 30 * charValues c1 + 30 * charValues c2
  else 30 * 30 * charValues c1 + 30 * charValues c2 + charValues c3

/-- `readThreeBytes`: one `Read` into a fresh three-byte buffer at position `pos`.
At the end of the file it returns zeros and `true`; otherwise the bytes read (the
rest of the buffer stays zero when fewer than three are left) and `false`.  The
second component is the position after the read. -/
def readThreeBytes (f : Bytes) (pos : Nat) : (Nat × Nat × Nat × Bool) × Nat :=
  match f.drop pos with
  | [] => ((0, 0, 0, true), pos)
  | [a] => ((a, 0, 0, false), pos + 1)
  | [a, b] => ((a, b, 0, false), pos + 2)
  | a :: b :: c :: _ => ((a, b, c, false), pos + 3)

/-- The loop of `seekNewLine` over the bytes that follow the read position: read one
byte at a time until a newline has been read (`false`) or the file ends (`true`). -/
def seekNewLineFrom : Bytes → Nat → Bool × Nat
  | [], pos => (true, pos)
  | b :: rest, pos => if b = 10 then (false, pos + 1) else seekNewLineFrom rest (pos + 1)

/-- `seekNewLine` at position `pos`: the end-of-file flag and the new position. -/
def seekNewLine (f : Bytes) (pos : Nat) : Bool × Nat :=
  seekNewLineFrom (f.drop pos) pos

/-- The loop of `nextHash`.  `pos` is the read position, `prevPtr` the local of that
name; the result is the read position the function leaves (it always ends with a
seek to `prevPtr`). -/
def nextHashLoop (f : Bytes) (prevHash : Int) : Nat → Nat → Nat → Option Nat
  | 0, _, _ => none
  | fuel + 1, pos, prevPtr =>
    -- Seek <dist> bytes forward in file.
    let pos1 := pos + 2500
    -- Go to a new line.
    let nextPtr := (seekNewLine f pos1).2
    -- Hash word at the new line.
    let r := readThreeBytes f nextPtr
    let h := hash r.1.1 r.1.2.1 r.1.2.2.1
    if h ≠ prevHash then some prevPtr
    else nextHashLoop f prevHash fuel r.2 nextPtr

/-- `nextHash(prevHash, rawIndex)` called at read position `pos`. -/
def nextHash (f : Bytes) (fuel : Nat) (prevHash : Int) (pos : Nat) : Option Nat :=
  nextHashLoop f prevHash fuel pos pos

/-- What one run of the inner `for` loop of `main` leaves: the read position, the
variables `currHash`, `ptr` and `eof`, and the values it passed to `binary.Write`. -/
structure Scan where
  pos : Nat
  currHash : Int
  ptr : Nat
  eof : Bool
  written : List Int
  deriving DecidableEq

/-- The inner `for` loop of `main`, entered at read position `pos`. -/
def innerLoop (f : Bytes) (prevHash : Int) : Nat → Nat → Int → Option Scan
  | 0, _, _ => none
  | fuel + 1, pos, currHash =>
    -- Get current position
    let ptr := pos
    -- Calculate hash of the new word
    let r := readThreeBytes f pos
    if r.1.2.2.2 then some ⟨r.2, currHash, ptr, true, []⟩
    else
      let currHash := hash r.1.1 r.1.2.1 r.1.2.2.1
      -- Read bytes until a newline is encountered
      let s := seekNewLine f r.2
      if s.1 then some ⟨s.2, currHash, ptr, true, []⟩
      else if currHash ≠ prevHash then
        -- We found the next hash: `diff` writes of `ptr`
        some ⟨s.2, currHash, ptr, false,
          List.replicate (currHash - prevHash).toNat (ptr : Int)⟩
      else innerLoop f prevHash fuel s.2 currHash

/-- The outer loop `for !eof` of `main`; `n` is the budget given to the loops inside.
`out` collects the values passed to `binary.Write`, in order. -/
def mainLoop (f : Bytes) (n : Nat) : Nat → Nat → Int → Int → List Int → Option (List Int)
  | 0, _, _, _, _ => none
  | fuel + 1, pos, prevHash, currHash, out =>
    match innerLoop f prevHash n pos currHash with
    | none => none
    | some s =>
      let out := out ++ s.written
      let prevHash := s.currHash
      let after :=
        if (s.ptr : Int) < (f.length : Int) - 5000 then nextHash f n s.currHash s.pos
        else some s.pos
      match after with
      | none => none
      | some pos2 => if s.eof then some out else mainLoop f n fuel pos2 prevHash s.currHash out

/-- The values `main` writes to the table file for the sorted index `f`, in order
(`none`: the loops do not end within the budget). -/
def tableWrites (f : Bytes) : Option (List Int) :=
  mainLoop f (f.length + 2) (f.length + 2) 0 (-1) 0 []

end Index

/-- `binary.Write(w, binary.LittleEndian, v)` for an `int64`: the eight bytes of the
two's complement form, lowest first. -/
def int64Bytes (v : Int) : Bytes :=
  let u := (v % 18446744073709551616).toNat
  [u % 256, u / 256 % 256, u / 65536 % 256, u / 16777216 % 256, u / 4294967296 % 256,
   u / 1099511627776 % 256, u / 281474976710656 % 256, u / 72057594037927936 % 256]

/-- The `int64` that eight little-endian bytes stand for. -/
def int64OfBytes (b : Bytes) : Int :=
  let u := b.getD 0 0 + 256 * b.getD 1 0 + 65536 * b.getD 2 0 + 16777216 * b.getD 3 0 +
    4294967296 * b.getD 4 0 + 1099511627776 * b.getD 5 0 + 281474976710656 * b.getD 6 0 +
    72057594037927936 * b.getD 7 0
  if u < 9223372036854775808 then (u : Int) else (u : Int) - 18446744073709551616

/-- The table file after a sequence of `binary.Write` calls. -/
def indexFile (writes : List Int) : Bytes :=
  (writes.map int64Bytes).flatten

namespace Index

/-- The table file `main` leaves for the sorted index `f`. -/
def main (f : Bytes) : Option Bytes :=
  (tableWrites f).map indexFile

end Index

/-! ## The sorted word-index as a list of records -/

/-- One record of the sorted word-index: the word and the decimal offset field. -/
structure Record where
  word : Bytes
  offset : Bytes
  deriving DecidableEq

/-- The line of a record: `<word><space><decimal offset><newline>`. -/
def Record.bytes (r : Record) : Bytes :=
  r.word ++ 32 :: (r.offset ++ [10])

/-- The file made of the records, in order. -/
def render (rs : List Record) : Bytes :=
  (rs.map Record.bytes).flatten

/-- A letter of the alphabet: a-z, ä, å, ö. -/
def isLetter (c : Nat) : Bool :=
  (97 ≤ c && c ≤ 122) || c = 228 || c = 229 || c = 246

/-- A decimal digit. -/
def isDigit (c : Nat) : Bool :=
  48 ≤ c && c ≤ 57

/-- A well-formed record: a non-empty word of letters and a non-empty offset field of
decimal digits. -/
def Record.WellFormed (r : Record) : Prop :=
  r.word ≠ [] ∧ (∀ c ∈ r.word, isLetter c = true) ∧
    r.offset ≠ [] ∧ (∀ c ∈ r.offset, isDigit c = true)

instance (r : Record) : Decidable r.WellFormed := by
  unfold Record.WellFormed; infer_instance

/-- A well-formed word-index: every record is well formed. -/
def WellFormed (rs : List Record) : Prop := ∀ r ∈ rs, r.WellFormed

instance (rs : List Record) : Decidable (WellFormed rs) := by
  unfold WellFormed; infer_instance

/-- The hash of a word as a number (`-1` where `hash` does not return).  For a
well-formed record it is also the hash the builder computes from the first three
bytes of the line (`Record.WellFormed.first_three`). -/
def hashOf (w : Bytes) : Int :=
  match Konkordans.hash w with
  | Outcome.ok h => h
  | _ => -1

/-- Hashes are non-decreasing along the file: no record has a smaller hash than a
record before it. -/
def HashSorted (rs : List Record) : Prop :=
  rs.Pairwise (fun a b => hashOf a.word ≤ hashOf b.word)

instance (rs : List Record) : Decidable (HashSorted rs) := by
  unfold HashSorted; infer_instance

/-- The index is sorted bytewise by word: no record has a smaller word than a record
before it. -/
def WordSorted (rs : List Record) : Prop :=
  rs.Pairwise (fun a b => strLt b.word a.word = false)

instance (rs : List Record) : Decidable (WordSorted rs) := by
  unfold WordSorted; infer_instance

/-- The byte offset of the first record, among `rs` laid out from offset `off`, whose
hash is at least `h`; the end of the file when there is none. -/
def firstOffsetGE (h : Int) : List Record → Nat → Nat
  | [], off => off
  | r :: rs, off =>
    if h ≤ hashOf r.word then off else firstOffsetGE h rs (off + r.bytes.length)

/-- The table of a plain record-by-record scan: for each record, laid out from byte
offset `off`, whose hash differs from the hash before it, `hash - prev` copies of the
record's offset.  The builder's output is proved equal to it. -/
def tableFrom : Nat → Int → List Record → List Int
  | _, _, [] => []
  | off, prev, r :: rest =>
    (if hashOf r.word ≠ prev then List.replicate (hashOf r.word - prev).toNat (off : Int)
      else []) ++ tableFrom (off + r.bytes.length) (hashOf r.word) rest

/-! ## konkordans.go: the query engine -/

/-- `binary.Read(index, binary.LittleEndian, &v)` for an `int64` at read position
`off`: eight bytes are needed; with fewer the call returns an error (`none`). -/
def readInt64 (f : Bytes) (off : Nat) : Option Int :=
  let b := (f.drop off).take 8
  if b.length = 8 then some (int64OfBytes b) else none

/-- `bufio.Reader.ReadBytes(delim)` over the bytes that follow the read position:
the bytes up to and including the first `delim`; the flag says that the file ended
before a `delim` was found (the error `io.EOF`). -/
def readBytesFrom (delim : Nat) : Bytes → Bytes × Bool
  | [] => ([], true)
  | b :: rest =>
    if b = delim then ([b], false)
    else ((b :: (readBytesFrom delim rest).1), (readBytesFrom delim rest).2)

/-- `ReadBytes(delim)` of a reader that stands at position `pos` of the file. -/
def readBytes (f : Bytes) (pos : Nat) (delim : Nat) : Bytes × Bool :=
  readBytesFrom delim (f.drop pos)

/-- The loop `for b[0] != '\n' { _, err := rawIndex.Read(b); checkErr(err) }` over the
bytes that follow the read position: the position after the first newline, or `none`
when the file ends first (`checkErr` then ends the process). -/
def goToNewLineFrom : Bytes → Nat → Option Nat
  | [], _ => none
  | b :: rest, pos => if b = 10 then some (pos + 1) else goToNewLineFrom rest (pos + 1)

/-- The go-to-new-line loop at position `pos`. -/
def goToNewLine (f : Bytes) (pos : Nat) : Option Nat :=
  goToNewLineFrom (f.drop pos) pos

/-- The digits of `strconv.ParseUint(s, 10, 64)`: the number, or `none` at a byte
that is not a decimal digit. -/
def parseDigits : Bytes → Nat → Option Nat
  | [], n => some n
  | c :: rest, n => if 48 ≤ c ∧ c ≤ 57 then parseDigits rest (10 * n + (c - 48)) else none

/-- The value `strconv.ParseInt(s, 10, 64)` returns (its error is dropped by the
caller): 0 on a syntax error, the nearest bound of `int64` on a range error. -/
def parseInt (s : Bytes) : Int :=
  match s with
  | [] => 0
  | c :: t =>
    let neg : Bool := c = 45
    let body := if c = 43 ∨ c = 45 then t else s
    if body = [] then 0
    else
      match parseDigits body 0 with
      | none => 0
      | some un =>
        if neg = false ∧ 9223372036854775808 ≤ un then 9223372036854775807
        else if neg = true ∧ 9223372036854775808 < un then -9223372036854775808
        else if neg = true then -(un : Int) else (un : Int)

/-- The number of bytes of the UTF-8 form of a string given in its single-byte form,
`len(word)` in Go: one byte below 128, two bytes for the other characters of
Latin-1 (the letters ä, å, ö among them). -/
def utf8Len (w : Bytes) : Nat :=
  (w.map (fun c => if c < 128 then 1 else 2)).sum

namespace Konkordans

/-- `getBSPointers`: `index` is the table file, `rawIndexSize` the size of the sorted
index. -/
def getBSPointers (index : Bytes) (rawIndexSize : Nat) (hash : Int) : Outcome (Int × Int) :=
  -- index.Seek(hash*8, io.SeekStart) fails on a negative offset
  if hash * 8 < 0 then Outcome.fatal
  else
    match readInt64 index (hash * 8).toNat with
    | none => Outcome.fatal
    | some left =>
      let nextHash := hash + 1
      let right :=
        if nextHash < 30 * 30 * 30 then readInt64 index (nextHash * 8).toNat
        else some (rawIndexSize : Int)
      match right with
      | none => Outcome.fatal
      | some right =>
        -- Can't do binary search on 0 bytes.
        if left = right then Outcome.noOccurrences else Outcome.ok (left, right)

/-- The binary-search loop of `binarySearch`; the result is `left` and `right` when
the loop ends. -/
def bsLoop (f word : Bytes) : Nat → Int → Int → Outcome (Int × Int)
  | 0, _, _ => Outcome.outOfFuel
  | fuel + 1, left, right =>
    if right - left > 1000 then
      -- Go to middle.
      let mid := Int.tdiv (left + right) 2
      if mid < 0 then Outcome.fatal
      else
        -- Go to new line.
        match goToNewLine f mid.toNat with
        | none => Outcome.fatal
        | some p =>
          -- Read in word.
          let w := readBytes f p 32
          if w.2 then Outcome.fatal
          else
            -- Compare the words
            if strLt w.1.dropLast word then bsLoop f word fuel mid right
            else bsLoop f word fuel left mid
    else Outcome.ok (left, right)

/-- The linear-search loop of `binarySearch`: `rpos` is the position of the buffered
reader, `ptr` the local of that name. -/
def linearLoop (f word : Bytes) : Nat → Nat → Nat → Outcome Nat
  | 0, _, _ => Outcome.outOfFuel
  | fuel + 1, rpos, ptr =>
    -- Read in word.
    let s := readBytes f rpos 32
    if s.2 then Outcome.noOccurrences
    -- If we have found our word return the pointer.
    else if s.1.dropLast = word then Outcome.ok ptr
    else if strLt word s.1 then Outcome.noOccurrences
    else
      -- Go to new line.
      let b := readBytes f (rpos + s.1.length) 10
      if b.2 then Outcome.fatal
      else linearLoop f word fuel (rpos + s.1.length + b.1.length)
        (ptr + s.1.length + b.1.length)

/-- `binarySearch`: `index` is the table file, `f` the sorted index. -/
def binarySearch (index f word : Bytes) : Outcome Nat :=
  let word := trimSpace word
  match hash word with
  | Outcome.ok h =>
    match getBSPointers index f.length h with
    | Outcome.ok (left, right) =>
      match bsLoop f word ((right - left).toNat + 1) left right with
      | Outcome.ok (left, _) =>
        -- Make sure we are at the beginning of a new line before starting linear search.
        if left < 0 then Outcome.fatal
        else
          let start := if left > 0 then goToNewLine f (left - 1).toNat else some left.toNat
          match start with
          | none => Outcome.fatal
          | some ptr => linearLoop f word (f.length + 1) ptr ptr
      | Outcome.noOccurrences => Outcome.noOccurrences
      | Outcome.cantHash => Outcome.cantHash
      | Outcome.fatal => Outcome.fatal
      | Outcome.panic => Outcome.panic
      | Outcome.outOfFuel => Outcome.outOfFuel
    | Outcome.noOccurrences => Outcome.noOccurrences
    | Outcome.cantHash => Outcome.cantHash
    | Outcome.fatal => Outcome.fatal
    | Outcome.panic => Outcome.panic
    | Outcome.outOfFuel => Outcome.outOfFuel
  | Outcome.noOccurrences => Outcome.noOccurrences
  | Outcome.cantHash => Outcome.cantHash
  | Outcome.fatal => Outcome.fatal
  | Outcome.panic => Outcome.panic
  | Outcome.outOfFuel => Outcome.outOfFuel

/-- What `printResLn` does when it does not end the process: it returns the
out-of-bounds error, or prints a line and returns `nil`.  `window` is the buffer
`l1bytes` after the read, `text` the same bytes with every newline replaced by a
space (the printed line, in the single-byte form). -/
inductive PrintRes where
  | outOfBounds : PrintRes
  | printed (window text : Bytes) : PrintRes
  deriving DecidableEq

/-- `printResLn(fptr, wordLen)` on the corpus `korpus`. -/
def printResLn (korpus : Bytes) (fptr wordLen : Int) : Outcome PrintRes :=
  let offset : Int := 30
  let korpusSize : Int := korpus.length
  if fptr < 0 ∨ fptr > korpusSize - wordLen then Outcome.ok PrintRes.outOfBounds
  else
    let numBytes := if fptr < offset then fptr + wordLen + offset else offset * 2 + wordLen
    let fptr := if fptr < offset then 0 else fptr - offset
    -- make([]byte, numBytes)
    if numBytes < 0 then Outcome.panic
    else
      let got := (korpus.drop fptr.toNat).take numBytes.toNat
      -- korpus.Read(l1bytes): io.EOF when nothing is left and the buffer is not empty
      if got = [] ∧ 0 < numBytes then Outcome.fatal
      else
        let l1bytes := got ++ List.replicate (numBytes.toNat - got.length) 0
        Outcome.ok (PrintRes.printed l1bytes (l1bytes.map (fun c => if c = 10 then 32 else c)))

/-- The first loop of `printResult`: count the records, from the reader position on,
whose word is `word`. -/
def countLoop (f word : Bytes) : Nat → Nat → Nat → Outcome Nat
  | 0, _, _ => Outcome.outOfFuel
  | fuel + 1, pos, count =>
    -- Read in a word.
    let w := readBytes f pos 32
    if w.2 then Outcome.ok count
    -- Break if we have reached a word we are not looking for.
    else if w.1.dropLast ≠ word then Outcome.ok count
    else
      -- Go to next line
      let b := readBytes f (pos + w.1.length) 10
      countLoop f word fuel (pos + w.1.length + b.1.length) (count + 1)

/-- The second loop of `printResult`, with `k` rounds left: the arguments of the calls
of `printResLn`, in order. -/
def printLoop (f korpus word : Bytes) : Nat → Nat → Outcome (List (Int × Int))
  | 0, _ => Outcome.ok []
  | k + 1, pos =>
    -- Read in a word.
    let w := readBytes f pos 32
    if w.2 then Outcome.ok []
    else
      -- Go to new line
      let p := readBytes f (pos + w.1.length) 10
      -- p[:len(p)-1]
      if p.1 = [] then Outcome.panic
      else
        let ptr := parseInt p.1.dropLast
        match printResLn korpus ptr (utf8Len word) with
        | Outcome.ok _ =>
          match printLoop f korpus word k (pos + w.1.length + p.1.length) with
          | Outcome.ok calls => Outcome.ok ((ptr, (utf8Len word : Int)) :: calls)
          | other => other
        | Outcome.noOccurrences => Outcome.noOccurrences
        | Outcome.cantHash => Outcome.cantHash
        | Outcome.fatal => Outcome.fatal
        | Outcome.panic => Outcome.panic
        | Outcome.outOfFuel => Outcome.outOfFuel

/-- `printResult(ptr, word)`: the arguments `(fptr, wordLen)` of the calls of
`printResLn` it makes, in order.  (When more than 25 records are counted the program
waits for a key before the second loop; that changes nothing here.) -/
def printResult (f korpus : Bytes) (ptr : Nat) (word : Bytes) : Outcome (List (Int × Int)) :=
  let word := trimSpace word
  match countLoop f word (f.length + 1) ptr 0 with
  | Outcome.ok count => printLoop f korpus word count ptr
  | Outcome.noOccurrences => Outcome.noOccurrences
  | Outcome.cantHash => Outcome.cantHash
  | Outcome.fatal => Outcome.fatal
  | Outcome.panic => Outcome.panic
  | Outcome.outOfFuel => Outcome.outOfFuel

end Konkordans

/-! ## What the claims speak of -/

/-- A bucket table as the data model defines it: 27000 entries of eight bytes, entry
`h` the offset of the first record whose hash is at least `h` (the end of the file
when no record has such a hash). -/
def TableCorrect (rs : List Record) (index : Bytes) : Prop :=
  index.length = 27000 * 8 ∧
    ∀ h : Nat, h < 27000 → readInt64 index (8 * h) = some ((firstOffsetGE h rs 0 : Nat) : Int)

/-- The table the data model defines for an index, as a file. -/
def specTable (rs : List Record) : Bytes :=
  indexFile ((List.range 27000).map (fun (h : Nat) => ((firstOffsetGE (h : Int) rs 0 : Nat) : Int)))

/-- The byte offset of the first record, among `rs` laid out from `off`, whose word
is `q`. -/
def firstOffsetOf (q : Bytes) : List Record → Nat → Option Nat
  | [], _ => none
  | r :: rs, off => if r.word = q then some off else firstOffsetOf q rs (off + r.bytes.length)

/-- The number a field of decimal digits stands for. -/
def decimalValue (s : Bytes) : Nat :=
  s.foldl (fun n c => 10 * n + (c - 48)) 0

/-- The offset fields of the records whose word is `q`, in index order. -/
def matchingOffsets (q : Bytes) (rs : List Record) : List Int :=
  (rs.filter (fun r => r.word = q)).map (fun r => (decimalValue r.offset : Int))

/-- Every offset field is a byte position an `int64` can hold. -/
def OffsetsInRange (rs : List Record) : Prop :=
  ∀ r ∈ rs, decimalValue r.offset < 9223372036854775808

instance (rs : List Record) : Decidable (OffsetsInRange rs) := by
  unfold OffsetsInRange; infer_instance

/-- The last record is at most `n` bytes long (its newline included). -/
def LastRecordAtMost (n : Nat) (rs : List Record) : Prop :=
  ∀ r ∈ rs.getLast?.toList, r.bytes.length ≤ n

instance (n : Nat) (rs : List Record) : Decidable (LastRecordAtMost n rs) := by
  unfold LastRecordAtMost; infer_instance

/-- The invariant of the binary search on `left`: some record boundary at or after
`left` has only words below the query before it. -/
def BelowQuery (q : Bytes) (rs : List Record) (left : Int) : Prop :=
  ∃ a b, rs = a ++ b ∧ left ≤ ((render a).length : Int) ∧ ∀ x ∈ a, strLt x.word q = true

/-! ## Example inputs -/

/-- A small index: "a 1", "ab 1", "ab 2", "b 1". -/
def smallIndex : List Record :=
  [⟨[97], [49]⟩, ⟨[97, 98], [49]⟩, ⟨[97, 98], [50]⟩, ⟨[98], [49]⟩]

/-- The word "amager". -/
def amager : Bytes := [97, 109, 97, 103, 101, 114]

/-- The word "amazon". -/
def amazon : Bytes := [97, 109, 97, 122, 111, 110]

/-- The index of the end-to-end example: "amager 120", "amager 5000", "amazon 9000". -/
def exampleIndex : List Record :=
  [⟨amager, [49, 50, 48]⟩, ⟨amager, [53, 48, 48, 48]⟩, ⟨amazon, [57, 48, 48, 48]⟩]

/-- A word of a thousand letters `ö`. -/
def longWord : Bytes := List.replicate 1000 246

/-- The index that holds the one record `<longWord> 1`, a file of 1003 bytes. -/
def longIndex : List Record := [⟨longWord, [49]⟩]

/-! ## The two `init` functions, and the reference definitions of the specification -/

namespace Index

/-- `init` of index.go: the map `charValues` it builds from the alphabet string. -/
def init : Nat → Int := initLoop 0 alphabet (fun _ => 0)

end Index

namespace Konkordans

/-- `init` of konkordans.go: the map `charValues` it builds from the alphabet string
(the files it opens afterwards are the arguments of the functions here). -/
def init : Nat → Int := initLoop 0 alphabet (fun _ => 0)

end Konkordans

/-- The alphabet ordinal `v(c)` of the specification: the place of the character in
the alphabet string, counted from 0. -/
def ordinal (c : Nat) : Int := (alphabet.indexOf c : Nat)

/-- The reference definition of the hash in the specification, on a word already
trimmed: by the length of the word, with `v` the alphabet ordinal and `N = 30`; the
empty word is invalid (`none`). -/
def hashReference (w : Bytes) : Option Int :=
  if w.length = 0 then none
  else if w.length = 1 then some (30 * 30 * ordinal (w.getD 0 0))
  else if w.length = 2 then some (30 * 30 * ordinal (w.getD 0 0) + 30 * ordinal (w.getD 1 0))
  else some (30 * 30 * ordinal (w.getD 0 0) + 30 * ordinal (w.getD 1 0) + ordinal (w.getD 2 0))

namespace Index

/-- The outer loop of `main` with the call of `nextHash` left out: the same loop,
reading on from where the inner loop stopped, so that every record is scanned. -/
def mainLoopNoSkip (f : Bytes) (n : Nat) : Nat → Nat → Int → Int → List Int → Option (List Int)
  | 0, _, _, _, _ => none
  | fuel + 1, pos, prevHash, currHash, out =>
    match innerLoop f prevHash n pos currHash with
    | none => none
    | some s =>
      let out := out ++ s.written
      let prevHash := s.currHash
      if s.eof then some out else mainLoopNoSkip f n fuel s.pos prevHash s.currHash out

/-- The values the loop without `nextHash` writes to the table file, in order. -/
def tableWritesNoSkip (f : Bytes) : Option (List Int) :=
  mainLoopNoSkip f (f.length + 2) (f.length + 2) 0 (-1) 0 []

end Index

/-- An index of 6018 bytes, long enough for the builder to call `nextHash`: three
records with the word of a thousand letters `a`, then three with the word of a
thousand letters `ö`, each with the offset 1. -/
def skipIndex : List Record :=
  List.replicate 3 ⟨List.replicate 1000 97, [49]⟩ ++ List.replicate 3 ⟨longWord, [49]⟩

/-! ## The alphabet table -/

theorem initLoop_of_not_mem (c : Nat) : ∀ (l : Bytes) (k : Nat) (m : Nat → Int),
    c ∉ l → initLoop k l m c = m c
  | [], _, _, _ => rfl
  | d :: rest, k, m, h => by
    have h1 : c ≠ d := fun e => h (e ▸ List.mem_cons_self _ _)
    have h2 : c ∉ rest := fun e => h (List.mem_cons_of_mem _ e)
    rw [initLoop, initLoop_of_not_mem c rest _ _ h2]
    simp [h1]

theorem charValues_eq (c : Nat) : charValues c = charValuesSpec c := by
  by_cases h : c ∈ alphabet
  · revert c
    decide
  · have h0 : charValues c = 0 := initLoop_of_not_mem c alphabet 0 _ h
    rw [h0]
    simp only [alphabet, List.mem_cons, List.mem_singleton, not_or] at h
    unfold charValuesSpec
    split_ifs <;> omega

theorem mem_alphabet_iff (c : Nat) :
    c ∈ alphabet ↔ c = 32 ∨ (97 ≤ c ∧ c ≤ 122) ∨ c = 228 ∨ c = 229 ∨ c = 246 := by
  simp only [alphabet, List.mem_cons, List.mem_singleton, List.not_mem_nil, or_false]
  omega

theorem charValues_nonneg (c : Nat) : 0 ≤ charValues c := by
  rw [charValues_eq]; unfold charValuesSpec; split_ifs <;> omega

theorem charValues_le (c : Nat) : charValues c ≤ 29 := by
  rw [charValues_eq]; unfold charValuesSpec; split_ifs <;> omega

theorem charValues_space : charValues 32 = 0 := by decide

theorem charValues_lt_of_lt {c d : Nat} (hc : c ∈ alphabet) (hd : d ∈ alphabet) (h : c < d) :
    charValues c < charValues d := by
  rw [mem_alphabet_iff] at hc hd
  rw [charValues_eq, charValues_eq]; unfold charValuesSpec
  split_ifs <;> omega

theorem charValues_inj {c d : Nat} (hc : c ∈ alphabet) (hd : d ∈ alphabet)
    (h : charValues c = charValues d) : c = d := by
  rcases Nat.lt_trichotomy c d with h1 | h1 | h1
  · have := charValues_lt_of_lt hc hd h1; omega
  · exact h1
  · have := charValues_lt_of_lt hd hc h1; omega

theorem charValues_eq_zero {c : Nat} (hc : c ∈ alphabet) (h : charValues c = 0) : c = 32 :=
  charValues_inj hc (by decide) (h.trans charValues_space.symm)

theorem charValues_pos {c : Nat} (hc : c ∈ alphabet) (h : c ≠ 32) : 1 ≤ charValues c := by
  have h0 := charValues_nonneg c
  have h1 : charValues c ≠ 0 := fun e => h (charValues_eq_zero hc e)
  omega

theorem isSpace_of_mem_alphabet {c : Nat} (hc : c ∈ alphabet) : isSpace c = true ↔ c = 32 := by
  rw [mem_alphabet_iff] at hc
  simp only [isSpace, Bool.or_eq_true, decide_eq_true_eq]
  omega

/-! ## Trimming and the hash of konkordans.go -/

theorem strLt_iff_lt : ∀ (a b : Bytes), strLt a b = true ↔ a < b
  | [], [] => by simp [strLt]
  | [], _ :: _ => by simpa [strLt] using List.Lex.nil
  | _ :: _, [] => by simp [strLt]
  | x :: as, y :: bs => by
    have ih := strLt_iff_lt as bs
    rw [strLt]
    constructor
    · intro h
      by_cases h1 : x < y
      · exact List.Lex.rel h1
      · by_cases h2 : y < x
        · simp [h1, h2] at h
        · simp only [h1, h2, if_false] at h
          have e : x = y := by omega
          subst e
          exact List.Lex.cons (ih.mp h)
    · intro h
      cases h with
      | rel h1 => simp [h1]
      | cons h3 => simp only [lt_irrefl, if_false]; exact ih.mpr h3

/-- What is cut off at the end of a list by `rdropWhile`. -/
theorem rdropWhile_split (p : Nat → Bool) (l : Bytes) :
    ∃ s, l = l.rdropWhile p ++ s ∧ ∀ x ∈ s, p x = true := by
  induction l using List.reverseRecOn with
  | nil => exact ⟨[], by simp, by simp⟩
  | append_singleton l x ih =>
    by_cases hx : p x = true
    · obtain ⟨s, hs, hp⟩ := ih
      refine ⟨s ++ [x], ?_, ?_⟩
      · rw [List.rdropWhile_concat_pos _ _ _ hx, ← List.append_assoc, ← hs]
      · intro y hy
        rcases List.mem_append.mp hy with h | h
        · exact hp y h
        · rw [List.mem_singleton.mp h]; exact hx
    · exact ⟨[], by rw [List.rdropWhile_concat_neg _ _ _ hx]; simp, by simp⟩

theorem trimSpace_eq_rdropWhile (w : Bytes) :
    trimSpace w = (w.dropWhile isSpace).rdropWhile isSpace := rfl

theorem trimSpace_of_trimmed {w : Bytes} (ha : OverAlphabet w) (ht : Trimmed w) :
    trimSpace w = w := by
  rw [trimSpace_eq_rdropWhile]
  have h1 : w.dropWhile isSpace = w := by
    cases w with
    | nil => rfl
    | cons c t =>
      have hc : isSpace c = false := by
        have := isSpace_of_mem_alphabet (ha c (List.mem_cons_self _ _))
        have h32 : c ≠ 32 := fun e => ht.1 (by simp [e])
        cases h : isSpace c
        · rfl
        · exact absurd (this.mp h) h32
      simp [List.dropWhile, hc]
  rw [h1, List.rdropWhile_eq_self_iff]
  intro hl hp
  have hmem : w.getLast hl ∈ w := List.getLast_mem hl
  have h32 := (isSpace_of_mem_alphabet (ha _ hmem)).mp hp
  exact ht.2 (by rw [List.getLast?_eq_getLast _ hl, h32])

theorem getD_of_all_space : ∀ (s : Bytes) (i : Nat), (∀ x ∈ s, x = 32) → s[i]?.getD 32 = 32
  | [], _, _ => rfl
  | x :: s, 0, h => by simpa using h x (List.mem_cons_self _ _)
  | x :: s, i + 1, h => by
    simpa using getD_of_all_space s i (fun y hy => h y (List.mem_cons_of_mem _ hy))

theorem key3_append_spaces (t s : Bytes) (hs : ∀ x ∈ s, x = 32) : key3 (t ++ s) = key3 t := by
  have g := getD_of_all_space s
  unfold key3
  match t with
  | [] => simp [g 0 hs, g 1 hs, g 2 hs]
  | [a] => simp [g 0 hs, g 1 hs]
  | [a, b] => simp [g 0 hs]
  | a :: b :: c :: r => simp

/-- The switch of `hash` on a non-empty trimmed word computes `key3`. -/
theorem hash_of_trimSpace {w t : Bytes} (h : trimSpace w = t) (ht : t ≠ []) :
    Konkordans.hash w = Outcome.ok (key3 t) := by
  unfold Konkordans.hash key3
  rw [h]
  match t, ht with
  | [a], _ => simp [charValues_space]
  | [a, b], _ => simp [charValues_space]
  | a :: b :: c :: r, _ => simp

/-- On a word over the alphabet that does not begin with a space, `hash` is the key
of the first three characters. -/
theorem hash_eq_key3 {w : Bytes} (ha : OverAlphabet w) (hne : w ≠ [])
    (hh : w.head? ≠ some 32) : Konkordans.hash w = Outcome.ok (key3 w) := by
  obtain ⟨c, r, rfl⟩ := List.exists_cons_of_ne_nil hne
  have hc : isSpace c = false := by
    have := isSpace_of_mem_alphabet (ha c (List.mem_cons_self _ _))
    have h32 : c ≠ 32 := fun e => hh (by simp [e])
    cases h : isSpace c
    · rfl
    · exact absurd (this.mp h) h32
  have h1 : (c :: r).dropWhile isSpace = c :: r := by simp [List.dropWhile, hc]
  obtain ⟨s, hs, hp⟩ := rdropWhile_split isSpace (c :: r)
  have hs32 : ∀ x ∈ s, x = 32 := by
    intro x hx
    have hxw : x ∈ c :: r := by rw [hs]; exact List.mem_append_right _ hx
    exact (isSpace_of_mem_alphabet (ha x hxw)).mp (hp x hx)
  have hne2 : (c :: r).rdropWhile isSpace ≠ [] := by
    intro e
    have := (List.rdropWhile_eq_nil_iff).mp e c (List.mem_cons_self _ _)
    rw [hc] at this
    exact Bool.noConfusion this
  have ht : trimSpace (c :: r) = (c :: r).rdropWhile isSpace := by
    rw [trimSpace_eq_rdropWhile, h1]
  rw [hash_of_trimSpace ht hne2]
  congr 1
  conv_rhs => rw [hs]
  exact (key3_append_spaces _ s hs32).symm

theorem key3_nonneg (w : Bytes) : 0 ≤ key3 w := by
  unfold key3
  have := charValues_nonneg (w.getD 0 32)
  have := charValues_nonneg (w.getD 1 32)
  have := charValues_nonneg (w.getD 2 32)
  omega

theorem key3_lt (w : Bytes) : key3 w < 27000 := by
  unfold key3
  have := charValues_le (w.getD 0 32)
  have := charValues_le (w.getD 1 32)
  have := charValues_le (w.getD 2 32)
  omega

/-! ## Order and the hash -/

theorem key1_mono {w1 w2 : Bytes} (h1 : OverAlphabet w1) (h2 : OverAlphabet w2)
    (h : strLt w1 w2 = true) :
    charValues (w1[0]?.getD 32) ≤ charValues (w2[0]?.getD 32) := by
  match w1, w2 with
  | [], w2 => simp [charValues_space, charValues_nonneg]
  | a :: r1, [] => simp [strLt] at h
  | a :: r1, b :: r2 =>
    have ha := h1 a (List.mem_cons_self _ _)
    have hb := h2 b (List.mem_cons_self _ _)
    simp only [List.getElem?_cons_zero, Option.getD_some]
    by_cases hab : a < b
    · exact le_of_lt (charValues_lt_of_lt ha hb hab)
    · by_cases hba : b < a
      · simp [strLt, hab, hba] at h
      · have e : a = b := by omega
        rw [e]

theorem key2_mono {w1 w2 : Bytes} (h1 : OverAlphabet w1) (h2 : OverAlphabet w2)
    (h : strLt w1 w2 = true) :
    30 * charValues (w1[0]?.getD 32) + charValues (w1[1]?.getD 32)
      ≤ 30 * charValues (w2[0]?.getD 32) + charValues (w2[1]?.getD 32) := by
  match w1, w2 with
  | [], w2 =>
    have := charValues_nonneg (w2[0]?.getD 32)
    have := charValues_nonneg (w2[1]?.getD 32)
    simp only [List.getElem?_nil, Option.getD_none, charValues_space]
    omega
  | a :: r1, [] => simp [strLt] at h
  | a :: r1, b :: r2 =>
    have ha := h1 a (List.mem_cons_self _ _)
    have hb := h2 b (List.mem_cons_self _ _)
    have hr1 : OverAlphabet r1 := fun c hc => h1 c (List.mem_cons_of_mem _ hc)
    have hr2 : OverAlphabet r2 := fun c hc => h2 c (List.mem_cons_of_mem _ hc)
    simp only [List.getElem?_cons_zero, Option.getD_some, List.getElem?_cons_succ]
    have u1 := charValues_le (r1[0]?.getD 32)
    have l2 := charValues_nonneg (r2[0]?.getD 32)
    by_cases hab : a < b
    · have := charValues_lt_of_lt ha hb hab
      omega
    · by_cases hba : b < a
      · simp [strLt, hab, hba] at h
      · have e : a = b := by omega
        subst e
        simp only [strLt, hab, if_false] at h
        have := key1_mono hr1 hr2 h
        omega

theorem key3_mono {w1 w2 : Bytes} (h1 : OverAlphabet w1) (h2 : OverAlphabet w2)
    (h : strLt w1 w2 = true) : key3 w1 ≤ key3 w2 := by
  unfold key3
  simp only [List.getD_eq_getElem?_getD]
  match w1, w2 with
  | [], w2 =>
    have := charValues_nonneg (w2[0]?.getD 32)
    have := charValues_nonneg (w2[1]?.getD 32)
    have := charValues_nonneg (w2[2]?.getD 32)
    simp only [List.getElem?_nil, Option.getD_none, charValues_space]
    omega
  | a :: r1, [] => simp [strLt] at h
  | a :: r1, b :: r2 =>
    have ha := h1 a (List.mem_cons_self _ _)
    have hb := h2 b (List.mem_cons_self _ _)
    have hr1 : OverAlphabet r1 := fun c hc => h1 c (List.mem_cons_of_mem _ hc)
    have hr2 : OverAlphabet r2 := fun c hc => h2 c (List.mem_cons_of_mem _ hc)
    simp only [List.getElem?_cons_zero, Option.getD_some, List.getElem?_cons_succ]
    have u1 := charValues_le (r1[0]?.getD 32)
    have u2 := charValues_le (r1[1]?.getD 32)
    have l1 := charValues_nonneg (r2[0]?.getD 32)
    have l2 := charValues_nonneg (r2[1]?.getD 32)
    by_cases hab : a < b
    · have := charValues_lt_of_lt ha hb hab
      omega
    · by_cases hba : b < a
      · simp [strLt, hab, hba] at h
      · have e : a = b := by omega
        subst e
        simp only [strLt, hab, if_false] at h
        have := key2_mono hr1 hr2 h
        omega

/-- A letter of the alphabet is above the space. -/
theorem lt_of_mem_alphabet_ne_space {c : Nat} (hc : c ∈ alphabet) (h : c ≠ 32) : 32 < c := by
  rw [mem_alphabet_iff] at hc; omega

theorem trimSpace_ne_nil {w : Bytes} (ha : OverAlphabet w) (hx : ∃ c ∈ w, c ≠ 32) :
    trimSpace w ≠ [] := by
  obtain ⟨c, hc, hc32⟩ := hx
  have hd : w.dropWhile isSpace ≠ [] := by
    intro e
    have := (List.dropWhile_eq_nil_iff).mp e c hc
    exact hc32 ((isSpace_of_mem_alphabet (ha c hc)).mp this)
  rw [trimSpace_eq_rdropWhile]
  intro e
  have hall := (List.rdropWhile_eq_nil_iff).mp e
  have hl : 0 < (w.dropWhile isSpace).length := List.length_pos.mpr hd
  exact List.dropWhile_get_zero_not isSpace w hl (hall _ (List.get_mem _ _ _))

/-! ## Records and the bytes of the file -/

theorem render_nil : render [] = [] := rfl

theorem render_cons (r : Record) (rs : List Record) : render (r :: rs) = r.bytes ++ render rs := by
  simp [render]

theorem render_append (a b : List Record) : render (a ++ b) = render a ++ render b := by
  simp [render]

theorem Record.length_bytes (r : Record) :
    r.bytes.length = r.word.length + r.offset.length + 2 := by
  simp [Record.bytes]; omega

theorem isLetter_iff (c : Nat) :
    isLetter c = true ↔ (97 ≤ c ∧ c ≤ 122) ∨ c = 228 ∨ c = 229 ∨ c = 246 := by
  simp [isLetter, or_assoc]

theorem isDigit_iff (c : Nat) : isDigit c = true ↔ 48 ≤ c ∧ c ≤ 57 := by
  simp [isDigit]

theorem mem_alphabet_of_isLetter {c : Nat} (h : isLetter c = true) : c ∈ alphabet := by
  rw [isLetter_iff] at h; rw [mem_alphabet_iff]; omega

theorem ne_space_of_isLetter {c : Nat} (h : isLetter c = true) : c ≠ 32 := by
  rw [isLetter_iff] at h; omega

theorem Record.WellFormed.overAlphabet {r : Record} (h : r.WellFormed) : OverAlphabet r.word :=
  fun c hc => mem_alphabet_of_isLetter (h.2.1 c hc)

theorem overAlphabet_of_letters {w : Bytes} (h : ∀ c ∈ w, isLetter c = true) : OverAlphabet w :=
  fun c hc => mem_alphabet_of_isLetter (h c hc)

theorem head?_ne_space_of_letters {w : Bytes} (h : ∀ c ∈ w, isLetter c = true) :
    w.head? ≠ some 32 := by
  cases w with
  | nil => simp
  | cons c t =>
    have := ne_space_of_isLetter (h c (List.mem_cons_self _ _))
    simpa using this

/-- The hash of a non-empty word of letters is the key of its first three letters. -/
theorem hashOf_letters {w : Bytes} (hne : w ≠ []) (h : ∀ c ∈ w, isLetter c = true) :
    Konkordans.hash w = Outcome.ok (key3 w) :=
  hash_eq_key3 (overAlphabet_of_letters h) hne (head?_ne_space_of_letters h)

theorem hashOf_eq_key3 {w : Bytes} (hne : w ≠ []) (h : ∀ c ∈ w, isLetter c = true) :
    hashOf w = key3 w := by
  unfold hashOf; rw [hashOf_letters hne h]

theorem key3_ge_of_letters {w : Bytes} (hne : w ≠ []) (h : ∀ c ∈ w, isLetter c = true) :
    900 ≤ key3 w := by
  obtain ⟨c, t, rfl⟩ := List.exists_cons_of_ne_nil hne
  have hc := h c (List.mem_cons_self _ _)
  have h1 := charValues_pos (mem_alphabet_of_isLetter hc) (ne_space_of_isLetter hc)
  have h2 := charValues_nonneg ((c :: t).getD 1 32)
  have h3 := charValues_nonneg ((c :: t).getD 2 32)
  unfold key3
  simp only [List.getD_cons_zero]
  omega

theorem Record.WellFormed.hashOf_ge {r : Record} (h : r.WellFormed) : 900 ≤ hashOf r.word := by
  rw [hashOf_eq_key3 h.1 h.2.1]; exact key3_ge_of_letters h.1 h.2.1

theorem Record.WellFormed.hashOf_lt {r : Record} (h : r.WellFormed) : hashOf r.word < 27000 := by
  rw [hashOf_eq_key3 h.1 h.2.1]; exact key3_lt _

/-- The first three bytes of a well-formed record, and the builder's hash of them. -/
theorem Record.WellFormed.first_three {r : Record} (h : r.WellFormed) :
    ∃ c1 c2 c3 t, r.bytes = c1 :: c2 :: c3 :: t ∧ Index.hash c1 c2 c3 = hashOf r.word := by
  obtain ⟨hw, hl, ho, hd⟩ := h
  rw [hashOf_eq_key3 hw hl]
  obtain ⟨d, ds, hds⟩ := List.exists_cons_of_ne_nil ho
  have hd32 : d ≠ 32 := by
    have := (isDigit_iff d).mp (hd d (by rw [hds]; exact List.mem_cons_self _ _))
    omega
  unfold Record.bytes key3 Index.hash
  rw [hds]
  match hwd : r.word, hw with
  | [a], _ =>
    exact ⟨a, 32, d, ds ++ [10], by simp, by simp [charValues_space]⟩
  | [a, b], _ =>
    have hb : b ≠ 32 := ne_space_of_isLetter (hl b (by rw [hwd]; simp))
    exact ⟨a, b, 32, d :: (ds ++ [10]), by simp, by simp [charValues_space, hb]⟩
  | a :: b :: c :: t, _ =>
    have hb : b ≠ 32 := ne_space_of_isLetter (hl b (by rw [hwd]; simp))
    have hc : c ≠ 32 := ne_space_of_isLetter (hl c (by rw [hwd]; simp))
    exact ⟨a, b, c, t ++ 32 :: d :: (ds ++ [10]), by simp, by simp [hb, hc]⟩

/-- A well-formed record is a line: no newline before its last byte. -/
theorem Record.WellFormed.bytes_eq {r : Record} (h : r.WellFormed) :
    ∃ body, r.bytes = body ++ [10] ∧ 10 ∉ body ∧ body.length + 1 = r.bytes.length := by
  refine ⟨r.word ++ 32 :: r.offset, by simp [Record.bytes], ?_, by simp [Record.bytes]; omega⟩
  intro hm
  rcases List.mem_append.mp hm with h1 | h1
  · have := (isLetter_iff _).mp (h.2.1 _ h1); omega
  · rcases List.mem_cons.mp h1 with h2 | h2
    · omega
    · have := (isDigit_iff _).mp (h.2.2.2 _ h2); omega

theorem Record.WellFormed.four_le {r : Record} (h : r.WellFormed) : 4 ≤ r.bytes.length := by
  have h1 := List.length_pos.mpr h.1
  have h2 := List.length_pos.mpr h.2.2.1
  rw [Record.length_bytes]; omega

theorem WellFormed.of_cons {r : Record} {rs : List Record} (h : WellFormed (r :: rs)) :
    r.WellFormed ∧ WellFormed rs :=
  ⟨h r (List.mem_cons_self _ _), fun x hx => h x (List.mem_cons_of_mem _ hx)⟩

theorem WellFormed.of_append {a b : List Record} (h : WellFormed (a ++ b)) :
    WellFormed a ∧ WellFormed b :=
  ⟨fun x hx => h x (List.mem_append_left _ hx), fun x hx => h x (List.mem_append_right _ hx)⟩

/-- Every position inside the file lies in exactly one record. -/
theorem locate : ∀ (b : List Record) (k : Nat), k < (render b).length →
    ∃ s0 r0 b1, b = s0 ++ r0 :: b1 ∧ (render s0).length ≤ k ∧
      k < (render s0).length + r0.bytes.length
  | [], k, h => by simp [render] at h
  | r :: rest, k, h => by
    by_cases hk : k < r.bytes.length
    · exact ⟨[], r, rest, rfl, by simp [render], by simpa [render] using hk⟩
    · rw [render_cons, List.length_append] at h
      obtain ⟨s0, r0, b1, e, h1, h2⟩ := locate rest (k - r.bytes.length) (by omega)
      refine ⟨r :: s0, r0, b1, by rw [e]; rfl, ?_, ?_⟩
      · rw [render_cons, List.length_append]; omega
      · rw [render_cons, List.length_append]; omega

/-! ## Reading the file -/

theorem seekNewLineFrom_body : ∀ (body post : Bytes) (p : Nat), 10 ∉ body →
    Index.seekNewLineFrom (body ++ 10 :: post) p = (false, p + body.length + 1)
  | [], post, p, _ => by simp [Index.seekNewLineFrom]
  | c :: body, post, p, h => by
    have hc : c ≠ 10 := fun e => h (e ▸ List.mem_cons_self _ _)
    have hb : 10 ∉ body := fun e => h (List.mem_cons_of_mem _ e)
    rw [List.cons_append, Index.seekNewLineFrom, if_neg hc,
      seekNewLineFrom_body body post (p + 1) hb]
    simp only [List.length_cons]
    congr 1
    omega

/-- `seekNewLine` started anywhere inside a record stops at the start of the next. -/
theorem seekNewLine_in_record {r : Record} (h : r.WellFormed) (X Y : Bytes) (p : Nat)
    (h1 : X.length ≤ p) (h2 : p < X.length + r.bytes.length) :
    Index.seekNewLine (X ++ r.bytes ++ Y) p = (false, X.length + r.bytes.length) := by
  obtain ⟨body, hb, hn, hlen⟩ := h.bytes_eq
  unfold Index.seekNewLine
  have hd : (X ++ r.bytes ++ Y).drop p = body.drop (p - X.length) ++ 10 :: Y := by
    rw [hb] at h2 ⊢
    simp only [List.length_append, List.length_singleton] at h2
    have h0 : p - X.length - body.length = 0 := by omega
    rw [List.append_assoc, List.drop_append_eq_append_drop, List.drop_eq_nil_of_le h1,
      List.nil_append, List.append_assoc, List.drop_append_eq_append_drop, h0]
    rfl
  have hn2 : 10 ∉ body.drop (p - X.length) := fun e => hn (List.mem_of_mem_drop e)
  rw [hd, seekNewLineFrom_body _ _ _ hn2, List.length_drop]
  congr 1
  omega

theorem seekNewLine_at_end (f : Bytes) (p : Nat) (h : f.length ≤ p) :
    Index.seekNewLine f p = (true, p) := by
  unfold Index.seekNewLine
  rw [List.drop_eq_nil_of_le h]
  rfl

theorem readThreeBytes_at_end (f : Bytes) (p : Nat) (h : f.length ≤ p) :
    Index.readThreeBytes f p = ((0, 0, 0, true), p) := by
  unfold Index.readThreeBytes
  rw [List.drop_eq_nil_of_le h]

/-- `readThreeBytes` at the start of a record reads its first three bytes, and the
builder's hash of them is the hash of the word. -/
theorem readThreeBytes_at_record {r : Record} (h : r.WellFormed) (X Y : Bytes) :
    ∃ c1 c2 c3, Index.readThreeBytes (X ++ r.bytes ++ Y) X.length
        = ((c1, c2, c3, false), X.length + 3) ∧
      Index.hash c1 c2 c3 = hashOf r.word := by
  obtain ⟨c1, c2, c3, t, hb, hh⟩ := h.first_three
  refine ⟨c1, c2, c3, ?_, hh⟩
  unfold Index.readThreeBytes
  rw [List.append_assoc, List.drop_left, hb]
  rfl

theorem hash_zero : Index.hash 0 0 0 = 0 := by decide

/-! ## The loops of the builder -/

theorem length_le_render : ∀ (rs : List Record), WellFormed rs →
    rs.length ≤ (render rs).length
  | [], _ => by simp
  | r :: rs, h => by
    have h1 := h.of_cons.1.four_le
    have h2 := length_le_render rs h.of_cons.2
    rw [render_cons, List.length_append, List.length_cons]
    omega

/-- `nextHash` leaves the read position at a record boundary, and every record it
jumps over has the hash it was called with. -/
theorem nextHashLoop_spec (f : Bytes) (H : Int) (hH : H ≠ 0) :
    ∀ (fuel : Nat) (a b : List Record) (pos : Nat),
      f = render (a ++ b) → WellFormed (a ++ b) → HashSorted b →
      (∀ r ∈ b, H ≤ hashOf r.word) → (render a).length ≤ pos →
      f.length - pos + 1 ≤ fuel →
      ∃ s rest, b = s ++ rest ∧ (∀ r ∈ s, hashOf r.word = H) ∧
        Index.nextHashLoop f H fuel pos (render a).length
          = some ((render a).length + (render s).length)
  | 0, _, _, _, _, _, _, _, _, hf => by omega
  | fuel + 1, a, b, pos, hf, wf, hs, hge, hpos, hfuel => by
    unfold Index.nextHashLoop
    simp only
    by_cases hend : f.length ≤ pos + 2500
    · refine ⟨[], b, rfl, by simp, ?_⟩
      rw [seekNewLine_at_end f _ hend, readThreeBytes_at_end f _ hend]
      simp only [hash_zero]
      rw [if_pos (Ne.symm hH)]
      simp [render]
    · have hk : pos + 2500 - (render a).length < (render b).length := by
        rw [hf, render_append, List.length_append] at hend
        omega
      obtain ⟨s0, r0, b1, hb, h1, h2⟩ := locate b _ hk
      have wfb := wf.of_append.2
      have wr0 : r0.WellFormed := wfb r0 (by rw [hb]; simp)
      have hfile : f = (render a ++ render s0) ++ r0.bytes ++ render b1 := by
        rw [hf, hb, render_append, render_append, render_cons]
        simp only [List.append_assoc]
      have hseek : Index.seekNewLine f (pos + 2500)
          = (false, (render a).length + (render s0).length + r0.bytes.length) := by
        rw [hfile, seekNewLine_in_record wr0 _ _ (pos + 2500)
          (by rw [List.length_append]; omega) (by rw [List.length_append]; omega),
          List.length_append]
      rw [hseek]
      simp only
      match b1, hb, hfile with
      | [], hb, hfile =>
        refine ⟨[], b, rfl, by simp, ?_⟩
        have hlen : f.length ≤ (render a).length + (render s0).length + r0.bytes.length := by
          rw [hfile]; simp [render]; omega
        rw [readThreeBytes_at_end f _ hlen]
        simp only [hash_zero]
        rw [if_pos (Ne.symm hH)]
        simp [render]
      | r1 :: b2, hb, hfile =>
        have wr1 : r1.WellFormed := wfb r1 (by rw [hb]; simp)
        have hfile2 : f = (render a ++ render s0 ++ r0.bytes) ++ r1.bytes ++ render b2 := by
          rw [hfile, render_cons]
          simp only [List.append_assoc]
        obtain ⟨c1, c2, c3, hread, hhash⟩ := readThreeBytes_at_record wr1
          (render a ++ render s0 ++ r0.bytes) (render b2)
        rw [← hfile2] at hread
        have hl : (render a ++ render s0 ++ r0.bytes).length
            = (render a).length + (render s0).length + r0.bytes.length := by
          simp only [List.length_append]
        rw [hl] at hread
        rw [hread]
        simp only [hhash]
        by_cases hne : hashOf r1.word = H
        · rw [if_neg (by simpa using hne)]
          have hab : a ++ b = (a ++ (s0 ++ [r0])) ++ (r1 :: b2) := by
            rw [hb]; simp
          have hra : (render (a ++ (s0 ++ [r0]))).length
              = (render a).length + (render s0).length + r0.bytes.length := by
            simp [render_append, render_cons, render_nil]; omega
          have hs' : List.Pairwise (fun a b => hashOf a.word ≤ hashOf b.word)
              ((s0 ++ [r0]) ++ (r1 :: b2)) := by
            rw [hb] at hs; simpa [HashSorted] using hs
          have pw := List.pairwise_append.mp hs'
          have hs2 : HashSorted (r1 :: b2) := pw.2.1
          obtain ⟨s', rest', e', hall', hres'⟩ := nextHashLoop_spec f H hH fuel
            (a ++ (s0 ++ [r0])) (r1 :: b2)
            ((render a).length + (render s0).length + r0.bytes.length + 3)
            (by rw [hf, hab]) (by rw [← hab]; exact wf) hs2
            (fun r hr => hge r (by rw [hb]; simp; right; right; simpa using hr))
            (by rw [hra]; omega)
            (by omega)
          rw [hra] at hres'
          refine ⟨s0 ++ [r0] ++ s', rest', ?_, ?_, ?_⟩
          · rw [hb, List.append_assoc, List.append_assoc, ← e']; simp
          · intro r hr
            rcases List.mem_append.mp hr with h3 | h3
            · have hle : hashOf r.word ≤ hashOf r1.word :=
                pw.2.2 r h3 r1 (List.mem_cons_self _ _)
              have hmem : r ∈ b := by
                rw [hb]
                rcases List.mem_append.mp h3 with h4 | h4
                · exact List.mem_append_left _ h4
                · rw [List.mem_singleton.mp h4]
                  exact List.mem_append_right _ (List.mem_cons_self _ _)
              have := hge r hmem
              omega
            · exact hall' r h3
          · rw [hres']
            simp [render_append, render_cons, render_nil]; omega
        · rw [if_pos (by simpa using hne)]
          exact ⟨[], b, rfl, by simp, by simp [render]⟩

/-- The inner loop passes the records that have the previous hash and stops at the
first record with another hash, writing its offset once for every hash value it
moved past. -/
theorem innerLoop_found (f : Bytes) (prev : Int) (r : Record) (post : List Record) :
    ∀ (same a : List Record) (fuel : Nat) (curr : Int),
      f = render (a ++ (same ++ r :: post)) → WellFormed (a ++ (same ++ r :: post)) →
      (∀ x ∈ same, hashOf x.word = prev) → hashOf r.word ≠ prev → same.length + 1 ≤ fuel →
      Index.innerLoop f prev fuel (render a).length curr
        = some ⟨(render a).length + (render same).length + r.bytes.length, hashOf r.word,
            (render a).length + (render same).length, false,
            List.replicate (hashOf r.word - prev).toNat
              (((render a).length + (render same).length : Nat) : Int)⟩
  | _, _, 0, _, _, _, _, _, hfuel => by omega
  | [], a, fuel + 1, curr, hf, wf, _, hne, _ => by
    have wr : r.WellFormed := wf r (by simp)
    have hfile : f = render a ++ r.bytes ++ render post := by
      rw [hf]; simp [render_append, render_cons]
    obtain ⟨c1, c2, c3, hread, hhash⟩ := readThreeBytes_at_record wr (render a) (render post)
    rw [← hfile] at hread
    have hseek := seekNewLine_in_record wr (render a) (render post) ((render a).length + 3)
      (by omega) (by have := wr.four_le; omega)
    rw [← hfile] at hseek
    unfold Index.innerLoop
    simp only [hread, hseek, hhash, render_nil, List.length_nil, Nat.add_zero]
    simp [hne]
  | x :: same, a, fuel + 1, curr, hf, wf, hall, hne, hfuel => by
    have wx : x.WellFormed := wf x (by simp)
    have hx : hashOf x.word = prev := hall x (List.mem_cons_self _ _)
    have hfile : f = render a ++ x.bytes ++ render (same ++ r :: post) := by
      rw [hf]; simp [render_append, render_cons]
    obtain ⟨c1, c2, c3, hread, hhash⟩ :=
      readThreeBytes_at_record wx (render a) (render (same ++ r :: post))
    rw [← hfile] at hread
    have hseek := seekNewLine_in_record wx (render a) (render (same ++ r :: post))
      ((render a).length + 3) (by omega) (by have := wx.four_le; omega)
    rw [← hfile] at hseek
    have hab : a ++ (x :: same ++ r :: post) = (a ++ [x]) ++ (same ++ r :: post) := by simp
    have ih := innerLoop_found f prev r post same (a ++ [x]) fuel prev
      (by rw [hf, hab]) (by rw [← hab]; exact wf)
      (fun y hy => hall y (List.mem_cons_of_mem _ hy)) hne
      (by simp only [List.length_cons] at hfuel; omega)
    have hra : (render (a ++ [x])).length = (render a).length + x.bytes.length := by
      simp [render_append, render_cons, render_nil]
    rw [hra] at ih
    unfold Index.innerLoop
    simp only [hread, hseek, hhash, hx]
    simp only [ne_eq, not_true_eq_false, if_false, Bool.false_eq_true]
    rw [ih]
    simp only [render_cons, List.length_append]
    congr 2 <;> first | omega | (congr 1; omega)

/-- The inner loop over records that all have the previous hash runs to the end of the
file. -/
theorem innerLoop_eof (f : Bytes) (prev : Int) :
    ∀ (same a : List Record) (fuel : Nat) (curr : Int),
      f = render (a ++ same) → WellFormed (a ++ same) →
      (∀ x ∈ same, hashOf x.word = prev) → same.length + 1 ≤ fuel →
      ∃ c, Index.innerLoop f prev fuel (render a).length curr
        = some ⟨f.length, c, f.length, true, []⟩
  | _, _, 0, _, _, _, _, hfuel => by omega
  | [], a, fuel + 1, curr, hf, _, _, _ => by
    have hlen : f.length ≤ (render a).length := by rw [hf]; simp
    have hlen2 : (render a).length = f.length := by rw [hf]; simp
    unfold Index.innerLoop
    rw [hlen2]
    simp only [readThreeBytes_at_end f f.length (Nat.le_refl _)]
    exact ⟨curr, by simp⟩
  | x :: same, a, fuel + 1, curr, hf, wf, hall, hfuel => by
    have wx : x.WellFormed := wf x (by simp)
    have hx : hashOf x.word = prev := hall x (List.mem_cons_self _ _)
    have hfile : f = render a ++ x.bytes ++ render same := by
      rw [hf]; simp [render_append, render_cons]
    obtain ⟨c1, c2, c3, hread, hhash⟩ := readThreeBytes_at_record wx (render a) (render same)
    rw [← hfile] at hread
    have hseek := seekNewLine_in_record wx (render a) (render same)
      ((render a).length + 3) (by omega) (by have := wx.four_le; omega)
    rw [← hfile] at hseek
    have hab : a ++ (x :: same) = (a ++ [x]) ++ same := by simp
    obtain ⟨c, ih⟩ := innerLoop_eof f prev same (a ++ [x]) fuel prev
      (by rw [hf, hab]) (by rw [← hab]; exact wf)
      (fun y hy => hall y (List.mem_cons_of_mem _ hy))
      (by simp only [List.length_cons] at hfuel; omega)
    have hra : (render (a ++ [x])).length = (render a).length + x.bytes.length := by
      simp [render_append, render_cons, render_nil]
    rw [hra] at ih
    refine ⟨c, ?_⟩
    unfold Index.innerLoop
    simp only [hread, hseek, hhash, hx]
    simp only [ne_eq, not_true_eq_false, if_false, Bool.false_eq_true]
    rw [ih]

theorem tableFrom_same (prev : Int) : ∀ (same rest : List Record) (off : Nat),
    (∀ x ∈ same, hashOf x.word = prev) →
    tableFrom off prev (same ++ rest) = tableFrom (off + (render same).length) prev rest
  | [], rest, off, _ => by simp [render]
  | x :: same, rest, off, h => by
    have hx : hashOf x.word = prev := h x (List.mem_cons_self _ _)
    rw [List.cons_append, tableFrom, hx]
    simp only [ne_eq, not_true_eq_false, if_false, List.nil_append]
    rw [tableFrom_same prev same rest _ (fun y hy => h y (List.mem_cons_of_mem _ hy)),
      render_cons, List.length_append, Nat.add_assoc]

theorem split_same (prev : Int) : ∀ (post : List Record),
    ∃ same rest, post = same ++ rest ∧ (∀ x ∈ same, hashOf x.word = prev) ∧
      (rest = [] ∨ ∃ r post', rest = r :: post' ∧ hashOf r.word ≠ prev)
  | [] => ⟨[], [], rfl, by simp, Or.inl rfl⟩
  | x :: post => by
    by_cases hx : hashOf x.word = prev
    · obtain ⟨same, rest, e, hall, hr⟩ := split_same prev post
      refine ⟨x :: same, rest, by rw [e]; rfl, ?_, hr⟩
      intro y hy
      rcases List.mem_cons.mp hy with h | h
      · rw [h]; exact hx
      · exact hall y h
    · exact ⟨[], x :: post, rfl, by simp, Or.inr ⟨x, post, rfl, hx⟩⟩

/-- The outer loop of `main`, started at a record boundary, writes the table of the
plain scan of the records that follow. -/
theorem mainLoop_spec (f : Bytes) (n : Nat) (hn : f.length + 2 ≤ n) :
    ∀ (fuel : Nat) (a post : List Record) (prev curr : Int) (out : List Int),
      f = render (a ++ post) → WellFormed (a ++ post) → HashSorted post →
      post.length + 1 ≤ fuel →
      Index.mainLoop f n fuel (render a).length prev curr out
        = some (out ++ tableFrom (render a).length prev post)
  | 0, _, _, _, _, _, _, _, _, hfuel => by omega
  | fuel + 1, a, post, prev, curr, out, hf, wf, hs, hfuel => by
    obtain ⟨same, rest, hpost, hall, hrest⟩ := split_same prev post
    have hlenpost : post.length ≤ f.length := by
      have := length_le_render _ wf
      rw [← hf, List.length_append] at this
      omega
    have hsame : same.length + 1 ≤ n := by
      have : same.length ≤ post.length := by rw [hpost, List.length_append]; omega
      omega
    unfold Index.mainLoop
    rcases hrest with hnil | ⟨r, post', hcons, hne⟩
    · -- the scan runs to the end of the file
      subst hnil
      rw [List.append_nil] at hpost
      subst hpost
      obtain ⟨c, hin⟩ := innerLoop_eof f prev post a n curr hf wf hall hsame
      rw [hin]
      simp only
      have hno : ¬ ((f.length : Int) < (f.length : Int) - 5000) := by omega
      rw [if_neg hno]
      simp only [if_true, List.append_nil]
      have := tableFrom_same prev post [] (render a).length hall
      rw [List.append_nil] at this
      rw [this, tableFrom]
      simp
    · -- a record with a new hash
      subst hcons
      subst hpost
      have hin := innerLoop_found f prev r post' same a n curr hf wf hall hne hsame
      rw [hin]
      simp only
      have wr : r.WellFormed := wf r (by simp)
      have hH : hashOf r.word ≠ 0 := by have := wr.hashOf_ge; omega
      have hab : a ++ (same ++ r :: post') = (a ++ (same ++ [r])) ++ post' := by simp
      have hra : (render (a ++ (same ++ [r]))).length
          = (render a).length + (render same).length + r.bytes.length := by
        simp [render_append, render_cons, render_nil]; omega
      have pw : List.Pairwise (fun a b => hashOf a.word ≤ hashOf b.word)
          (same ++ r :: post') := hs
      have pw2 := (List.pairwise_append.mp pw).2.1
      have hs' : HashSorted post' := (List.pairwise_cons.mp pw2).2
      have hge : ∀ x ∈ post', hashOf r.word ≤ hashOf x.word := (List.pairwise_cons.mp pw2).1
      have hafter : ∃ sk post'', post' = sk ++ post'' ∧
          (∀ x ∈ sk, hashOf x.word = hashOf r.word) ∧
          (if (((render a).length + (render same).length : Nat) : Int) < (f.length : Int) - 5000
            then Index.nextHash f n (hashOf r.word)
              ((render a).length + (render same).length + r.bytes.length)
            else some ((render a).length + (render same).length + r.bytes.length))
          = some ((render a).length + (render same).length + r.bytes.length
              + (render sk).length) := by
        split_ifs with hc
        · obtain ⟨sk, post'', e, hsk, hres⟩ := nextHashLoop_spec f (hashOf r.word) hH n
            (a ++ (same ++ [r])) post'
            ((render a).length + (render same).length + r.bytes.length)
            (by rw [hf, hab]) (by rw [← hab]; exact wf) hs' hge (by rw [hra])
            (by omega)
          rw [hra] at hres
          exact ⟨sk, post'', e, hsk, hres⟩
        · exact ⟨[], post', rfl, by simp, by simp [render]⟩
      obtain ⟨sk, post'', e, hsk, hres⟩ := hafter
      rw [hres]
      simp only [Bool.false_eq_true, if_false]
      subst e
      have hab2 : a ++ (same ++ r :: (sk ++ post''))
          = (a ++ (same ++ r :: sk)) ++ post'' := by simp
      have hra2 : (render (a ++ (same ++ r :: sk))).length
          = (render a).length + (render same).length + r.bytes.length + (render sk).length := by
        simp [render_append, render_cons, render_nil]; omega
      have hs'' : HashSorted post'' := (List.pairwise_append.mp hs').2.1
      have ih := mainLoop_spec f n hn fuel (a ++ (same ++ r :: sk)) post'' (hashOf r.word)
        (hashOf r.word)
        (out ++ List.replicate (hashOf r.word - prev).toNat
          (((render a).length + (render same).length : Nat) : Int))
        (by rw [hf, hab2]) (by rw [← hab2]; exact wf) hs''
        (by simp only [List.length_append, List.length_cons] at hfuel; omega)
      rw [hra2] at ih
      rw [ih, tableFrom_same prev same _ _ hall, tableFrom, if_pos hne,
        tableFrom_same (hashOf r.word) sk post'' _ hsk]
      simp only [List.append_assoc]

/-! ## The table of the plain scan -/

theorem tableFrom_cons (off : Nat) (prev : Int) (r : Record) (rest : List Record) :
    tableFrom off prev (r :: rest)
      = List.replicate (hashOf r.word - prev).toNat (off : Int)
        ++ tableFrom (off + r.bytes.length) (hashOf r.word) rest := by
  rw [tableFrom]
  split_ifs with hc
  · rfl
  · have h0 : (hashOf r.word - prev).toNat = 0 := by omega
    rw [h0]; rfl

/-- The plain scan writes one entry for every hash above `prev` up to the hash of the
last record. -/
theorem tableFrom_length : ∀ (rs : List Record) (off : Nat) (prev : Int),
    HashSorted rs → (∀ r ∈ rs, prev ≤ hashOf r.word) →
    ((tableFrom off prev rs).length : Int)
      = ((rs.getLast?.map (fun r => hashOf r.word)).getD prev) - prev
  | [], _, _, _, _ => by simp [tableFrom]
  | r :: rest, off, prev, hs, hge => by
    have hr := hge r (List.mem_cons_self _ _)
    have hs' : HashSorted rest := (List.pairwise_cons.mp hs).2
    have hge' : ∀ x ∈ rest, hashOf r.word ≤ hashOf x.word := (List.pairwise_cons.mp hs).1
    have ih := tableFrom_length rest (off + r.bytes.length) (hashOf r.word) hs' hge'
    rw [tableFrom_cons, List.length_append, List.length_replicate]
    push_cast
    rw [ih]
    cases rest with
    | nil => simp; omega
    | cons x xs =>
      have hl : (x :: xs).getLast? = some ((x :: xs).getLast (List.cons_ne_nil _ _)) :=
        List.getLast?_eq_getLast _ _
      rw [List.getLast?_cons_cons, hl]
      simp only [Option.map_some', Option.getD_some]
      omega

theorem tableFrom_getElem? : ∀ (rs : List Record) (off : Nat) (prev : Int),
    HashSorted rs → (∀ r ∈ rs, prev ≤ hashOf r.word) →
    ∀ i : Nat, i < (tableFrom off prev rs).length →
      (tableFrom off prev rs)[i]? = some ((firstOffsetGE (prev + 1 + i) rs off : Nat) : Int)
  | [], _, _, _, _, i, hi => by simp [tableFrom] at hi
  | r :: rest, off, prev, hs, hge, i, hi => by
    have hr := hge r (List.mem_cons_self _ _)
    have hs' : HashSorted rest := (List.pairwise_cons.mp hs).2
    have hge' : ∀ x ∈ rest, hashOf r.word ≤ hashOf x.word := (List.pairwise_cons.mp hs).1
    rw [tableFrom_cons] at hi ⊢
    rw [List.length_append, List.length_replicate] at hi
    by_cases hlt : i < (hashOf r.word - prev).toNat
    · rw [List.getElem?_append_left (by rw [List.length_replicate]; exact hlt),
        List.getElem?_replicate, if_pos hlt, firstOffsetGE, if_pos (by omega)]
    · rw [List.getElem?_append_right (by rw [List.length_replicate]; omega),
        List.length_replicate,
        tableFrom_getElem? rest _ _ hs' hge' _ (by omega), firstOffsetGE, if_neg (by omega)]
      congr 3
      omega

/-! ## The bytes of the table file -/

theorem length_int64Bytes (v : Int) : (int64Bytes v).length = 8 := rfl

theorem indexFile_cons (v : Int) (t : List Int) :
    indexFile (v :: t) = int64Bytes v ++ indexFile t := by
  simp [indexFile]

theorem length_indexFile : ∀ (t : List Int), (indexFile t).length = 8 * t.length
  | [] => rfl
  | v :: t => by
    rw [indexFile_cons, List.length_append, length_int64Bytes, length_indexFile t,
      List.length_cons]
    omega

theorem drop_indexFile : ∀ (t : List Int) (h : Nat),
    (indexFile t).drop (8 * h) = indexFile (t.drop h)
  | [], h => by simp [indexFile]
  | v :: t, 0 => by simp
  | v :: t, h + 1 => by
    rw [indexFile_cons, List.drop_succ_cons, ← drop_indexFile t h,
      show 8 * (h + 1) = 8 + 8 * h by omega, ← List.drop_drop]
    congr 1

/-- Entry `h` of the table file: its eight bytes are the value of write number `h`. -/
theorem entry_indexFile {t : List Int} {h : Nat} {v : Int} (e : t[h]? = some v) :
    ((indexFile t).drop (8 * h)).take 8 = int64Bytes v := by
  rw [drop_indexFile]
  have hlt : h < t.length := by
    rcases Nat.lt_or_ge h t.length with h1 | h1
    · exact h1
    · rw [List.getElem?_eq_none h1] at e; cases e
  have hd : t.drop h = v :: t.drop (h + 1) := by
    rw [List.drop_eq_getElem_cons hlt]
    congr 1
    rw [List.getElem?_eq_getElem hlt] at e
    exact Option.some.inj e
  rw [hd, indexFile_cons, List.take_append_eq_append_take, length_int64Bytes]
  simp [int64Bytes]

theorem int64_roundtrip (v : Int) (h1 : -9223372036854775808 ≤ v)
    (h2 : v < 9223372036854775808) : int64OfBytes (int64Bytes v) = v := by
  unfold int64OfBytes int64Bytes
  simp only [List.getD_cons_zero, List.getD_cons_succ]
  split_ifs with hc <;> omega

/-- The builder writes the table of the plain scan. -/
theorem tableWrites_eq_tableFrom (rs : List Record) (wf : WellFormed rs) (hs : HashSorted rs) :
    Index.tableWrites (render rs) = some (tableFrom 0 (-1) rs) := by
  have h := mainLoop_spec (render rs) ((render rs).length + 2) (Nat.le_refl _)
    ((render rs).length + 2) [] rs (-1) 0 [] (by simp) (by simpa using wf) hs
    (by have := length_le_render rs wf; omega)
  simpa [Index.tableWrites, render_nil] using h

/-! ## Reading the sorted index in konkordans.go -/

theorem goToNewLineFrom_eq (l : Bytes) : ∀ (p : Nat),
    goToNewLineFrom l p
      = if (Index.seekNewLineFrom l p).1 then none else some (Index.seekNewLineFrom l p).2 := by
  induction l with
  | nil => intro p; rfl
  | cons c t ih =>
    intro p
    rw [goToNewLineFrom, Index.seekNewLineFrom]
    by_cases hc : c = 10
    · simp [hc]
    · simp only [hc, if_false]
      exact ih (p + 1)

theorem goToNewLine_in_record {r : Record} (h : r.WellFormed) (X Y : Bytes) (p : Nat)
    (h1 : X.length ≤ p) (h2 : p < X.length + r.bytes.length) :
    goToNewLine (X ++ r.bytes ++ Y) p = some (X.length + r.bytes.length) := by
  have hs := seekNewLine_in_record h X Y p h1 h2
  unfold Index.seekNewLine at hs
  unfold goToNewLine
  rw [goToNewLineFrom_eq, hs]
  rfl

theorem readBytesFrom_body (d : Nat) : ∀ (body post : Bytes), d ∉ body →
    readBytesFrom d (body ++ d :: post) = (body ++ [d], false)
  | [], post, _ => by simp [readBytesFrom]
  | c :: body, post, h => by
    have hc : c ≠ d := fun e => h (e ▸ List.mem_cons_self _ _)
    have hb : d ∉ body := fun e => h (List.mem_cons_of_mem _ e)
    rw [List.cons_append, readBytesFrom, if_neg hc, readBytesFrom_body d body post hb]
    rfl

theorem readBytes_at_end (f : Bytes) (p d : Nat) (h : f.length ≤ p) :
    readBytes f p d = ([], true) := by
  unfold readBytes
  rw [List.drop_eq_nil_of_le h]
  rfl

/-- At the start of a record, `ReadBytes(' ')` gives the word and the space. -/
theorem readBytes_word {r : Record} (h : r.WellFormed) (X Y : Bytes) :
    readBytes (X ++ r.bytes ++ Y) X.length 32 = (r.word ++ [32], false) := by
  have hn : 32 ∉ r.word := fun e => ne_space_of_isLetter (h.2.1 32 e) rfl
  unfold readBytes
  rw [List.append_assoc, List.drop_left]
  have e : r.bytes ++ Y = r.word ++ 32 :: (r.offset ++ [10] ++ Y) := by
    simp [Record.bytes]
  rw [e, readBytesFrom_body 32 _ _ hn]

/-- After the word and the space, `ReadBytes('\n')` gives the offset field and the
newline. -/
theorem readBytes_offset {r : Record} (h : r.WellFormed) (X Y : Bytes) :
    readBytes (X ++ r.bytes ++ Y) (X.length + (r.word ++ [32]).length) 10
      = (r.offset ++ [10], false) := by
  have hn : 10 ∉ r.offset := by
    intro e
    have := (isDigit_iff 10).mp (h.2.2.2 10 e)
    omega
  unfold readBytes
  have e : X ++ r.bytes ++ Y = (X ++ (r.word ++ [32])) ++ (r.offset ++ 10 :: Y) := by
    simp [Record.bytes]
  rw [e, ← List.length_append, List.drop_left, readBytesFrom_body 10 _ _ hn]

theorem Record.length_bytes_eq (r : Record) :
    r.bytes.length = (r.word ++ [32]).length + (r.offset ++ [10]).length := by
  simp [Record.bytes]; omega

/-! ## The order of words -/

theorem strLt_irrefl (a : Bytes) : strLt a a = false := by
  cases h : strLt a a
  · rfl
  · exact absurd ((strLt_iff_lt a a).mp h) (lt_irrefl a)

theorem strLt_of_le_of_lt {a b c : Bytes} (h1 : strLt b a = false) (h2 : strLt b c = true) :
    strLt a c = true := by
  have h1' : ¬ b < a := fun e => by
    have := (strLt_iff_lt b a).mpr e
    rw [h1] at this; cases this
  exact (strLt_iff_lt a c).mpr (lt_of_le_of_lt (not_lt.mp h1') ((strLt_iff_lt b c).mp h2))

theorem strLt_of_le_of_ne {a b : Bytes} (h1 : strLt b a = false) (h2 : a ≠ b) :
    strLt a b = true := by
  have h1' : ¬ b < a := fun e => by
    have := (strLt_iff_lt b a).mpr e
    rw [h1] at this; cases this
  exact (strLt_iff_lt a b).mpr (lt_of_le_of_ne (not_lt.mp h1') h2)

theorem strLt_asymm {a b : Bytes} (h : strLt a b = true) : strLt b a = false := by
  cases h2 : strLt b a
  · rfl
  · exact absurd ((strLt_iff_lt b a).mp h2) (lt_asymm ((strLt_iff_lt a b).mp h))

/-- A smaller hash means a smaller word. -/
theorem strLt_of_hashOf_lt {a b : Bytes} (ha : a ≠ []) (la : ∀ c ∈ a, isLetter c = true)
    (hb : b ≠ []) (lb : ∀ c ∈ b, isLetter c = true) (h : hashOf a < hashOf b) :
    strLt a b = true := by
  rw [hashOf_eq_key3 ha la, hashOf_eq_key3 hb lb] at h
  by_cases hab : a = b
  · rw [hab] at h; omega
  · cases hlt : strLt b a
    · exact strLt_of_le_of_ne hlt hab
    · have := key3_mono (overAlphabet_of_letters lb) (overAlphabet_of_letters la) hlt
      omega

/-- An index sorted by word has non-decreasing hashes. -/
theorem hashSorted_of_wordSorted {rs : List Record} (wf : WellFormed rs) (h : WordSorted rs) :
    HashSorted rs := by
  unfold HashSorted
  unfold WordSorted at h
  refine List.Pairwise.imp_of_mem ?_ h
  intro a b ha hb hab
  by_contra hc
  have hlt : hashOf b.word < hashOf a.word := by omega
  have := strLt_of_hashOf_lt (wf b hb).1 (wf b hb).2.1 (wf a ha).1 (wf a ha).2.1 hlt
  rw [hab] at this
  cases this

/-- With the space after it, a word of letters below the query stays below it: the
test `string(sutf8) > word` of the linear search does not fire. -/
theorem strLt_with_space : ∀ (r q : Bytes), (∀ c ∈ q, 32 < c) → strLt r q = true →
    strLt q (r ++ [32]) = false
  | [], [], _, h => by simp [strLt] at h
  | [], c :: q, hq, _ => by
    have := hq c (List.mem_cons_self _ _)
    have h1 : ¬ c < 32 := by omega
    simp [strLt, h1, this]
  | _ :: _, [], _, h => by simp [strLt] at h
  | x :: r, y :: q, hq, h => by
    rw [strLt] at h
    rw [List.cons_append, strLt]
    by_cases hxy : x < y
    · have h1 : ¬ y < x := by omega
      simp [h1, hxy]
    · by_cases hyx : y < x
      · simp [hxy, hyx] at h
      · simp only [hxy, hyx, if_false] at h ⊢
        exact strLt_with_space r q (fun c hc => hq c (List.mem_cons_of_mem _ hc)) h

/-! ## Offsets of records -/

theorem firstOffsetGE_le (h : Int) : ∀ (rs : List Record) (off : Nat),
    off ≤ firstOffsetGE h rs off ∧ firstOffsetGE h rs off ≤ off + (render rs).length
  | [], off => by simp [firstOffsetGE, render]
  | r :: rs, off => by
    rw [firstOffsetGE, render_cons, List.length_append]
    split_ifs
    · omega
    · have := firstOffsetGE_le h rs (off + r.bytes.length)
      omega

/-- The records before the offset `firstOffsetGE h` have a hash below `h`. -/
theorem firstOffsetGE_split (h : Int) : ∀ (rs : List Record) (off : Nat),
    ∃ a b, rs = a ++ b ∧ firstOffsetGE h rs off = off + (render a).length ∧
      ∀ r ∈ a, hashOf r.word < h
  | [], off => ⟨[], [], rfl, by simp [firstOffsetGE, render], by simp⟩
  | r :: rs, off => by
    rw [firstOffsetGE]
    split_ifs with hc
    · exact ⟨[], r :: rs, rfl, by simp [render], by simp⟩
    · obtain ⟨a, b, e, ho, hall⟩ := firstOffsetGE_split h rs (off + r.bytes.length)
      refine ⟨r :: a, b, by rw [e]; rfl, ?_, ?_⟩
      · rw [ho, render_cons, List.length_append]; omega
      · intro x hx
        rcases List.mem_cons.mp hx with h1 | h1
        · rw [h1]; omega
        · exact hall x h1

/-- When some record has hash `h`, the bucket of `h` is not empty. -/
theorem firstOffsetGE_lt_succ (h : Int) : ∀ (rs : List Record) (off : Nat),
    HashSorted rs → (∃ x ∈ rs, hashOf x.word = h) →
    firstOffsetGE h rs off < firstOffsetGE (h + 1) rs off
  | [], _, _, hx => by simp at hx
  | r :: rs, off, hs, hx => by
    have hs' : HashSorted rs := (List.pairwise_cons.mp hs).2
    have hge : ∀ x ∈ rs, hashOf r.word ≤ hashOf x.word := (List.pairwise_cons.mp hs).1
    rw [firstOffsetGE, firstOffsetGE]
    by_cases hc : h ≤ hashOf r.word
    · have hle : hashOf r.word ≤ h := by
        obtain ⟨x, hxm, hxh⟩ := hx
        rcases List.mem_cons.mp hxm with h1 | h1
        · rw [← hxh, h1]
        · rw [← hxh]; exact hge x h1
      rw [if_pos hc, if_neg (by omega)]
      have := (firstOffsetGE_le (h + 1) rs (off + r.bytes.length)).1
      have := r.length_bytes
      omega
    · rw [if_neg hc, if_neg (by omega)]
      obtain ⟨x, hxm, hxh⟩ := hx
      rcases List.mem_cons.mp hxm with h1 | h1
      · rw [h1] at hxh; omega
      · exact firstOffsetGE_lt_succ h rs _ hs' ⟨x, h1, hxh⟩

theorem firstOffsetGE_of_all_lt (h : Int) : ∀ (rs : List Record) (off : Nat),
    (∀ r ∈ rs, hashOf r.word < h) → firstOffsetGE h rs off = off + (render rs).length
  | [], off, _ => by simp [firstOffsetGE, render]
  | r :: rs, off, hall => by
    have hr := hall r (List.mem_cons_self _ _)
    rw [firstOffsetGE, if_neg (by omega),
      firstOffsetGE_of_all_lt h rs _ (fun x hx => hall x (List.mem_cons_of_mem _ hx)),
      render_cons, List.length_append]
    omega

/-- Two ways to cut the same list of records: the cut at the smaller offset comes
first. -/
theorem prefix_of_render_lt {a b a' b' : List Record} {r : Record}
    (e : a ++ r :: b = a' ++ b') (h : (render a).length < (render a').length) :
    ∃ c, a' = a ++ r :: c := by
  rcases List.append_eq_append_iff.mp e with ⟨c, h1, h2⟩ | ⟨c, h1, _⟩
  · cases c with
    | nil => rw [h1, List.append_nil] at h; omega
    | cons x c =>
      rw [List.cons_append] at h2
      injection h2 with h3 _
      exact ⟨c, by rw [h1, h3]⟩
  · rw [h1, render_append, List.length_append] at h
    omega

theorem firstOffsetOf_append (q : Bytes) : ∀ (pre : List Record) (r : Record)
    (post : List Record) (off : Nat), (∀ x ∈ pre, x.word ≠ q) → r.word = q →
    firstOffsetOf q (pre ++ r :: post) off = some (off + (render pre).length)
  | [], r, post, off, _, hr => by simp [firstOffsetOf, hr, render]
  | x :: pre, r, post, off, hall, hr => by
    have hx := hall x (List.mem_cons_self _ _)
    rw [List.cons_append, firstOffsetOf, if_neg hx,
      firstOffsetOf_append q pre r post _ (fun y hy => hall y (List.mem_cons_of_mem _ hy)) hr,
      render_cons, List.length_append]
    congr 1
    omega

/-- The first record with a given word, when there is one. -/
theorem split_first_occurrence (q : Bytes) : ∀ (rs : List Record), (∃ x ∈ rs, x.word = q) →
    ∃ pre r post, rs = pre ++ r :: post ∧ (∀ x ∈ pre, x.word ≠ q) ∧ r.word = q
  | [], h => by simp at h
  | x :: rs, h => by
    by_cases hx : x.word = q
    · exact ⟨[], x, rs, rfl, by simp, hx⟩
    · obtain ⟨y, hy, hyq⟩ := h
      have hy' : y ∈ rs := by
        rcases List.mem_cons.mp hy with h1 | h1
        · rw [h1] at hyq; exact absurd hyq hx
        · exact h1
      obtain ⟨pre, r, post, e, hall, hr⟩ := split_first_occurrence q rs ⟨y, hy', hyq⟩
      refine ⟨x :: pre, r, post, by rw [e]; rfl, ?_, hr⟩
      intro z hz
      rcases List.mem_cons.mp hz with h1 | h1
      · rw [h1]; exact hx
      · exact hall z h1

/-! ## The loops of `binarySearch` -/

/-- The binary-search loop ends; it ends with a fatal error only when a probe falls
into a last record of more than 500 bytes; otherwise it returns a `left` inside the
file that keeps the invariant. -/
theorem bsLoop_spec (rs : List Record) (q : Bytes) (wf : WellFormed rs) :
    ∀ (fuel : Nat) (left right : Int), 0 ≤ left → left < right →
      right ≤ ((render rs).length : Int) → (right - left).toNat < fuel →
      (∃ l r, Konkordans.bsLoop (render rs) q fuel left right = Outcome.ok (l, r) ∧
          0 ≤ l ∧ l < ((render rs).length : Int) ∧
          (WordSorted rs → BelowQuery q rs left → BelowQuery q rs l)) ∨
      (Konkordans.bsLoop (render rs) q fuel left right = Outcome.fatal ∧
          ¬ LastRecordAtMost 500 rs)
  | 0, _, _, _, _, _, hf => by omega
  | fuel + 1, left, right, h0, hlr, hr, hf => by
    unfold Konkordans.bsLoop
    by_cases hw : right - left > 1000
    · rw [if_pos hw]
      have hmid : Int.tdiv (left + right) 2 = (left + right) / 2 :=
        Int.tdiv_eq_ediv (by omega) (by omega)
      simp only [hmid]
      have hm1 : left < (left + right) / 2 := by omega
      have hm2 : (left + right) / 2 < right := by omega
      have hm3 : (left + right) / 2 + 501 ≤ right := by omega
      generalize (left + right) / 2 = m at hm1 hm2 hm3
      rw [if_neg (by omega)]
      have hk : m.toNat < (render rs).length := by omega
      obtain ⟨s0, r0, b1, hb, h1, h2⟩ := locate rs _ hk
      have wr0 : r0.WellFormed := wf r0 (by rw [hb]; simp)
      have hfile : render rs = render s0 ++ r0.bytes ++ render b1 := by
        rw [hb, render_append, render_cons, List.append_assoc]
      have hgo : goToNewLine (render rs) m.toNat
          = some ((render s0).length + r0.bytes.length) := by
        rw [hfile]; exact goToNewLine_in_record wr0 _ _ _ h1 h2
      rw [hgo]
      simp only
      match b1, hb, hfile with
      | [], hb, hfile =>
        right
        have hlen : (render rs).length = (render s0).length + r0.bytes.length := by
          rw [hfile]; simp [render]
        rw [readBytes_at_end _ _ _ (by omega)]
        refine ⟨by simp, ?_⟩
        intro hshort
        have := hshort r0 (by rw [hb]; simp)
        omega
      | r1 :: b2, hb, hfile =>
        have wr1 : r1.WellFormed := wf r1 (by rw [hb]; simp)
        have hfile2 : render rs = (render s0 ++ r0.bytes) ++ r1.bytes ++ render b2 := by
          rw [hfile, render_cons]; simp only [List.append_assoc]
        have hread := readBytes_word wr1 (render s0 ++ r0.bytes) (render b2)
        rw [← hfile2, List.length_append] at hread
        rw [hread]
        simp only [Bool.false_eq_true, if_false, List.dropLast_concat]
        by_cases hlt : strLt r1.word q = true
        · rw [if_pos hlt]
          rcases bsLoop_spec rs q wf fuel m right (by omega) hm2 hr (by omega) with
            ⟨l, r, hres, hl0, hl1, hinv⟩ | hfat
          · left
            refine ⟨l, r, hres, hl0, hl1, ?_⟩
            intro srt _
            apply hinv srt
            refine ⟨s0 ++ [r0], r1 :: b2, by rw [hb]; simp, ?_, ?_⟩
            · simp only [render_append, render_cons, render_nil, List.length_append,
                List.append_nil]
              push_cast
              omega
            · intro x hx
              have pw : List.Pairwise (fun a b => strLt b.word a.word = false)
                  ((s0 ++ [r0]) ++ (r1 :: b2)) := by
                have := srt
                unfold WordSorted at this
                rw [hb] at this
                simpa using this
              have := (List.pairwise_append.mp pw).2.2 x hx r1 (List.mem_cons_self _ _)
              exact strLt_of_le_of_lt this hlt
          · exact Or.inr hfat
        · rw [if_neg hlt]
          rcases bsLoop_spec rs q wf fuel left m h0 hm1 (by omega) (by omega) with h | h
          · exact Or.inl h
          · exact Or.inr h
    · rw [if_neg hw]
      exact Or.inl ⟨left, right, rfl, h0, by omega, fun _ h => h⟩

/-- The linear search passes the records below the query and returns the offset of
the first record whose word is the query. -/
theorem linearLoop_found (f q : Bytes) (r0 : Record) (post : List Record)
    (hq : ∀ c ∈ q, 32 < c) (hr0 : r0.word = q) :
    ∀ (lt a : List Record) (fuel : Nat),
      f = render (a ++ (lt ++ r0 :: post)) → WellFormed (a ++ (lt ++ r0 :: post)) →
      (∀ x ∈ lt, strLt x.word q = true) → lt.length + 1 ≤ fuel →
      Konkordans.linearLoop f q fuel (render a).length (render a).length
        = Outcome.ok ((render a).length + (render lt).length)
  | _, _, 0, _, _, _, hfuel => by omega
  | [], a, fuel + 1, hf, wf, _, _ => by
    have wr : r0.WellFormed := wf r0 (by simp)
    have hfile : f = render a ++ r0.bytes ++ render post := by
      rw [hf]; simp [render_append, render_cons]
    have hread := readBytes_word wr (render a) (render post)
    rw [← hfile] at hread
    unfold Konkordans.linearLoop
    simp only [hread, Bool.false_eq_true, if_false, List.dropLast_concat, hr0, if_true,
      render_nil, List.length_nil, Nat.add_zero]
  | x :: lt, a, fuel + 1, hf, wf, hall, hfuel => by
    have wx : x.WellFormed := wf x (by simp)
    have hx : strLt x.word q = true := hall x (List.mem_cons_self _ _)
    have hne : x.word ≠ q := by
      intro e
      rw [e, strLt_irrefl] at hx
      cases hx
    have hfile : f = render a ++ x.bytes ++ render (lt ++ r0 :: post) := by
      rw [hf]; simp [render_append, render_cons]
    have hread := readBytes_word wx (render a) (render (lt ++ r0 :: post))
    have hread2 := readBytes_offset wx (render a) (render (lt ++ r0 :: post))
    rw [← hfile] at hread hread2
    have hab : a ++ (x :: lt ++ r0 :: post) = (a ++ [x]) ++ (lt ++ r0 :: post) := by simp
    have hra : (render (a ++ [x])).length
        = (render a).length + (x.word ++ [32]).length + (x.offset ++ [10]).length := by
      rw [render_append, render_cons, render_nil, List.append_nil, List.length_append,
        x.length_bytes_eq]
      omega
    have ih := linearLoop_found f q r0 post hq hr0 lt (a ++ [x]) fuel
      (by rw [hf, hab]) (by rw [← hab]; exact wf)
      (fun y hy => hall y (List.mem_cons_of_mem _ hy))
      (by simp only [List.length_cons] at hfuel; omega)
    rw [hra] at ih
    unfold Konkordans.linearLoop
    simp only [hread, hread2, Bool.false_eq_true, if_false, List.dropLast_concat, hne,
      strLt_with_space x.word q hq hx]
    rw [ih, render_cons]
    congr 1
    simp only [List.length_append, x.length_bytes_eq]
    omega

/-- The linear search over records none of which has the query as its word ends with
zero occurrences. -/
theorem linearLoop_absent (f q : Bytes) :
    ∀ (b a : List Record) (fuel : Nat),
      f = render (a ++ b) → WellFormed (a ++ b) →
      (∀ x ∈ b, x.word ≠ q) → b.length + 1 ≤ fuel →
      Konkordans.linearLoop f q fuel (render a).length (render a).length
        = Outcome.noOccurrences
  | _, _, 0, _, _, _, hfuel => by omega
  | [], a, fuel + 1, hf, _, _, _ => by
    have hlen : f.length ≤ (render a).length := by rw [hf]; simp
    unfold Konkordans.linearLoop
    simp only [readBytes_at_end f _ 32 hlen, if_true]
  | x :: b, a, fuel + 1, hf, wf, hall, hfuel => by
    have wx : x.WellFormed := wf x (by simp)
    have hne : x.word ≠ q := hall x (List.mem_cons_self _ _)
    have hfile : f = render a ++ x.bytes ++ render b := by
      rw [hf]; simp [render_append, render_cons]
    have hread := readBytes_word wx (render a) (render b)
    have hread2 := readBytes_offset wx (render a) (render b)
    rw [← hfile] at hread hread2
    have hab : a ++ (x :: b) = (a ++ [x]) ++ b := by simp
    have hra : (render (a ++ [x])).length
        = (render a).length + (x.word ++ [32]).length + (x.offset ++ [10]).length := by
      rw [render_append, render_cons, render_nil, List.append_nil, List.length_append,
        x.length_bytes_eq]
      omega
    have ih := linearLoop_absent f q b (a ++ [x]) fuel
      (by rw [hf, hab]) (by rw [← hab]; exact wf)
      (fun y hy => hall y (List.mem_cons_of_mem _ hy))
      (by simp only [List.length_cons] at hfuel; omega)
    rw [hra] at ih
    unfold Konkordans.linearLoop
    simp only [hread, hread2, Bool.false_eq_true, if_false, List.dropLast_concat, hne]
    split_ifs
    · rfl
    · exact ih

/-! ## `binarySearch` as a whole -/

theorem trimSpace_idem (w : Bytes) : trimSpace (trimSpace w) = trimSpace w := by
  have h1 : (trimSpace w).dropWhile isSpace = trimSpace w := by
    rw [trimSpace_eq_rdropWhile]
    obtain ⟨s, hs, _⟩ := rdropWhile_split isSpace (w.dropWhile isSpace)
    cases hd : (w.dropWhile isSpace).rdropWhile isSpace with
    | nil => rfl
    | cons c t =>
      have hc : isSpace c = false := by
        have hl : 0 < (w.dropWhile isSpace).length := by
          rw [hs, hd]; simp
        have h0 := List.dropWhile_get_zero_not isSpace w hl
        have e : (w.dropWhile isSpace).get ⟨0, hl⟩ = c := by
          have : (w.dropWhile isSpace) = c :: (t ++ s) := by rw [hs, hd]; rfl
          simp [this]
        rw [e] at h0
        simpa using h0
      simp [List.dropWhile, hc]
  conv_lhs => rw [trimSpace_eq_rdropWhile, h1]
  rw [trimSpace_eq_rdropWhile]
  exact List.rdropWhile_idempotent _ _

theorem hash_trimSpace (w : Bytes) : Konkordans.hash (trimSpace w) = Konkordans.hash w := by
  unfold Konkordans.hash
  rw [trimSpace_idem]

theorem trimSpace_letters {q : Bytes} (h : ∀ c ∈ q, isLetter c = true) : trimSpace q = q := by
  refine trimSpace_of_trimmed (overAlphabet_of_letters h) ⟨head?_ne_space_of_letters h, ?_⟩
  intro e
  have hm : (32 : Nat) ∈ q := List.mem_of_mem_getLast? e
  exact ne_space_of_isLetter (h 32 hm) rfl

theorem hash_ok_range {q : Bytes} {h : Int} (hh : Konkordans.hash q = Outcome.ok h) :
    0 ≤ h ∧ h < 27000 := by
  by_cases hn : trimSpace q = []
  · unfold Konkordans.hash at hh
    rw [hn] at hh
    cases hh
  · rw [hash_of_trimSpace rfl hn] at hh
    injection hh with e
    rw [← e]
    exact ⟨key3_nonneg _, key3_lt _⟩

/-- With a correct table and a non-empty bucket, `getBSPointers` returns the two ends
of the bucket. -/
theorem getBSPointers_correct {rs : List Record} {index : Bytes} (wf : WellFormed rs)
    (hs : HashSorted rs) (tc : TableCorrect rs index) {h : Int} (h0 : 0 ≤ h) (h1 : h < 27000)
    (hb : ∃ x ∈ rs, hashOf x.word = h) :
    Konkordans.getBSPointers index (render rs).length h
      = Outcome.ok (((firstOffsetGE h rs 0 : Nat) : Int), ((firstOffsetGE (h + 1) rs 0 : Nat) : Int)) ∧
      ((firstOffsetGE h rs 0 : Nat) : Int) < ((firstOffsetGE (h + 1) rs 0 : Nat) : Int) ∧
      firstOffsetGE (h + 1) rs 0 ≤ (render rs).length := by
  have hlt := firstOffsetGE_lt_succ h rs 0 hs hb
  have hle := (firstOffsetGE_le (h + 1) rs 0).2
  refine ⟨?_, by omega, by omega⟩
  have e1 : (h * 8).toNat = 8 * h.toNat := by omega
  have hleft := tc.2 h.toNat (by omega)
  have ec : ((h.toNat : Nat) : Int) = h := by omega
  rw [ec] at hleft
  unfold Konkordans.getBSPointers
  rw [if_neg (by omega), e1, hleft]
  simp only
  by_cases hn : h + 1 < 27000
  · have e2 : ((h + 1) * 8).toNat = 8 * (h + 1).toNat := by omega
    have hright := tc.2 (h + 1).toNat (by omega)
    have ec2 : (((h + 1).toNat : Nat) : Int) = h + 1 := by omega
    rw [ec2] at hright
    rw [if_pos (by omega), e2, hright]
    simp only
    rw [if_neg (by omega)]
  · have hall : ∀ r ∈ rs, hashOf r.word < h + 1 := by
      intro r hr
      have := (wf r hr).hashOf_lt
      omega
    have := firstOffsetGE_of_all_lt (h + 1) rs 0 hall
    rw [if_neg (by omega)]
    simp only
    rw [if_neg (by omega), this]
    simp

/-- Where the linear search starts: at the first record boundary at or after `left`. -/
theorem linear_start (rs : List Record) (q : Bytes) (wf : WellFormed rs) (l : Int)
    (h0 : 0 ≤ l) (h1 : l < ((render rs).length : Int)) :
    ∃ a b, rs = a ++ b ∧
      (if l > 0 then goToNewLine (render rs) (l - 1).toNat else some l.toNat)
        = some (render a).length ∧
      (BelowQuery q rs l → ∀ x ∈ a, strLt x.word q = true) := by
  by_cases hl : l > 0
  · rw [if_pos hl]
    obtain ⟨s0, r0, b1, hb, k1, k2⟩ := locate rs (l - 1).toNat (by omega)
    have wr0 : r0.WellFormed := wf r0 (by rw [hb]; simp)
    have hfile : render rs = render s0 ++ r0.bytes ++ render b1 := by
      rw [hb, render_append, render_cons, List.append_assoc]
    refine ⟨s0 ++ [r0], b1, by rw [hb]; simp, ?_, ?_⟩
    · rw [hfile, goToNewLine_in_record wr0 _ _ _ k1 k2]
      simp [render_append, render_cons, render_nil]
    · rintro ⟨a, b, e, hle, hall⟩ x hx
      have e2 : s0 ++ r0 :: b1 = a ++ b := by rw [← hb, e]
      obtain ⟨c, hc⟩ := prefix_of_render_lt e2 (by omega)
      apply hall x
      rw [hc]
      rcases List.mem_append.mp hx with h3 | h3
      · exact List.mem_append_left _ h3
      · rw [List.mem_singleton.mp h3]
        exact List.mem_append_right _ (List.mem_cons_self _ _)
  · rw [if_neg hl]
    have : l = 0 := by omega
    subst this
    exact ⟨[], rs, rfl, by simp [render], by simp⟩

/-- `binarySearch` for a word of the index, with a correct table: it returns the
offset of the first record with that word, or a probe of the binary search fell into
a last record of more than 500 bytes and the process ended on the read error. -/
theorem binarySearch_found (rs : List Record) (index q : Bytes) (wf : WellFormed rs)
    (srt : WordSorted rs) (tc : TableCorrect rs index) (hq : ∃ r ∈ rs, r.word = q) :
    ∃ p, firstOffsetOf q rs 0 = some p ∧
      (Konkordans.binarySearch index (render rs) q = Outcome.ok p ∨
        (Konkordans.binarySearch index (render rs) q = Outcome.fatal ∧
          ¬ LastRecordAtMost 500 rs)) := by
  have hs := hashSorted_of_wordSorted wf srt
  obtain ⟨rq0, hrq0, hrq0w⟩ := hq
  have wq := wf rq0 hrq0
  have qne : q ≠ [] := by rw [← hrq0w]; exact wq.1
  have ql : ∀ c ∈ q, isLetter c = true := by rw [← hrq0w]; exact wq.2.1
  have q32 : ∀ c ∈ q, 32 < c := fun c hc =>
    lt_of_mem_alphabet_ne_space (mem_alphabet_of_isLetter (ql c hc)) (ne_space_of_isLetter (ql c hc))
  have htrim := trimSpace_letters ql
  have hhash := hashOf_letters qne ql
  have hk : hashOf q = key3 q := hashOf_eq_key3 qne ql
  obtain ⟨pre, rq, post, hsplit, hpre, hrq⟩ := split_first_occurrence q rs ⟨rq0, hrq0, hrq0w⟩
  refine ⟨(render pre).length, ?_, ?_⟩
  · rw [hsplit, firstOffsetOf_append q pre rq post 0 hpre hrq]; simp
  obtain ⟨hgbs, hlr, hrs⟩ := getBSPointers_correct wf hs tc (key3_nonneg q) (key3_lt q)
    ⟨rq0, hrq0, by rw [hrq0w, hk]⟩
  have hbelow : BelowQuery q rs ((firstOffsetGE (key3 q) rs 0 : Nat) : Int) := by
    obtain ⟨a, b, e, ho, hall⟩ := firstOffsetGE_split (key3 q) rs 0
    refine ⟨a, b, e, by rw [ho]; simp, ?_⟩
    intro x hx
    have wx := wf x (by rw [e]; exact List.mem_append_left _ hx)
    exact strLt_of_hashOf_lt wx.1 wx.2.1 qne ql (by rw [hk]; exact hall x hx)
  unfold Konkordans.binarySearch
  simp only [htrim, hhash, hgbs]
  rcases bsLoop_spec rs q wf
      ((((firstOffsetGE (key3 q + 1) rs 0 : Nat) : Int)
        - ((firstOffsetGE (key3 q) rs 0 : Nat) : Int)).toNat + 1)
      _ _ (by omega) hlr (by omega) (by omega) with
    ⟨l, r, hres, hl0, hl1, hinv⟩ | ⟨hfat, hlong⟩
  · left
    rw [hres]
    simp only
    rw [if_neg (by omega)]
    obtain ⟨a0, b0, e0, hstart, hbel⟩ := linear_start rs q wf l hl0 hl1
    have ha0 := hbel (hinv srt hbelow)
    rw [hstart]
    simp only
    -- the first occurrence lies after the start
    have hcut : ∃ lt, pre = a0 ++ lt ∧ b0 = lt ++ rq :: post := by
      have e3 : a0 ++ b0 = pre ++ rq :: post := by rw [← e0, hsplit]
      rcases List.append_eq_append_iff.mp e3 with ⟨c, h1, h2⟩ | ⟨c, h1, h2⟩
      · exact ⟨c, h1, h2⟩
      · cases c with
        | nil => exact ⟨[], by simpa using h1.symm, by simpa using h2.symm⟩
        | cons x c =>
          exfalso
          rw [List.cons_append] at h2
          injection h2 with h3 _
          have hmem : rq ∈ a0 := by rw [h1, ← h3]; simp
          have := ha0 rq hmem
          rw [hrq, strLt_irrefl] at this
          cases this
    obtain ⟨lt, hlt1, hlt2⟩ := hcut
    have hltq : ∀ x ∈ lt, strLt x.word q = true := by
      intro x hx
      have hxp : x ∈ pre := by rw [hlt1]; exact List.mem_append_right _ hx
      have pw : List.Pairwise (fun a b => strLt b.word a.word = false) (pre ++ rq :: post) := by
        have := srt
        unfold WordSorted at this
        rw [hsplit] at this
        exact this
      have hle := (List.pairwise_append.mp pw).2.2 x hxp rq (List.mem_cons_self _ _)
      rw [hrq] at hle
      exact strLt_of_le_of_ne hle (hpre x hxp)
    have hfound := linearLoop_found (render rs) q rq post q32 hrq lt a0 ((render rs).length + 1)
      (by rw [e0, hlt2]) (by rw [← hlt2, ← e0]; exact wf) hltq
      (by
        have h1 := length_le_render rs wf
        have h2 : lt.length ≤ rs.length := by
          rw [e0, hlt2]; simp only [List.length_append, List.length_cons]; omega
        omega)
    rw [hfound, hlt1, render_append, List.length_append]
  · right
    rw [hfat]
    exact ⟨rfl, hlong⟩

/-- `binarySearch` for a word that no record has, with a correct table and a
non-empty bucket: it ends with zero occurrences, or a probe of the binary search fell
into a last record of more than 500 bytes and the process ended on the read error. -/
theorem binarySearch_absent (rs : List Record) (index q : Bytes) (h : Int)
    (wf : WellFormed rs) (hs : HashSorted rs) (tc : TableCorrect rs index)
    (hh : Konkordans.hash q = Outcome.ok h) (hb : ∃ r ∈ rs, hashOf r.word = h)
    (hq : ∀ r ∈ rs, r.word ≠ trimSpace q) :
    Konkordans.binarySearch index (render rs) q = Outcome.noOccurrences ∨
      (Konkordans.binarySearch index (render rs) q = Outcome.fatal ∧
        ¬ LastRecordAtMost 500 rs) := by
  obtain ⟨hr0, hr1⟩ := hash_ok_range hh
  obtain ⟨hgbs, hlr, hrs⟩ := getBSPointers_correct wf hs tc hr0 hr1 hb
  unfold Konkordans.binarySearch
  simp only [hash_trimSpace, hh, hgbs]
  rcases bsLoop_spec rs (trimSpace q) wf
      ((((firstOffsetGE (h + 1) rs 0 : Nat) : Int)
        - ((firstOffsetGE h rs 0 : Nat) : Int)).toNat + 1)
      _ _ (by omega) hlr (by omega) (by omega) with
    ⟨l, r, hres, hl0, hl1, _⟩ | ⟨hfat, hlong⟩
  · left
    rw [hres]
    simp only
    rw [if_neg (by omega)]
    obtain ⟨a0, b0, e0, hstart, _⟩ := linear_start rs (trimSpace q) wf l hl0 hl1
    rw [hstart]
    simp only
    exact linearLoop_absent (render rs) (trimSpace q) b0 a0 ((render rs).length + 1)
      (by rw [e0]) (by rw [← e0]; exact wf)
      (fun x hx => hq x (by rw [e0]; exact List.mem_append_right _ hx))
      (by
        have h1 := length_le_render rs wf
        have h2 : b0.length ≤ rs.length := by
          rw [e0]; simp only [List.length_append]; omega
        omega)
  · right
    rw [hfat]
    exact ⟨rfl, hlong⟩

/-! ## The table of the data model, as a file -/

theorem readInt64_indexFile {t : List Int} {h : Nat} {v : Int} (e : t[h]? = some v)
    (h1 : -9223372036854775808 ≤ v) (h2 : v < 9223372036854775808) :
    readInt64 (indexFile t) (8 * h) = some v := by
  unfold readInt64
  simp only [entry_indexFile e, length_int64Bytes, if_true, int64_roundtrip v h1 h2]

theorem tableCorrect_of_entries (rs : List Record) (t : List Int) (hlen : t.length = 27000)
    (hsize : (render rs).length < 9223372036854775808)
    (hent : ∀ h : Nat, h < 27000 → t[h]? = some ((firstOffsetGE h rs 0 : Nat) : Int)) :
    TableCorrect rs (indexFile t) := by
  refine ⟨by rw [length_indexFile, hlen], ?_⟩
  intro h hh
  have := (firstOffsetGE_le h rs 0).2
  exact readInt64_indexFile (hent h hh) (by omega) (by omega)

/-- The table of the data model is a correct table (for an index an `int64` can
address). -/
theorem specTable_correct (rs : List Record)
    (hsize : (render rs).length < 9223372036854775808) : TableCorrect rs (specTable rs) := by
  apply tableCorrect_of_entries rs _ (by simp) hsize
  intro h hh
  rw [List.getElem?_map, List.getElem?_range hh]
  rfl

/-! ## `printResult` -/

theorem parseDigits_digits : ∀ (s : Bytes) (n : Nat), (∀ c ∈ s, isDigit c = true) →
    parseDigits s n = some (s.foldl (fun n c => 10 * n + (c - 48)) n)
  | [], _, _ => rfl
  | c :: s, n, h => by
    have hc := (isDigit_iff c).mp (h c (List.mem_cons_self _ _))
    rw [parseDigits, if_pos hc, parseDigits_digits s _ (fun d hd => h d (List.mem_cons_of_mem _ hd))]
    rfl

/-- `ParseInt` on an offset field that an `int64` can hold gives its value. -/
theorem parseInt_offset {s : Bytes} (hne : s ≠ []) (hd : ∀ c ∈ s, isDigit c = true)
    (hr : decimalValue s < 9223372036854775808) : parseInt s = (decimalValue s : Int) := by
  obtain ⟨c, t, rfl⟩ := List.exists_cons_of_ne_nil hne
  have hc := (isDigit_iff c).mp (hd c (List.mem_cons_self _ _))
  have h43 : ¬ (c = 43 ∨ c = 45) := by omega
  have h45 : c ≠ 45 := by omega
  unfold parseInt
  simp only
  rw [if_neg h43, if_neg (List.cons_ne_nil _ _), parseDigits_digits _ 0 hd]
  unfold decimalValue at hr ⊢
  simp only [h45, decide_False, Bool.false_eq_true, false_and, true_and, if_false]
  rw [if_neg (by omega)]

/-- For a word of at least one byte `printResLn` never ends the process. -/
theorem printResLn_ok (korpus : Bytes) (p L : Int) (hL : 1 ≤ L) :
    ∃ res, Konkordans.printResLn korpus p L = Outcome.ok res := by
  unfold Konkordans.printResLn
  simp only
  by_cases hb : p < 0 ∨ p > (korpus.length : Int) - L
  · rw [if_pos hb]; exact ⟨_, rfl⟩
  · rw [if_neg hb, if_neg (by split_ifs <;> omega)]
    have hgot : ¬ ((List.take (if p < 30 then p + L + 30 else 30 * 2 + L).toNat
        (List.drop (if p < 30 then 0 else p - 30).toNat korpus) = []) ∧
        0 < (if p < 30 then p + L + 30 else 30 * 2 + L)) := by
      intro ⟨hnil, _⟩
      have hlen := congrArg List.length hnil
      rw [List.length_take, List.length_drop, List.length_nil] at hlen
      split_ifs at hlen <;> omega
    rw [if_neg hgot]
    exact ⟨_, rfl⟩

theorem utf8Len_pos {q : Bytes} (h : q ≠ []) : 1 ≤ utf8Len q := by
  obtain ⟨c, t, rfl⟩ := List.exists_cons_of_ne_nil h
  unfold utf8Len
  rw [List.map_cons, List.sum_cons]
  split_ifs <;> omega

theorem render_snoc_length (a : List Record) (x : Record) :
    (render (a ++ [x])).length
      = (render a).length + (x.word ++ [32]).length + (x.offset ++ [10]).length := by
  rw [render_append, render_cons, render_nil, List.append_nil, List.length_append,
    x.length_bytes_eq]
  omega

/-- The first loop of `printResult` counts the run of records with the query as
word. -/
theorem countLoop_run (f q : Bytes) (post : List Record)
    (hpost : ∀ y, post.head? = some y → y.word ≠ q) :
    ∀ (ms a : List Record) (fuel c : Nat),
      f = render (a ++ (ms ++ post)) → WellFormed (a ++ (ms ++ post)) →
      (∀ x ∈ ms, x.word = q) → ms.length + 1 ≤ fuel →
      Konkordans.countLoop f q fuel (render a).length c = Outcome.ok (c + ms.length)
  | _, _, 0, _, _, _, _, hfuel => by omega
  | [], a, fuel + 1, c, hf, wf, _, _ => by
    unfold Konkordans.countLoop
    cases post with
    | nil =>
      have hlen : f.length ≤ (render a).length := by rw [hf]; simp
      simp only [readBytes_at_end f _ 32 hlen, if_true, List.length_nil, Nat.add_zero]
    | cons y post =>
      have wy : y.WellFormed := wf y (by simp)
      have hy : y.word ≠ q := hpost y rfl
      have hfile : f = render a ++ y.bytes ++ render post := by
        rw [hf]; simp [render_append, render_cons]
      have hread := readBytes_word wy (render a) (render post)
      rw [← hfile] at hread
      simp only [hread, Bool.false_eq_true, if_false, List.dropLast_concat, ne_eq, hy,
        not_false_eq_true, if_true, List.length_nil, Nat.add_zero]
  | x :: ms, a, fuel + 1, c, hf, wf, hall, hfuel => by
    have wx : x.WellFormed := wf x (by simp)
    have hx : x.word = q := hall x (List.mem_cons_self _ _)
    have hfile : f = render a ++ x.bytes ++ render (ms ++ post) := by
      rw [hf]; simp [render_append, render_cons]
    have hread := readBytes_word wx (render a) (render (ms ++ post))
    have hread2 := readBytes_offset wx (render a) (render (ms ++ post))
    rw [← hfile] at hread hread2
    have hab : a ++ (x :: ms ++ post) = (a ++ [x]) ++ (ms ++ post) := by simp
    have ih := countLoop_run f q post hpost ms (a ++ [x]) fuel (c + 1)
      (by rw [hf, hab]) (by rw [← hab]; exact wf)
      (fun y hy => hall y (List.mem_cons_of_mem _ hy))
      (by simp only [List.length_cons] at hfuel; omega)
    rw [render_snoc_length] at ih
    unfold Konkordans.countLoop
    simp only [hread, hread2, Bool.false_eq_true, if_false, List.dropLast_concat]
    rw [if_neg (not_not.mpr hx), ih, List.length_cons]
    congr 1
    omega

/-- The second loop of `printResult` passes the offset field of each counted record
to `printResLn`. -/
theorem printLoop_run (f korpus q : Bytes) (hL : 1 ≤ utf8Len q) (post : List Record) :
    ∀ (ms a : List Record),
      f = render (a ++ (ms ++ post)) → WellFormed (a ++ (ms ++ post)) → OffsetsInRange ms →
      Konkordans.printLoop f korpus q ms.length (render a).length
        = Outcome.ok (ms.map (fun r => ((decimalValue r.offset : Int), (utf8Len q : Int))))
  | [], _, _, _, _ => rfl
  | x :: ms, a, hf, wf, hin => by
    have wx : x.WellFormed := wf x (by simp)
    have hfile : f = render a ++ x.bytes ++ render (ms ++ post) := by
      rw [hf]; simp [render_append, render_cons]
    have hread := readBytes_word wx (render a) (render (ms ++ post))
    have hread2 := readBytes_offset wx (render a) (render (ms ++ post))
    rw [← hfile] at hread hread2
    have hab : a ++ (x :: ms ++ post) = (a ++ [x]) ++ (ms ++ post) := by simp
    have ih := printLoop_run f korpus q hL post ms (a ++ [x])
      (by rw [hf, hab]) (by rw [← hab]; exact wf)
      (fun y hy => hin y (List.mem_cons_of_mem _ hy))
    rw [render_snoc_length] at ih
    have hparse := parseInt_offset wx.2.2.1 wx.2.2.2 (hin x (List.mem_cons_self _ _))
    obtain ⟨res, hres⟩ := printResLn_ok korpus (decimalValue x.offset) (utf8Len q) (by omega)
    rw [List.length_cons]
    unfold Konkordans.printLoop
    simp only [hread, hread2, Bool.false_eq_true, if_false, List.dropLast_concat, hparse,
      List.append_eq_nil, List.cons_ne_nil, and_false, hres, ih, List.map_cons]

theorem split_run (q : Bytes) : ∀ (l : List Record),
    ∃ ms rest, l = ms ++ rest ∧ (∀ x ∈ ms, x.word = q) ∧
      (∀ y, rest.head? = some y → y.word ≠ q)
  | [] => ⟨[], [], rfl, by simp, by simp⟩
  | x :: l => by
    by_cases hx : x.word = q
    · obtain ⟨ms, rest, e, hall, hr⟩ := split_run q l
      refine ⟨x :: ms, rest, by rw [e]; rfl, ?_, hr⟩
      intro y hy
      rcases List.mem_cons.mp hy with h | h
      · rw [h]; exact hx
      · exact hall y h
    · exact ⟨[], x :: l, rfl, by simp, by
        intro y hy
        simp only [List.head?_cons, Option.some.injEq] at hy
        rw [← hy]; exact hx⟩

/-- In a sorted index the records with a given word form one run: once a record after
the first occurrence has another word, no later record has the word. -/
theorem no_match_after_run {q : Bytes} {rq : Record} {ms rest : List Record}
    (srt : WordSorted (ms ++ rest)) (hrq : rq ∈ ms) (hq : rq.word = q)
    (hhead : ∀ y, rest.head? = some y → y.word ≠ q) : ∀ z ∈ rest, z.word ≠ q := by
  intro z hz hzq
  cases rest with
  | nil => cases hz
  | cons y rest =>
    have hy : y.word ≠ q := hhead y rfl
    have pw := List.pairwise_append.mp srt
    have h1 : strLt y.word q = false := by
      have := pw.2.2 rq hrq y (List.mem_cons_self _ _)
      rwa [hq] at this
    have h2 : strLt q y.word = false := by
      rcases List.mem_cons.mp hz with h3 | h3
      · rw [h3] at hzq; exact absurd hzq hy
      · have := (List.pairwise_cons.mp pw.2.1).1 z h3
        rwa [hzq] at this
    have := strLt_of_le_of_ne h2 hy
    rw [h1] at this
    cases this

theorem firstOffsetOf_some (q : Bytes) : ∀ (rs : List Record) (off p : Nat),
    firstOffsetOf q rs off = some p →
    ∃ pre rq post, rs = pre ++ rq :: post ∧ (∀ x ∈ pre, x.word ≠ q) ∧ rq.word = q ∧
      p = off + (render pre).length
  | [], _, _, h => by simp [firstOffsetOf] at h
  | x :: rs, off, p, h => by
    rw [firstOffsetOf] at h
    by_cases hx : x.word = q
    · rw [if_pos hx] at h
      injection h with h
      exact ⟨[], x, rs, rfl, by simp, hx, by simp [render, h]⟩
    · rw [if_neg hx] at h
      obtain ⟨pre, rq, post, e, hall, hr, hp⟩ := firstOffsetOf_some q rs _ p h
      refine ⟨x :: pre, rq, post, by rw [e]; rfl, ?_, hr, ?_⟩
      · intro z hz
        rcases List.mem_cons.mp hz with h1 | h1
        · rw [h1]; exact hx
        · exact hall z h1
      · rw [hp, render_cons, List.length_append]; omega

/-- `printResult` started at the first record with the query as word passes to
`printResLn` the offset fields of all records with that word, in index order. -/
theorem printResult_run (rs : List Record) (korpus q : Bytes) (wf : WellFormed rs)
    (srt : WordSorted rs) (hin : OffsetsInRange rs) {p : Nat}
    (hp : firstOffsetOf q rs 0 = some p) :
    ∃ calls, Konkordans.printResult (render rs) korpus p q = Outcome.ok calls ∧
      calls.map Prod.fst = matchingOffsets q rs := by
  obtain ⟨pre, rq, post0, hsplit, hpre, hrq, hpp⟩ := firstOffsetOf_some q rs 0 p hp
  rw [Nat.zero_add] at hpp
  have wq := wf rq (by rw [hsplit]; simp)
  have qne : q ≠ [] := by rw [← hrq]; exact wq.1
  have ql : ∀ c ∈ q, isLetter c = true := by rw [← hrq]; exact wq.2.1
  obtain ⟨ms, rest, hrun, hms, hhead⟩ := split_run q (rq :: post0)
  have hrqms : rq ∈ ms := by
    cases ms with
    | nil =>
      rw [List.nil_append] at hrun
      exact absurd hrq (hhead rq (by rw [← hrun]; rfl))
    | cons m ms =>
      rw [List.cons_append] at hrun
      injection hrun with h1 _
      rw [h1]; exact List.mem_cons_self _ _
  have hrs : rs = pre ++ (ms ++ rest) := by rw [hsplit, hrun]
  have hlen : ms.length + 1 ≤ (render rs).length + 1 := by
    have h1 := length_le_render rs wf
    have h2 : ms.length ≤ rs.length := by
      rw [hrs]; simp only [List.length_append]; omega
    omega
  have hcount := countLoop_run (render rs) q rest hhead ms pre ((render rs).length + 1) 0
    (by rw [hrs]) (by rw [← hrs]; exact wf) hms hlen
  have hprint := printLoop_run (render rs) korpus q (utf8Len_pos qne) rest ms pre
    (by rw [hrs]) (by rw [← hrs]; exact wf)
    (fun x hx => hin x (by rw [hrs]; exact List.mem_append_right _ (List.mem_append_left _ hx)))
  refine ⟨ms.map (fun r => ((decimalValue r.offset : Int), (utf8Len q : Int))), ?_, ?_⟩
  · unfold Konkordans.printResult
    simp only [trimSpace_letters ql, hpp, hcount, Nat.zero_add]
    exact hprint
  · have srt2 : WordSorted (ms ++ rest) := by
      have := srt
      unfold WordSorted at this ⊢
      rw [hrs] at this
      exact (List.pairwise_append.mp this).2.1
    have hrest := no_match_after_run srt2 hrqms hrq hhead
    unfold matchingOffsets
    rw [hrs, List.filter_append, List.filter_append,
      List.filter_eq_nil_iff.mpr (fun x hx => by simpa using hpre x hx),
      List.filter_eq_self.mpr (fun x hx => by simpa using hms x hx),
      List.filter_eq_nil_iff.mpr (fun x hx => by simpa using hrest x hx)]
    simp [List.map_map, Function.comp]

/-! ## `getBSPointers` on the table the builder writes -/

theorem readInt64_indexFile_none {t : List Int} {h : Nat} (hle : t.length ≤ h) :
    readInt64 (indexFile t) (8 * h) = none := by
  unfold readInt64
  rw [drop_indexFile, List.drop_eq_nil_of_le hle]
  rfl

theorem firstOffsetGE_succ_of_no_record (h : Int) : ∀ (rs : List Record) (off : Nat),
    (∀ r ∈ rs, hashOf r.word ≠ h) → firstOffsetGE (h + 1) rs off = firstOffsetGE h rs off
  | [], _, _ => rfl
  | r :: rs, off, hall => by
    have hr := hall r (List.mem_cons_self _ _)
    have ih := firstOffsetGE_succ_of_no_record h rs (off + r.bytes.length)
      (fun x hx => hall x (List.mem_cons_of_mem _ hx))
    rw [firstOffsetGE, firstOffsetGE, ih]
    by_cases hc : h ≤ hashOf r.word
    · rw [if_pos hc, if_pos (by omega)]
    · rw [if_neg hc, if_neg (by omega)]

/-- What `getBSPointers` does with the table the builder writes, for a hash `h` up to
the hash of the last record (the index smaller than 2^63 bytes).  Below the hash of
the last record it returns the two ends of the bucket of `h` when some record has the
hash `h`, and reports zero occurrences when none has.  At the hash of the last
record, unless that is 26999, the entry `h + 1` is missing from the table and the
process ends on the read error. -/
theorem getBSPointers_builder_table (rs : List Record) (wf : WellFormed rs)
    (hs : HashSorted rs) (hne : rs ≠ [])
    (hsize : (render rs).length < 9223372036854775808) (h : Int) (h0 : 0 ≤ h) :
    ∃ idx, Index.main (render rs) = some idx ∧
      (h < hashOf (rs.getLast hne).word → (∃ r ∈ rs, hashOf r.word = h) →
        Konkordans.getBSPointers idx (render rs).length h
          = Outcome.ok (((firstOffsetGE h rs 0 : Nat) : Int),
              ((firstOffsetGE (h + 1) rs 0 : Nat) : Int)) ∧
        firstOffsetGE h rs 0 < firstOffsetGE (h + 1) rs 0) ∧
      (h < hashOf (rs.getLast hne).word → (∀ r ∈ rs, hashOf r.word ≠ h) →
        Konkordans.getBSPointers idx (render rs).length h = Outcome.noOccurrences) ∧
      (h = hashOf (rs.getLast hne).word → h < 26999 →
        Konkordans.getBSPointers idx (render rs).length h = Outcome.fatal) := by
  have hw := tableWrites_eq_tableFrom rs wf hs
  have hge : ∀ r ∈ rs, (-1 : Int) ≤ hashOf r.word := by
    intro r hr
    have := (wf r hr).hashOf_ge
    omega
  have hlen := tableFrom_length rs 0 (-1) hs hge
  rw [List.getLast?_eq_getLast _ hne] at hlen
  simp only [Option.map_some', Option.getD_some] at hlen
  have hentry : ∀ k : Nat, (k : Int) ≤ hashOf (rs.getLast hne).word →
      readInt64 (indexFile (tableFrom 0 (-1) rs)) (8 * k)
        = some ((firstOffsetGE k rs 0 : Nat) : Int) := by
    intro k hk
    have hget := tableFrom_getElem? rs 0 (-1) hs hge k (by omega)
    have e : (-1 : Int) + 1 + (k : Int) = (k : Int) := by omega
    rw [e] at hget
    have := (firstOffsetGE_le k rs 0).2
    exact readInt64_indexFile hget (by omega) (by omega)
  have e1 : (h * 8).toNat = 8 * h.toNat := by omega
  have ec : ((h.toNat : Nat) : Int) = h := by omega
  have e2 : ((h + 1) * 8).toNat = 8 * (h + 1).toNat := by omega
  have ec2 : (((h + 1).toNat : Nat) : Int) = h + 1 := by omega
  have hlastlt := (wf _ (List.getLast_mem hne)).hashOf_lt
  refine ⟨indexFile (tableFrom 0 (-1) rs), by simp [Index.main, hw], ?_, ?_, ?_⟩
  · intro hlt hb
    have hl := hentry h.toNat (by omega)
    have hr := hentry (h + 1).toNat (by omega)
    rw [ec] at hl
    rw [ec2] at hr
    have hlt2 := firstOffsetGE_lt_succ h rs 0 hs hb
    refine ⟨?_, hlt2⟩
    unfold Konkordans.getBSPointers
    rw [if_neg (by omega), e1, hl]
    simp only
    rw [if_pos (by omega), e2, hr]
    simp only
    rw [if_neg (by omega)]
  · intro hlt hb
    have hl := hentry h.toNat (by omega)
    have hr := hentry (h + 1).toNat (by omega)
    rw [ec] at hl
    rw [ec2, firstOffsetGE_succ_of_no_record h rs 0 hb] at hr
    unfold Konkordans.getBSPointers
    rw [if_neg (by omega), e1, hl]
    simp only
    rw [if_pos (by omega), e2, hr]
    simp only [if_true]
  · intro heq hlt
    have hl := hentry h.toNat (by omega)
    rw [ec] at hl
    have hr : readInt64 (indexFile (tableFrom 0 (-1) rs)) (8 * (h + 1).toNat) = none :=
      readInt64_indexFile_none (by omega)
    unfold Konkordans.getBSPointers
    rw [if_neg (by omega), e1, hl]
    simp only
    rw [if_pos (by omega), e2, hr]

/-- The end-to-end example with the table the builder writes for it: the table has
1292 entries, the last for the hash 1291 of "amager" and "amazon", and the query
"amager" ends on the read error in `getBSPointers`. -/
theorem exampleIndex_builder_table :
    Index.tableWrites (render exampleIndex) = some (List.replicate 1292 0) ∧
      Konkordans.hash amager = Outcome.ok 1291 ∧
      Konkordans.binarySearch (indexFile (List.replicate 1292 0)) (render exampleIndex) amager
        = Outcome.fatal := by
  refine ⟨?_, by decide, ?_⟩
  · set_option maxRecDepth 10000 in decide!
  · set_option maxRecDepth 10000 in decide!

/-! ## The alphabet ordinal and the reference hash -/

theorem charValues_eq_ordinal : ∀ c ∈ alphabet, charValues c = ordinal c := by
  decide

theorem overAlphabet_trimSpace {w : Bytes} (ha : OverAlphabet w) :
    OverAlphabet (trimSpace w) := by
  intro c hc
  rw [trimSpace_eq_rdropWhile] at hc
  exact ha c ((List.dropWhile_suffix _).subset ((List.rdropWhile_prefix _ _).subset hc))

/-- On a word over the alphabet, the switch of `hash` is the reference definition. -/
theorem hash_switch_eq_reference (t : Bytes) (ha : OverAlphabet t) :
    (match t with
      | c1 :: c2 :: c3 :: _ =>
        Outcome.ok (30 * 30 * charValues c1 + 30 * charValues c2 + charValues c3)
      | [c1, c2] => Outcome.ok (30 * 30 * charValues c1 + 30 * charValues c2)
      | [c1] => Outcome.ok (30 * 30 * charValues c1)
      | [] => Outcome.cantHash)
      = (match hashReference t with
        | some h => Outcome.ok h
        | none => Outcome.cantHash) := by
  match t, ha with
  | [], _ => rfl
  | [a], ha =>
    simp [hashReference, charValues_eq_ordinal a (ha a (by simp))]
  | [a, b], ha =>
    simp [hashReference, charValues_eq_ordinal a (ha a (by simp)),
      charValues_eq_ordinal b (ha b (by simp))]
  | a :: b :: c :: t, ha =>
    simp [hashReference, charValues_eq_ordinal a (ha a (by simp)),
      charValues_eq_ordinal b (ha b (by simp)), charValues_eq_ordinal c (ha c (by simp))]

/-! ## The comparison of the linear scan -/

/-- A space appended to the right-hand word does not change the comparison with a
different word whose bytes are all above the space. -/
theorem strLt_append_space : ∀ (q r : Bytes), (∀ c ∈ q, 32 < c) → r ≠ q →
    strLt q (r ++ [32]) = strLt q r
  | [], [], _, hne => absurd rfl hne
  | [], _ :: _, _, _ => by simp [strLt]
  | c :: q, [], hq, _ => by
    have := hq c (List.mem_cons_self _ _)
    have h1 : ¬ c < 32 := by omega
    simp [strLt, h1, this]
  | y :: q, x :: r, hq, hne => by
    rw [List.cons_append, strLt, strLt]
    by_cases h1 : y < x
    · rw [if_pos h1, if_pos h1]
    · rw [if_neg h1, if_neg h1]
      by_cases h2 : x < y
      · rw [if_pos h2, if_pos h2]
      · rw [if_neg h2, if_neg h2]
        have e : x = y := by omega
        exact strLt_append_space q r (fun c hc => hq c (List.mem_cons_of_mem _ hc))
          (fun e2 => hne (by rw [e, e2]))

/-! ## The context window of `printResLn` -/

/-- What `printResLn` prints for an offset within the bounds: the bytes of the corpus
from `p - 30` (from 0 when `p < 30`) up to `p + L + 30` or to the end of the corpus,
followed by one zero byte for every byte of the window that lies beyond the end of the
corpus; in the printed text every newline is a space. -/
theorem printResLn_window (korpus : Bytes) (p L : Nat) (hL : 1 ≤ L)
    (hp : p + L ≤ korpus.length) :
    Konkordans.printResLn korpus p L
      = Outcome.ok (Konkordans.PrintRes.printed
          ((korpus.drop (p - 30)).take (min p 30 + L + 30)
            ++ List.replicate (p + L + 30 - korpus.length) 0)
          (((korpus.drop (p - 30)).take (min p 30 + L + 30)
            ++ List.replicate (p + L + 30 - korpus.length) 0).map
              (fun c => if c = 10 then 32 else c))) := by
  unfold Konkordans.printResLn
  simp only
  have hb : ¬ ((p : Int) < 0 ∨ (p : Int) > (korpus.length : Int) - (L : Int)) := by omega
  rw [if_neg hb]
  by_cases h30 : p < 30
  · have e1 : ((p : Int) < 30) := by omega
    simp only [e1, if_true]
    have e2 : ((p : Int) + (L : Int) + 30).toNat = min p 30 + L + 30 := by omega
    have e3 : p - 30 = 0 := by omega
    rw [if_neg (by omega), e2, e3]
    simp only [Int.toNat_zero, List.drop_zero]
    have hgot : ¬ (List.take (min p 30 + L + 30) korpus = [] ∧ (0 : Int) < (p : Int) + (L : Int) + 30) := by
      intro ⟨hnil, _⟩
      have hlen := congrArg List.length hnil
      rw [List.length_take, List.length_nil] at hlen
      omega
    rw [if_neg hgot]
    have e4 : min p 30 + L + 30 - (List.take (min p 30 + L + 30) korpus).length
        = p + L + 30 - korpus.length := by
      rw [List.length_take]; omega
    rw [e4]
  · have e1 : ¬ ((p : Int) < 30) := by omega
    simp only [e1, if_false]
    have e2 : ((30 : Int) * 2 + (L : Int)).toNat = min p 30 + L + 30 := by omega
    have e3 : ((p : Int) - 30).toNat = p - 30 := by omega
    rw [if_neg (by omega), e2, e3]
    have hgot : ¬ (List.take (min p 30 + L + 30) (List.drop (p - 30) korpus) = []
        ∧ (0 : Int) < 30 * 2 + (L : Int)) := by
      intro ⟨hnil, _⟩
      have hlen := congrArg List.length hnil
      rw [List.length_take, List.length_drop, List.length_nil] at hlen
      omega
    rw [if_neg hgot]
    have e4 : min p 30 + L + 30 - (List.take (min p 30 + L + 30) (List.drop (p - 30) korpus)).length
        = p + L + 30 - korpus.length := by
      rw [List.length_take, List.length_drop]; omega
    rw [e4]

/-- When the whole window lies inside the corpus, `printResLn` prints exactly the
corpus bytes of the window, newlines as spaces. -/
theorem printResLn_inside (korpus : Bytes) (p L : Nat) (hL : 1 ≤ L)
    (hp : p + L + 30 ≤ korpus.length) :
    Konkordans.printResLn korpus p L
      = Outcome.ok (Konkordans.PrintRes.printed
          ((korpus.drop (p - 30)).take (min p 30 + L + 30))
          (((korpus.drop (p - 30)).take (min p 30 + L + 30)).map
              (fun c => if c = 10 then 32 else c))) := by
  rw [printResLn_window korpus p L hL (by omega)]
  have e : p + L + 30 - korpus.length = 0 := by omega
  rw [e, List.replicate_zero, List.append_nil]

/-! ## The builder without the skip-ahead -/

/-- The outer loop without `nextHash`, started at a record boundary, writes the table
of the plain scan of the records that follow. -/
theorem mainLoopNoSkip_spec (f : Bytes) (n : Nat) (hn : f.length + 2 ≤ n) :
    ∀ (fuel : Nat) (a post : List Record) (prev curr : Int) (out : List Int),
      f = render (a ++ post) → WellFormed (a ++ post) → post.length + 1 ≤ fuel →
      Index.mainLoopNoSkip f n fuel (render a).length prev curr out
        = some (out ++ tableFrom (render a).length prev post)
  | 0, _, _, _, _, _, _, _, hfuel => by omega
  | fuel + 1, a, post, prev, curr, out, hf, wf, hfuel => by
    obtain ⟨same, rest, hpost, hall, hrest⟩ := split_same prev post
    have hlenpost : post.length ≤ f.length := by
      have := length_le_render _ wf
      rw [← hf, List.length_append] at this
      omega
    have hsame : same.length + 1 ≤ n := by
      have : same.length ≤ post.length := by rw [hpost, List.length_append]; omega
      omega
    unfold Index.mainLoopNoSkip
    rcases hrest with hnil | ⟨r, post', hcons, hne⟩
    · -- the scan runs to the end of the file
      subst hnil
      rw [List.append_nil] at hpost
      subst hpost
      obtain ⟨c, hin⟩ := innerLoop_eof f prev post a n curr hf wf hall hsame
      rw [hin]
      simp only [if_true, List.append_nil]
      have := tableFrom_same prev post [] (render a).length hall
      rw [List.append_nil] at this
      rw [this, tableFrom]
      simp
    · -- a record with a new hash
      subst hcons
      subst hpost
      have hin := innerLoop_found f prev r post' same a n curr hf wf hall hne hsame
      rw [hin]
      simp only [Bool.false_eq_true, if_false]
      have hab : a ++ (same ++ r :: post') = (a ++ (same ++ [r])) ++ post' := by simp
      have hra : (render (a ++ (same ++ [r]))).length
          = (render a).length + (render same).length + r.bytes.length := by
        simp [render_append, render_cons, render_nil]; omega
      have ih := mainLoopNoSkip_spec f n hn fuel (a ++ (same ++ [r])) post' (hashOf r.word)
        (hashOf r.word)
        (out ++ List.replicate (hashOf r.word - prev).toNat
          (((render a).length + (render same).length : Nat) : Int))
        (by rw [hf, hab]) (by rw [← hab]; exact wf)
        (by simp only [List.length_append, List.length_cons] at hfuel; omega)
      rw [hra] at ih
      rw [ih, tableFrom_same prev same _ _ hall, tableFrom, if_pos hne]
      simp only [List.append_assoc]

/-- The loop without `nextHash` writes the table of the plain scan. -/
theorem tableWritesNoSkip_eq_tableFrom (rs : List Record) (wf : WellFormed rs) :
    Index.tableWritesNoSkip (render rs) = some (tableFrom 0 (-1) rs) := by
  have h := mainLoopNoSkip_spec (render rs) ((render rs).length + 2) (Nat.le_refl _)
    ((render rs).length + 2) [] rs (-1) 0 [] (by simp) (by simpa using wf)
    (by have := length_le_render rs wf; omega)
  simpa [Index.tableWritesNoSkip, render_nil] using h

theorem wellFormed_skipIndex : WellFormed skipIndex := by
  set_option maxRecDepth 100000 in decide!

theorem hashSorted_skipIndex : HashSorted skipIndex := by
  set_option maxRecDepth 100000 in decide!

theorem length_render_skipIndex : (render skipIndex).length = 6018 := by
  set_option maxRecDepth 100000 in decide!

/-! ## The window the binary search ends with -/

/-- When the binary-search loop returns, the window it returns is at most 1000 bytes
wide and lies inside the window it started with. -/
theorem bsLoop_width (f q : Bytes) :
    ∀ (fuel : Nat) (left right l r : Int), 0 ≤ left → left ≤ right →
      Konkordans.bsLoop f q fuel left right = Outcome.ok (l, r) →
      r - l ≤ 1000 ∧ left ≤ l ∧ l ≤ r ∧ r ≤ right
  | 0, _, _, _, _, _, _, h => by simp [Konkordans.bsLoop] at h
  | fuel + 1, left, right, l, r, h0, hle, h => by
    unfold Konkordans.bsLoop at h
    by_cases hw : right - left > 1000
    · rw [if_pos hw] at h
      have hmid : Int.tdiv (left + right) 2 = (left + right) / 2 :=
        Int.tdiv_eq_ediv (by omega) (by omega)
      simp only [hmid] at h
      have hm1 : left < (left + right) / 2 := by omega
      have hm2 : (left + right) / 2 < right := by omega
      generalize (left + right) / 2 = m at hm1 hm2 h
      rw [if_neg (by omega)] at h
      cases hg : goToNewLine f m.toNat with
      | none => rw [hg] at h; cases h
      | some p =>
        rw [hg] at h
        simp only at h
        by_cases h4 : (readBytes f p 32).2 = true
        · rw [if_pos h4] at h; cases h
        · rw [if_neg h4] at h
          by_cases h5 : strLt (readBytes f p 32).1.dropLast q = true
          · rw [if_pos h5] at h
            have := bsLoop_width f q fuel m right l r (by omega) (by omega) h
            omega
          · rw [if_neg h5] at h
            have := bsLoop_width f q fuel left m l r h0 (by omega) h
            omega
    · rw [if_neg hw] at h
      injection h with h
      injection h with e1 e2
      omega

/-- When no probe can fall into the last record (it is at most 500 bytes long), the
binary-search loop ends for every window `0 ≤ left < right` inside the file, with a
window of at most 1000 bytes, and keeps the invariant on `left`. -/
theorem bsLoop_narrows (rs : List Record) (q : Bytes) (wf : WellFormed rs)
    (ws : WordSorted rs) (hlast : LastRecordAtMost 500 rs) (left right : Int)
    (h0 : 0 ≤ left) (hlr : left < right) (hr : right ≤ ((render rs).length : Int))
    (hinv : BelowQuery q rs left) :
    ∃ l r, Konkordans.bsLoop (render rs) q ((right - left).toNat + 1) left right
        = Outcome.ok (l, r) ∧
      r - l ≤ 1000 ∧ left ≤ l ∧ l ≤ r ∧ r ≤ right ∧ BelowQuery q rs l := by
  rcases bsLoop_spec rs q wf ((right - left).toNat + 1) left right h0 hlr hr (by omega) with
    ⟨l, r, hb, _, _, hk⟩ | ⟨_, hn⟩
  · obtain ⟨w1, w2, w3, w4⟩ := bsLoop_width (render rs) q _ left right l r h0 (by omega) hb
    exact ⟨l, r, hb, w1, w2, w3, w4, hk ws hinv⟩
  · exact absurd hlast hn

/-- The binary-search loop at the index of the end-to-end example with the word
"amazon", on the window of the whole file. -/
theorem bsLoop_narrows_witness :
    WellFormed exampleIndex ∧ WordSorted exampleIndex ∧ LastRecordAtMost 500 exampleIndex ∧
      ∃ l r, Konkordans.bsLoop (render exampleIndex) amazon (((35 : Int) - 0).toNat + 1) 0 35
          = Outcome.ok (l, r) ∧
        r - l ≤ 1000 ∧ (0 : Int) ≤ l ∧ l ≤ r ∧ r ≤ 35 ∧ BelowQuery amazon exampleIndex l :=
  ⟨by decide, by decide, by decide,
    bsLoop_narrows exampleIndex amazon (by decide) (by decide) (by decide) 0 35 (by decide)
      (by decide) (by decide) ⟨[], exampleIndex, rfl, by decide, by simp⟩⟩

/-! ## Claims on the hash function -/

/-- C7, as stated, fails: the one-letter word "a" and the two-character word "a "
(a letter followed by a space) are distinct words of length 1 to 3 over the 30-symbol
alphabet, and `hash` gives 900 for both. -/
theorem hash_collision_with_space :
    OverAlphabet [97] ∧ OverAlphabet [97, 32] ∧ ([97] : Bytes).length = 1 ∧
      ([97, 32] : Bytes).length = 2 ∧ ([97] : Bytes) ≠ [97, 32] ∧
      Konkordans.hash [97] = Outcome.ok 900 ∧ Konkordans.hash [97, 32] = Outcome.ok 900 := by
  decide

/-- C7, amended: `hash` is injective on the words of length 1 to 3 over the 30-symbol
alphabet that are already trimmed, that is, that neither begin nor end with a space
(a space inside the word is allowed). -/
theorem hash_injective_on_trimmed (w1 w2 : Bytes)
    (a1 : OverAlphabet w1) (a2 : OverAlphabet w2) (t1 : Trimmed w1) (t2 : Trimmed w2)
    (l1 : 1 ≤ w1.length ∧ w1.length ≤ 3) (l2 : 1 ≤ w2.length ∧ w2.length ≤ 3)
    (h : Konkordans.hash w1 = Konkordans.hash w2) : w1 = w2 := by
  have n1 : w1 ≠ [] := by intro e; rw [e] at l1; simp at l1
  have n2 : w2 ≠ [] := by intro e; rw [e] at l2; simp at l2
  rw [hash_eq_key3 a1 n1 t1.1, hash_eq_key3 a2 n2 t2.1] at h
  have hk : key3 w1 = key3 w2 := by injection h
  unfold key3 at hk
  simp only [List.getD_eq_getElem?_getD] at hk
  have inj := @charValues_inj
  have pos := @charValues_pos
  have nn := charValues_nonneg
  have le := charValues_le
  have mem1 : ∀ c ∈ w1, c ∈ alphabet := a1
  have mem2 : ∀ c ∈ w2, c ∈ alphabet := a2
  obtain ⟨_, u1⟩ := t1
  obtain ⟨_, u2⟩ := t2
  match w1, w2, l1, l2 with
  | [a], [b], _, _ =>
    simp only [List.getElem?_cons_zero, Option.getD_some, List.getElem?_cons_succ,
      List.getElem?_nil, Option.getD_none, charValues_space] at hk
    have := inj (mem1 a (by simp)) (mem2 b (by simp)) (by omega)
    rw [this]
  | [a], [b, c], _, _ =>
    simp only [List.getElem?_cons_zero, Option.getD_some, List.getElem?_cons_succ,
      List.getElem?_nil, Option.getD_none, charValues_space] at hk
    have hc := pos (mem2 c (by simp)) (fun e => u2 (by simp [e]))
    have := nn a; have := le a; have := nn b; have := le b; have := le c
    omega
  | [a], [b, c, d], _, _ =>
    simp only [List.getElem?_cons_zero, Option.getD_some, List.getElem?_cons_succ,
      List.getElem?_nil, Option.getD_none, charValues_space] at hk
    have hd := pos (mem2 d (by simp)) (fun e => u2 (by simp [e]))
    have := nn a; have := le a; have := nn b; have := le b; have := nn c; have := le c
    have := le d
    omega
  | [a, b], [c], _, _ =>
    simp only [List.getElem?_cons_zero, Option.getD_some, List.getElem?_cons_succ,
      List.getElem?_nil, Option.getD_none, charValues_space] at hk
    have hb := pos (mem1 b (by simp)) (fun e => u1 (by simp [e]))
    have := nn a; have := le a; have := le b; have := nn c; have := le c
    omega
  | [a, b], [c, d], _, _ =>
    simp only [List.getElem?_cons_zero, Option.getD_some, List.getElem?_cons_succ,
      List.getElem?_nil, Option.getD_none, charValues_space] at hk
    have := nn a; have := le a; have := nn b; have := le b
    have := nn c; have := le c; have := nn d; have := le d
    have e1 := inj (mem1 a (by simp)) (mem2 c (by simp)) (by omega)
    have e2 := inj (mem1 b (by simp)) (mem2 d (by simp)) (by omega)
    rw [e1, e2]
  | [a, b], [c, d, e], _, _ =>
    simp only [List.getElem?_cons_zero, Option.getD_some, List.getElem?_cons_succ,
      List.getElem?_nil, Option.getD_none, charValues_space] at hk
    have he := pos (mem2 e (by simp)) (fun x => u2 (by simp [x]))
    have := nn a; have := le a; have := nn b; have := le b
    have := nn c; have := le c; have := nn d; have := le d; have := le e
    omega
  | [a, b, c], [d], _, _ =>
    simp only [List.getElem?_cons_zero, Option.getD_some, List.getElem?_cons_succ,
      List.getElem?_nil, Option.getD_none, charValues_space] at hk
    have hc := pos (mem1 c (by simp)) (fun x => u1 (by simp [x]))
    have := nn a; have := le a; have := nn b; have := le b; have := le c
    have := nn d; have := le d
    omega
  | [a, b, c], [d, e], _, _ =>
    simp only [List.getElem?_cons_zero, Option.getD_some, List.getElem?_cons_succ,
      List.getElem?_nil, Option.getD_none, charValues_space] at hk
    have hc := pos (mem1 c (by simp)) (fun x => u1 (by simp [x]))
    have := nn a; have := le a; have := nn b; have := le b; have := le c
    have := nn d; have := le d; have := nn e; have := le e
    omega
  | [a, b, c], [d, e, f], _, _ =>
    simp only [List.getElem?_cons_zero, Option.getD_some, List.getElem?_cons_succ,
      List.getElem?_nil, Option.getD_none, charValues_space] at hk
    have := nn a; have := le a; have := nn b; have := le b; have := nn c; have := le c
    have := nn d; have := le d; have := nn e; have := le e; have := nn f; have := le f
    have e1 := inj (mem1 a (by simp)) (mem2 d (by simp)) (by omega)
    have e2 := inj (mem1 b (by simp)) (mem2 e (by simp)) (by omega)
    have e3 := inj (mem1 c (by simp)) (mem2 f (by simp)) (by omega)
    rw [e1, e2, e3]
  | _ :: _ :: _ :: _ :: _, _, l1, _ => simp at l1
  | _, _ :: _ :: _ :: _ :: _, _, l2 => simp at l2

/-- C7, amended, at the words "a b" (with a space inside) and "a b". -/
theorem hash_injective_on_trimmed_witness :
    OverAlphabet [97, 32, 98] ∧ Trimmed [97, 32, 98] ∧
      Konkordans.hash [97, 32, 98] = Konkordans.hash [97, 32, 98] ∧
      ([97, 32, 98] : Bytes) = [97, 32, 98] :=
  ⟨by decide, by decide, rfl,
    hash_injective_on_trimmed [97, 32, 98] [97, 32, 98] (by decide) (by decide) (by decide)
      (by decide) (by decide) (by decide) rfl⟩

/-- C8, as stated, fails: the word that is a single space is a word of length 1 over
the 30-symbol alphabet, and `hash` does not return a number for it: it ends the
process with "Can't hash this!". -/
theorem hash_of_space_fails :
    OverAlphabet [32] ∧ ([32] : Bytes).length = 1 ∧
      Konkordans.hash [32] = Outcome.cantHash := by
  decide

/-- C8, amended: for every word over the 30-symbol alphabet that has at least one
character other than the space, `hash` returns an integer `h` with
`0 ≤ h < 27000`. -/
theorem hash_range (w : Bytes) (ha : OverAlphabet w) (hx : ∃ c ∈ w, c ≠ 32) :
    ∃ h : Int, Konkordans.hash w = Outcome.ok h ∧ 0 ≤ h ∧ h < 27000 :=
  ⟨key3 (trimSpace w), hash_of_trimSpace rfl (trimSpace_ne_nil ha hx),
    key3_nonneg _, key3_lt _⟩

/-- C8, amended, at the word " ö " (the letter between two spaces). -/
theorem hash_range_witness :
    OverAlphabet [32, 246, 32] ∧ (∃ c ∈ ([32, 246, 32] : Bytes), c ≠ 32) ∧
      ∃ h : Int, Konkordans.hash [32, 246, 32] = Outcome.ok h ∧ 0 ≤ h ∧ h < 27000 :=
  ⟨by decide, by decide, hash_range [32, 246, 32] (by decide) (by decide)⟩

/-- C9, as stated, fails: " b" (a space, then b) is bytewise smaller than "a", both
are words over the alphabet, and `hash` trims the first to "b": 1800 against 900. -/
theorem hash_not_monotone_leading_space :
    OverAlphabet [32, 98] ∧ OverAlphabet [97] ∧ strLt [32, 98] [97] = true ∧
      Konkordans.hash [32, 98] = Outcome.ok 1800 ∧ Konkordans.hash [97] = Outcome.ok 900 ∧
      ¬ ((1800 : Int) ≤ 900) := by
  decide

/-- C9, amended: for any two words `w1`, `w2` over the alphabet with `w1` non-empty and
not beginning with a space, if `w1 < w2` bytewise then both hashes are defined and
`hash w1 ≤ hash w2`. -/
theorem hash_monotone (w1 w2 : Bytes) (a1 : OverAlphabet w1) (a2 : OverAlphabet w2)
    (n1 : w1 ≠ []) (s1 : w1.head? ≠ some 32) (h : strLt w1 w2 = true) :
    ∃ h1 h2 : Int, Konkordans.hash w1 = Outcome.ok h1 ∧ Konkordans.hash w2 = Outcome.ok h2 ∧
      h1 ≤ h2 := by
  refine ⟨key3 w1, key3 w2, hash_eq_key3 a1 n1 s1, ?_, key3_mono a1 a2 h⟩
  match w1, w2, n1 with
  | a :: r1, [], _ => simp [strLt] at h
  | a :: r1, b :: r2, _ =>
    have ha : 32 < a :=
      lt_of_mem_alphabet_ne_space (a1 a (List.mem_cons_self _ _)) (fun e => s1 (by simp [e]))
    have hb : b ≠ 32 := by
      intro e
      subst e
      have : ¬ a < 32 := by omega
      simp [strLt, this, ha] at h
    exact hash_eq_key3 a2 (List.cons_ne_nil _ _) (by simpa using hb)

/-- C9, amended, at the words "ab" and "b". -/
theorem hash_monotone_witness :
    OverAlphabet [97, 98] ∧ OverAlphabet [98] ∧ strLt [97, 98] [98] = true ∧
      ∃ h1 h2 : Int, Konkordans.hash [97, 98] = Outcome.ok h1 ∧
        Konkordans.hash [98] = Outcome.ok h2 ∧ h1 ≤ h2 :=
  ⟨by decide, by decide, by decide,
    hash_monotone [97, 98] [98] (by decide) (by decide) (by decide) (by decide) (by decide)⟩

/-! ## Claims on the builder -/

/-- C1: for a well-formed word-index with non-decreasing hashes, the builder ends and
the table file it writes holds, for every hash `h` from 0 up to the hash of the last
record, the offset of the first record whose hash is at least `h`: write number `h`
is that offset, and bytes `8h .. 8h+7` of the file are its little-endian form.  The
builder writes one entry for each of these hashes and no more. -/
theorem builder_table_entries (rs : List Record) (wf : WellFormed rs) (hs : HashSorted rs)
    (hne : rs ≠ []) :
    ∃ t : List Int, Index.tableWrites (render rs) = some t ∧
      Index.main (render rs) = some (indexFile t) ∧
      (t.length : Int) = hashOf (rs.getLast hne).word + 1 ∧
      ∀ h : Nat, (h : Int) ≤ hashOf (rs.getLast hne).word →
        t[h]? = some ((firstOffsetGE h rs 0 : Nat) : Int) ∧
        ((indexFile t).drop (8 * h)).take 8 = int64Bytes ((firstOffsetGE h rs 0 : Nat) : Int) := by
  have hw := tableWrites_eq_tableFrom rs wf hs
  have hge : ∀ r ∈ rs, (-1 : Int) ≤ hashOf r.word := by
    intro r hr
    have := (wf r hr).hashOf_ge
    omega
  have hlen := tableFrom_length rs 0 (-1) hs hge
  rw [List.getLast?_eq_getLast _ hne] at hlen
  simp only [Option.map_some', Option.getD_some] at hlen
  refine ⟨tableFrom 0 (-1) rs, hw, by simp [Index.main, hw], by omega, ?_⟩
  intro h hh
  have hget := tableFrom_getElem? rs 0 (-1) hs hge h (by omega)
  have e : (-1 : Int) + 1 + (h : Int) = (h : Int) := by omega
  rw [e] at hget
  exact ⟨hget, entry_indexFile hget⟩

/-- C1 at the index "a 1", "ab 1", "ab 2", "b 1", whose last record has the hash
1800. -/
theorem builder_table_entries_witness :
    WellFormed smallIndex ∧ HashSorted smallIndex ∧
      ∃ t : List Int, Index.tableWrites (render smallIndex) = some t ∧
        Index.main (render smallIndex) = some (indexFile t) ∧
        (t.length : Int) = hashOf ([98] : Bytes) + 1 ∧
        ∀ h : Nat, (h : Int) ≤ hashOf ([98] : Bytes) →
          t[h]? = some ((firstOffsetGE h smallIndex 0 : Nat) : Int) ∧
          ((indexFile t).drop (8 * h)).take 8
            = int64Bytes ((firstOffsetGE h smallIndex 0 : Nat) : Int) :=
  ⟨by decide, by decide,
    builder_table_entries smallIndex (by decide) (by decide) (by decide)⟩

/-- C10 at the index that holds the one record "a 1": the builder writes 901 entries
(hashes 0 to 900, the hash of "a"), a table file of 7208 bytes and not of 27000 * 8. -/
theorem builder_table_size_single_record :
    Index.tableWrites (render [⟨[97], [49]⟩]) = some (List.replicate 901 0) ∧
      (Index.main (render [⟨[97], [49]⟩])).map List.length = some 7208 ∧
      (7208 : Nat) ≠ 27000 * 8 := by
  refine ⟨?_, ?_, by decide⟩
  · set_option maxRecDepth 10000 in decide!
  · set_option maxRecDepth 10000 in decide!

/-- C2 at the index that holds the one record "a 1" and the hash 900 of "a", which
the record has: the builder's table ends after entry 900, so the read of entry 901
in `getBSPointers` meets the end of the file and the process ends on the error. -/
theorem getBSPointers_last_hash_fatal :
    Index.main (render [⟨[97], [49]⟩]) = some (indexFile (List.replicate 901 0)) ∧
      Konkordans.hash [97] = Outcome.ok 900 ∧
      Konkordans.getBSPointers (indexFile (List.replicate 901 0))
        (render [⟨[97], [49]⟩]).length 900 = Outcome.fatal := by
  have h : Index.tableWrites (render [⟨[97], [49]⟩]) = some (List.replicate 901 0) := by
    set_option maxRecDepth 10000 in decide!
  refine ⟨?_, by decide, ?_⟩
  · show (Index.tableWrites _).map indexFile = _
    rw [h]
    rfl
  · set_option maxRecDepth 10000 in decide!

/-- C6 at the index that holds the one record "a 1" and the query "b", whose hash
1800 no record has: the builder's table ends after entry 900, so the read of entry
1800 in `getBSPointers` meets the end of the file and the process ends on the error
instead of reporting zero occurrences. -/
theorem getBSPointers_beyond_last_hash_fatal :
    Index.main (render [⟨[97], [49]⟩]) = some (indexFile (List.replicate 901 0)) ∧
      Konkordans.hash [98] = Outcome.ok 1800 ∧
      (∀ r ∈ ([⟨[97], [49]⟩] : List Record), hashOf r.word ≠ 1800) ∧
      Konkordans.getBSPointers (indexFile (List.replicate 901 0))
        (render [⟨[97], [49]⟩]).length 1800 = Outcome.fatal ∧
      Konkordans.binarySearch (indexFile (List.replicate 901 0)) (render [⟨[97], [49]⟩]) [98]
        = Outcome.fatal := by
  have h : Index.tableWrites (render [⟨[97], [49]⟩]) = some (List.replicate 901 0) := by
    set_option maxRecDepth 10000 in decide!
  refine ⟨?_, by decide, by decide, ?_, ?_⟩
  · show (Index.tableWrites _).map indexFile = _
    rw [h]
    rfl
  · set_option maxRecDepth 10000 in decide!
  · set_option maxRecDepth 10000 in decide!

/-! ## Claims on the query engine -/

theorem hashOf_longWord : hashOf longWord = 26999 := by
  set_option maxRecDepth 10000 in decide!

theorem wellFormed_longIndex : WellFormed longIndex := by
  set_option maxRecDepth 10000 in decide!

theorem wordSorted_longIndex : WordSorted longIndex := by
  unfold WordSorted longIndex
  exact List.pairwise_singleton _ _

theorem longWord_ne_nil : longWord ≠ [] := by
  intro e
  have h := congrArg List.length e
  rw [longWord, List.length_replicate] at h
  cases h

theorem length_render_longIndex : (render longIndex).length = 1003 := by
  unfold longIndex
  rw [render_cons, render_nil, List.append_nil, Record.length_bytes]
  simp only [longWord, List.length_replicate, List.length_cons, List.length_nil]

/-- For the index `longIndex` the table of 27000 zero entries is the correct table. -/
theorem tableCorrect_longIndex : TableCorrect longIndex (indexFile (List.replicate 27000 0)) := by
  apply tableCorrect_of_entries longIndex _ (List.length_replicate _ _)
    (by rw [length_render_longIndex]; decide)
  intro h hh
  rw [List.getElem?_replicate, if_pos hh]
  unfold longIndex
  rw [firstOffsetGE, if_pos (by rw [hashOf_longWord]; omega)]
  rfl

/-- For the index `longIndex` the builder writes 27000 zero entries. -/
theorem tableWrites_longIndex :
    Index.tableWrites (render longIndex) = some (List.replicate 27000 0) := by
  rw [tableWrites_eq_tableFrom longIndex wellFormed_longIndex
    (hashSorted_of_wordSorted wellFormed_longIndex wordSorted_longIndex)]
  unfold longIndex
  rw [tableFrom, hashOf_longWord, if_pos (by decide), tableFrom, List.append_nil]
  have e : ((26999 : Int) - -1).toNat = 27000 := by decide
  rw [e]
  rfl

/-- In `longIndex` the first probe of the binary search falls into the only record:
the read of the word after it meets the end of the file. -/
theorem bsLoop_longIndex (q : Bytes) (fuel : Nat) :
    Konkordans.bsLoop (render longIndex) q (fuel + 1) 0 1003 = Outcome.fatal := by
  have h1 : goToNewLine (render longIndex) 501 = some 1003 := by
    set_option maxRecDepth 10000 in decide!
  have h2 : readBytes (render longIndex) 1003 32 = ([], true) :=
    readBytes_at_end _ _ _ (by rw [length_render_longIndex])
  unfold Konkordans.bsLoop
  have hm : Int.tdiv (0 + 1003) 2 = 501 := by decide
  simp only [hm]
  rw [if_pos (by decide), if_neg (by decide)]
  have e : (501 : Int).toNat = 501 := rfl
  rw [e, h1]
  simp only [h2, if_true]

/-- `binarySearch` ends on the read error when its binary-search loop does. -/
theorem binarySearch_of_bsLoop_fatal (index f q : Bytes) (h l r : Int)
    (hh : Konkordans.hash (trimSpace q) = Outcome.ok h)
    (hg : Konkordans.getBSPointers index f.length h = Outcome.ok (l, r))
    (hb : Konkordans.bsLoop f (trimSpace q) ((r - l).toNat + 1) l r = Outcome.fatal) :
    Konkordans.binarySearch index f q = Outcome.fatal := by
  unfold Konkordans.binarySearch
  simp only [hh, hg, hb]

/-- With the table of `longIndex`, `binarySearch` for a word with hash 26999 ends on
the read error. -/
theorem binarySearch_longIndex_fatal (q : Bytes)
    (hh : Konkordans.hash (trimSpace q) = Outcome.ok 26999) :
    Konkordans.binarySearch (indexFile (List.replicate 27000 0)) (render longIndex) q
      = Outcome.fatal := by
  have hg := (getBSPointers_correct wellFormed_longIndex
    (hashSorted_of_wordSorted wellFormed_longIndex wordSorted_longIndex)
    tableCorrect_longIndex (h := 26999) (by decide) (by decide)
    ⟨⟨longWord, [49]⟩, by simp [longIndex], hashOf_longWord⟩).1
  have e1 : firstOffsetGE 26999 longIndex 0 = 0 := by
    unfold longIndex
    rw [firstOffsetGE, if_pos (by rw [hashOf_longWord])]
  have e2 : firstOffsetGE (26999 + 1) longIndex 0 = 1003 := by
    have := firstOffsetGE_of_all_lt (26999 + 1) longIndex 0 (by
      intro r hr
      have := (wellFormed_longIndex r hr).hashOf_lt
      omega)
    rw [this, length_render_longIndex]
  rw [e1, e2] at hg
  simp only [Nat.cast_zero, Nat.cast_ofNat] at hg
  exact binarySearch_of_bsLoop_fatal _ _ q 26999 0 1003 hh hg (bsLoop_longIndex _ _)

/-- C3 at the index that holds one record, the word of a thousand letters `ö` with
offset 1 (1003 bytes).  The table is the correct one, 27000 zero entries, and it is
the table the builder writes; the query is the word of the record, whose first
record starts at offset 0.  The window is the whole file, the first probe at byte 501
falls into the only record, and the read of the next word meets the end of the file:
`binarySearch` ends on the read error instead of returning offset 0. -/
theorem binarySearch_long_last_record_fatal :
    WellFormed longIndex ∧ WordSorted longIndex ∧
      TableCorrect longIndex (indexFile (List.replicate 27000 0)) ∧
      Index.main (render longIndex) = some (indexFile (List.replicate 27000 0)) ∧
      (∃ r ∈ longIndex, r.word = longWord) ∧ firstOffsetOf longWord longIndex 0 = some 0 ∧
      Konkordans.binarySearch (indexFile (List.replicate 27000 0)) (render longIndex) longWord
        = Outcome.fatal := by
  refine ⟨wellFormed_longIndex, wordSorted_longIndex, tableCorrect_longIndex, ?_,
    ⟨⟨longWord, [49]⟩, by simp [longIndex], rfl⟩, by simp [firstOffsetOf, longIndex], ?_⟩
  · show (Index.tableWrites _).map indexFile = _
    rw [tableWrites_longIndex]
    rfl
  · apply binarySearch_longIndex_fatal
    rw [hash_trimSpace]
    have := hashOf_letters longWord_ne_nil
      (wellFormed_longIndex ⟨longWord, [49]⟩ (by simp [longIndex])).2.1
    rw [this]
    have h2 := hashOf_longWord
    rw [hashOf_eq_key3 longWord_ne_nil
      (wellFormed_longIndex ⟨longWord, [49]⟩ (by simp [longIndex])).2.1] at h2
    rw [h2]

/-- The first match is found when no probe can fall into the last record: for every
well-formed word-index sorted bytewise by word whose last record is at most 500 bytes
long, every bucket table that is correct for it, and every query word that occurs in
the index, `binarySearch` returns the byte offset of the start of the first record
whose word is the query. -/
theorem binarySearch_first_match (rs : List Record) (index q : Bytes) (wf : WellFormed rs)
    (srt : WordSorted rs) (tc : TableCorrect rs index) (hq : ∃ r ∈ rs, r.word = q)
    (hlast : LastRecordAtMost 500 rs) :
    ∃ p, firstOffsetOf q rs 0 = some p ∧
      Konkordans.binarySearch index (render rs) q = Outcome.ok p := by
  obtain ⟨p, hp, hres⟩ := binarySearch_found rs index q wf srt tc hq
  rcases hres with h | ⟨_, hlong⟩
  · exact ⟨p, hp, h⟩
  · exact absurd hlast hlong

/-- The first match at the index of the end-to-end example and the word "amazon". -/
theorem binarySearch_first_match_witness :
    WellFormed exampleIndex ∧ WordSorted exampleIndex ∧
      TableCorrect exampleIndex (specTable exampleIndex) ∧
      (∃ r ∈ exampleIndex, r.word = amazon) ∧ LastRecordAtMost 500 exampleIndex ∧
      ∃ p, firstOffsetOf amazon exampleIndex 0 = some p ∧
        Konkordans.binarySearch (specTable exampleIndex) (render exampleIndex) amazon
          = Outcome.ok p :=
  ⟨by decide, by decide, specTable_correct exampleIndex (by decide), by decide, by decide,
    binarySearch_first_match exampleIndex (specTable exampleIndex) amazon (by decide)
      (by decide) (specTable_correct exampleIndex (by decide)) (by decide) (by decide)⟩

/-- The enumeration after a successful search: for a well-formed word-index sorted
bytewise by word (its offset fields byte positions an `int64` holds), a bucket table
that is correct for it, a query word that occurs in it and any corpus: whenever
`binarySearch` returns a pointer, `printResult` started from that pointer ends, and
the corpus offsets it passes to `printResLn` are exactly the offset fields of the
records whose word is the query, in index order and nothing else.  `binarySearch`
does return a pointer when the last record of the index is at most 500 bytes long. -/
theorem printResult_offsets (rs : List Record) (index q korpus : Bytes)
    (wf : WellFormed rs) (srt : WordSorted rs) (hin : OffsetsInRange rs)
    (tc : TableCorrect rs index) (hq : ∃ r ∈ rs, r.word = q) :
    (LastRecordAtMost 500 rs →
        ∃ ptr, Konkordans.binarySearch index (render rs) q = Outcome.ok ptr) ∧
      ∀ ptr, Konkordans.binarySearch index (render rs) q = Outcome.ok ptr →
        ∃ calls, Konkordans.printResult (render rs) korpus ptr q = Outcome.ok calls ∧
          calls.map Prod.fst = matchingOffsets q rs := by
  obtain ⟨p, hp, hres⟩ := binarySearch_found rs index q wf srt tc hq
  constructor
  · intro hlast
    rcases hres with h | ⟨_, hlong⟩
    · exact ⟨p, h⟩
    · exact absurd hlast hlong
  · intro ptr hbs
    have hptr : ptr = p := by
      rcases hres with h | ⟨h, _⟩
      · rw [hbs] at h
        injection h
      · rw [hbs] at h
        cases h
    rw [hptr]
    exact printResult_run rs korpus q wf srt hin hp

/-- The enumeration at the index of the end-to-end example, "amager 120",
"amager 5000", "amazon 9000", with the table of the data model (all 27000 entries)
and a corpus of 9100 bytes: the offsets are 120 and 5000 for "amager", from pointer 0,
and 9000 for "amazon", from pointer 23. -/
theorem printResult_offsets_witness :
    WellFormed exampleIndex ∧ WordSorted exampleIndex ∧ OffsetsInRange exampleIndex ∧
      TableCorrect exampleIndex (specTable exampleIndex) ∧
      Konkordans.binarySearch (specTable exampleIndex) (render exampleIndex) amager
        = Outcome.ok 0 ∧
      Konkordans.binarySearch (specTable exampleIndex) (render exampleIndex) amazon
        = Outcome.ok 23 ∧
      matchingOffsets amager exampleIndex = [120, 5000] ∧
      matchingOffsets amazon exampleIndex = [9000] ∧
      (∃ calls, Konkordans.printResult (render exampleIndex) (List.replicate 9100 97) 0 amager
          = Outcome.ok calls ∧ calls.map Prod.fst = matchingOffsets amager exampleIndex) ∧
      (∃ calls, Konkordans.printResult (render exampleIndex) (List.replicate 9100 97) 23 amazon
          = Outcome.ok calls ∧ calls.map Prod.fst = matchingOffsets amazon exampleIndex) := by
  have h1 : Konkordans.binarySearch (specTable exampleIndex) (render exampleIndex) amager
      = Outcome.ok 0 := by
    set_option maxRecDepth 10000 in decide!
  have h2 : Konkordans.binarySearch (specTable exampleIndex) (render exampleIndex) amazon
      = Outcome.ok 23 := by
    set_option maxRecDepth 10000 in decide!
  have tc := specTable_correct exampleIndex (by decide)
  exact ⟨by decide, by decide, by decide, tc, h1, h2, by decide, by decide,
    (printResult_offsets exampleIndex (specTable exampleIndex) amager (List.replicate 9100 97)
      (by decide) (by decide) (by decide) tc (by decide)).2 0 h1,
    (printResult_offsets exampleIndex (specTable exampleIndex) amazon (List.replicate 9100 97)
      (by decide) (by decide) (by decide) tc (by decide)).2 23 h2⟩

/-- C4 at the index of the claim's own example, "amager 120", "amager 5000",
"amazon 9000", with the table the builder writes for it, and at the index that holds
one record of 1003 bytes with its table.  For the first the builder writes 1292
entries, the last for the hash 1291 of both words, and the read of entry 1292 in
`getBSPointers` meets the end of the table; for the second the first probe of the
binary search falls into the only record.  In each case `binarySearch` ends the
process on the read error: it returns no pointer, `printResult` is never started and
no offset reaches `printResLn`, where the records of the query hold the offsets
120 and 5000, 9000, and 1. -/
theorem query_offsets_builder_table_fatal :
    WellFormed exampleIndex ∧ WordSorted exampleIndex ∧
      matchingOffsets amager exampleIndex = [120, 5000] ∧
      matchingOffsets amazon exampleIndex = [9000] ∧
      Index.main (render exampleIndex) = some (indexFile (List.replicate 1292 0)) ∧
      Konkordans.binarySearch (indexFile (List.replicate 1292 0)) (render exampleIndex) amager
        = Outcome.fatal ∧
      Konkordans.binarySearch (indexFile (List.replicate 1292 0)) (render exampleIndex) amazon
        = Outcome.fatal ∧
      WellFormed longIndex ∧ WordSorted longIndex ∧
      matchingOffsets longWord longIndex = [1] ∧
      Index.main (render longIndex) = some (indexFile (List.replicate 27000 0)) ∧
      Konkordans.binarySearch (indexFile (List.replicate 27000 0)) (render longIndex) longWord
        = Outcome.fatal := by
  have h : Index.tableWrites (render exampleIndex) = some (List.replicate 1292 0) := by
    set_option maxRecDepth 10000 in decide!
  refine ⟨by decide, by decide, by decide, by decide, ?_, ?_, ?_, wellFormed_longIndex,
    wordSorted_longIndex, ?_, ?_, ?_⟩
  · show (Index.tableWrites _).map indexFile = _
    rw [h]
    rfl
  · set_option maxRecDepth 10000 in decide!
  · set_option maxRecDepth 10000 in decide!
  · simp [matchingOffsets, longIndex, decimalValue]
  · show (Index.tableWrites _).map indexFile = _
    rw [tableWrites_longIndex]
    rfl
  · apply binarySearch_longIndex_fatal
    rw [hash_trimSpace]
    have h2 := hashOf_longWord
    rw [hashOf_eq_key3 longWord_ne_nil
      (wellFormed_longIndex ⟨longWord, [49]⟩ (by simp [longIndex])).2.1] at h2
    rw [hash_eq_key3 (overAlphabet_of_letters
        (wellFormed_longIndex ⟨longWord, [49]⟩ (by simp [longIndex])).2.1) longWord_ne_nil
      (head?_ne_space_of_letters
        (wellFormed_longIndex ⟨longWord, [49]⟩ (by simp [longIndex])).2.1), h2]

/-- C5 at the index that holds one record, the word of a thousand letters `ö` with
offset 1; the table is the correct one, 27000 zero entries.  The query "ööö" does not
occur, and its hash 26999 is the hash of the record, so the bucket is not empty.  The
first probe of the binary search falls into the only record and the read of the next
word meets the end of the file: `binarySearch` ends on the read error and not with
zero occurrences. -/
theorem binarySearch_absent_long_last_record_fatal :
    WellFormed longIndex ∧ WordSorted longIndex ∧
      TableCorrect longIndex (indexFile (List.replicate 27000 0)) ∧
      Konkordans.hash [246, 246, 246] = Outcome.ok 26999 ∧
      (∃ r ∈ longIndex, hashOf r.word = 26999) ∧
      (∀ r ∈ longIndex, r.word ≠ [246, 246, 246]) ∧
      Konkordans.binarySearch (indexFile (List.replicate 27000 0)) (render longIndex)
        [246, 246, 246] = Outcome.fatal := by
  refine ⟨wellFormed_longIndex, wordSorted_longIndex, tableCorrect_longIndex, by decide,
    ⟨⟨longWord, [49]⟩, by simp [longIndex], hashOf_longWord⟩, ?_,
    binarySearch_longIndex_fatal _ (by decide)⟩
  intro r hr e
  have hr' : r = ⟨longWord, [49]⟩ := by simpa [longIndex] using hr
  rw [hr'] at e
  have h := congrArg List.length e
  simp only [longWord, List.length_replicate, List.length_cons, List.length_nil] at h
  omega

/-- Zero occurrences are reported when no probe can fall into the last record: for
every well-formed word-index sorted bytewise by word whose last record is at most 500
bytes long, every bucket table that is correct for it, and every query word that
(trimmed) is the word of no record while some record has its hash, `binarySearch`
ends in the zero-occurrences outcome: it returns no pointer and does not end on an
I/O error. -/
theorem binarySearch_zero_occurrences (rs : List Record) (index q : Bytes) (h : Int)
    (wf : WellFormed rs) (srt : WordSorted rs) (tc : TableCorrect rs index)
    (hh : Konkordans.hash q = Outcome.ok h) (hb : ∃ r ∈ rs, hashOf r.word = h)
    (hq : ∀ r ∈ rs, r.word ≠ trimSpace q) (hlast : LastRecordAtMost 500 rs) :
    Konkordans.binarySearch index (render rs) q = Outcome.noOccurrences := by
  rcases binarySearch_absent rs index q h wf (hashSorted_of_wordSorted wf srt) tc hh hb hq with
    hres | ⟨_, hlong⟩
  · exact hres
  · exact absurd hlast hlong

/-- Zero occurrences at the index of the end-to-end example and the query "ama",
which has the hash of "amager" and "amazon" and is the word of no record. -/
theorem binarySearch_zero_occurrences_witness :
    WellFormed exampleIndex ∧ WordSorted exampleIndex ∧
      TableCorrect exampleIndex (specTable exampleIndex) ∧
      Konkordans.hash [97, 109, 97] = Outcome.ok 1291 ∧
      (∃ r ∈ exampleIndex, hashOf r.word = 1291) ∧
      (∀ r ∈ exampleIndex, r.word ≠ trimSpace [97, 109, 97]) ∧
      LastRecordAtMost 500 exampleIndex ∧
      Konkordans.binarySearch (specTable exampleIndex) (render exampleIndex) [97, 109, 97]
        = Outcome.noOccurrences :=
  ⟨by decide, by decide, specTable_correct exampleIndex (by decide), by decide, by decide,
    by decide, by decide,
    binarySearch_zero_occurrences exampleIndex (specTable exampleIndex) [97, 109, 97] 1291
      (by decide) (by decide) (specTable_correct exampleIndex (by decide)) (by decide)
      (by decide) (by decide) (by decide)⟩

/-! ## Claims on the alphabet table and the two hash functions -/

/-- C13, as stated, fails: the word "a1" has the digit 1, a byte outside the 30-symbol
alphabet, among its first three characters, and `hash` of konkordans.go returns the
value 900 for it, the hash of "a"; so does `hash` of index.go on the bytes of "a1 ". -/
theorem hash_of_digit_returns :
    49 ∉ alphabet ∧ 49 ∈ ([97, 49] : Bytes).take 3 ∧
      Konkordans.hash [97, 49] = Outcome.ok 900 ∧ Index.hash 97 49 32 = 900 := by
  decide

/-- C13, amended: for every word that is not empty after trimming, whatever bytes it
holds, `hash` of konkordans.go returns a value, the base-30 key of its first three
characters, and in both programs a byte outside the 30-symbol alphabet counts with
the ordinal 0 (the zero value of the map), as a space does. -/
theorem hash_counts_unsupported_as_zero (w : Bytes) (hne : trimSpace w ≠ []) :
    Konkordans.hash w = Outcome.ok (key3 (trimSpace w)) ∧
      (∀ c, c ∉ alphabet → charValues c = 0) ∧
      (∀ c1 c2 c3, c1 ∉ alphabet → Index.hash c1 c2 c3 = Index.hash 32 c2 c3) := by
  refine ⟨hash_of_trimSpace rfl hne, fun c hc => initLoop_of_not_mem c _ _ _ hc, ?_⟩
  intro c1 c2 c3 hc
  have h0 : charValues c1 = 0 := initLoop_of_not_mem c1 _ _ _ hc
  simp [Index.hash, h0, charValues_space]

/-- C13, amended, at the word "a1". -/
theorem hash_counts_unsupported_as_zero_witness :
    trimSpace [97, 49] ≠ [] ∧ Konkordans.hash [97, 49] = Outcome.ok (key3 (trimSpace [97, 49])) ∧
      (∀ c, c ∉ alphabet → charValues c = 0) ∧
      (∀ c1 c2 c3, c1 ∉ alphabet → Index.hash c1 c2 c3 = Index.hash 32 c2 c3) :=
  ⟨by decide, hash_counts_unsupported_as_zero [97, 49] (by decide)⟩

/-- C14: for every word `w` over the alphabet, `hash` of konkordans.go is the reference
definition applied to the trimmed word: "Can't hash this!" when the trimmed word is
empty, `900 v(c1)`, `900 v(c1) + 30 v(c2)`, `900 v(c1) + 30 v(c2) + v(c3)` for the
lengths 1, 2 and at least 3, with `v` the alphabet ordinal; for a word that is
already trimmed it is the reference definition applied to the word itself; and two
words whose trimmed forms have at least three characters and the same first three
have the same hash. -/
theorem hash_eq_reference (w : Bytes) (ha : OverAlphabet w) :
    Konkordans.hash w
        = (match hashReference (trimSpace w) with
          | some h => Outcome.ok h
          | none => Outcome.cantHash) ∧
      (Trimmed w → Konkordans.hash w
        = (match hashReference w with
          | some h => Outcome.ok h
          | none => Outcome.cantHash)) ∧
      ∀ w2 : Bytes, 3 ≤ (trimSpace w).length →
        (trimSpace w2).take 3 = (trimSpace w).take 3 → Konkordans.hash w2 = Konkordans.hash w := by
  have h1 := hash_switch_eq_reference _ (overAlphabet_trimSpace ha)
  refine ⟨h1, fun ht => ?_, ?_⟩
  · have h2 : Konkordans.hash w
        = (match hashReference (trimSpace w) with
          | some h => Outcome.ok h
          | none => Outcome.cantHash) := h1
    rw [trimSpace_of_trimmed ha ht] at h2
    exact h2
  intro w2 hlen htake
  unfold Konkordans.hash
  match h1 : trimSpace w, h2 : trimSpace w2, hlen, htake with
  | a :: b :: c :: t, a2 :: b2 :: c2 :: t2, _, htake =>
    simp only [List.take_succ_cons, List.take_zero, List.cons.injEq, and_true] at htake
    obtain ⟨e1, e2, e3⟩ := htake
    simp only [e1, e2, e3]
  | a :: b :: c :: t, [a2, b2], _, htake => simp at htake
  | a :: b :: c :: t, [a2], _, htake => simp at htake
  | a :: b :: c :: t, [], _, htake => simp at htake
  | [a, b], _, hlen, _ => simp at hlen
  | [a], _, hlen, _ => simp at hlen
  | [], _, hlen, _ => simp at hlen

/-- C14 at the word "  abcd ", between spaces. -/
theorem hash_eq_reference_witness :
    OverAlphabet [32, 32, 97, 98, 99, 100, 32] ∧
      Konkordans.hash [32, 32, 97, 98, 99, 100, 32]
        = (match hashReference (trimSpace [32, 32, 97, 98, 99, 100, 32]) with
          | some h => Outcome.ok h
          | none => Outcome.cantHash) ∧
      (Trimmed [32, 32, 97, 98, 99, 100, 32] → Konkordans.hash [32, 32, 97, 98, 99, 100, 32]
        = (match hashReference [32, 32, 97, 98, 99, 100, 32] with
          | some h => Outcome.ok h
          | none => Outcome.cantHash)) ∧
      ∀ w2 : Bytes, 3 ≤ (trimSpace [32, 32, 97, 98, 99, 100, 32]).length →
        (trimSpace w2).take 3 = (trimSpace [32, 32, 97, 98, 99, 100, 32]).take 3 →
        Konkordans.hash w2 = Konkordans.hash [32, 32, 97, 98, 99, 100, 32] :=
  ⟨by decide, hash_eq_reference [32, 32, 97, 98, 99, 100, 32] (by decide)⟩

/-- C15 at the words of the docstring: `hash` gives 900 for "a", 930 for "aa" and 931
for "aaa", not 0, and 26999 for "ööö", which is 30^3 - 1 and not 29^3 - 1. -/
theorem hash_of_docstring_words :
    Konkordans.hash [97] = Outcome.ok 900 ∧ Konkordans.hash [97, 97] = Outcome.ok 930 ∧
      Konkordans.hash [97, 97, 97] = Outcome.ok 931 ∧
      Konkordans.hash [246, 246, 246] = Outcome.ok 26999 ∧
      (26999 : Int) = 30 ^ 3 - 1 ∧ (26999 : Int) ≠ 29 ^ 3 - 1 := by
  decide

/-- C17: for every record `<w> <decimal offset>\n` with `w` a non-empty word of
letters, the line has at least three bytes, `readThreeBytes` at the start of the
record returns them, and `hash` of index.go on them is the value `hash` of
konkordans.go returns for `w`; this covers the words of length 1 and 2, where the
three bytes run into the separator and the offset. -/
theorem builder_hash_eq_query_hash (r : Record) (h : r.WellFormed) (X Y : Bytes) :
    ∃ c1 c2 c3 t, r.bytes = c1 :: c2 :: c3 :: t ∧
      Index.readThreeBytes (X ++ r.bytes ++ Y) X.length = ((c1, c2, c3, false), X.length + 3) ∧
      Konkordans.hash r.word = Outcome.ok (Index.hash c1 c2 c3) := by
  obtain ⟨c1, c2, c3, t, hb, hh⟩ := h.first_three
  refine ⟨c1, c2, c3, t, hb, ?_, ?_⟩
  · rw [hb]
    simp [Index.readThreeBytes]
  · rw [hh, hashOf_eq_key3 h.1 h.2.1]
    exact hash_eq_key3 (overAlphabet_of_letters h.2.1) h.1 (head?_ne_space_of_letters h.2.1)

/-- C17 at the record "a 1", where the three bytes are the word, the separator and the
first digit of the offset. -/
theorem builder_hash_eq_query_hash_witness :
    Record.WellFormed ⟨[97], [49]⟩ ∧
      ∃ c1 c2 c3 t, Record.bytes ⟨[97], [49]⟩ = c1 :: c2 :: c3 :: t ∧
        Index.readThreeBytes (([] : Bytes) ++ Record.bytes ⟨[97], [49]⟩ ++ [98, 32, 50, 10])
          ([] : Bytes).length = ((c1, c2, c3, false), ([] : Bytes).length + 3) ∧
        Konkordans.hash (Record.word ⟨[97], [49]⟩) = Outcome.ok (Index.hash c1 c2 c3) :=
  ⟨by decide, builder_hash_eq_query_hash ⟨[97], [49]⟩ (by decide) [] [98, 32, 50, 10]⟩

/-- C19: the alphabet has 30 distinct single-byte characters; `init` of index.go maps
them, in order, onto the ordinals 0 to 29, that is space to 0, a..z to 1..26, ä to 27,
å to 28 and ö to 29, and leaves every other byte without an entry (a lookup gives 0);
`init` of konkordans.go builds the same table, and it is the table both hash
functions use. -/
theorem init_alphabet_table :
    alphabet.length = 30 ∧ alphabet.Nodup ∧ alphabet.all (fun c => c < 256) = true ∧
      alphabet.map Index.init = (List.range 30).map (fun k => (k : Int)) ∧
      (∀ c, Index.init c = charValuesSpec c) ∧
      (∀ c, Index.init c = if c ∈ alphabet then ordinal c else 0) ∧
      Konkordans.init = Index.init ∧ charValues = Index.init := by
  refine ⟨by decide, by decide, by decide, by decide, charValues_eq, ?_, rfl, rfl⟩
  intro c
  by_cases hc : c ∈ alphabet
  · rw [if_pos hc]
    exact charValues_eq_ordinal c hc
  · rw [if_neg hc]
    exact initLoop_of_not_mem c _ _ _ hc

/-! ## Claims on the linear scan -/

/-- C20: for a record word `r` and a query `q` that differ and consist of letters of
the alphabet, with `r` non-empty, the test of the linear scan on the record word with
its trailing space, `(r ++ " ") > q`, holds if and only if `r > q`; and at a record
`<r> <offset>\n` the scan stops with zero occurrences when `r > q` and goes on to the
next record when it is not.  (That `q` is non-empty is not needed.) -/
theorem linear_scan_greater_test (r q : Bytes) (hr : r ≠ [])
    (lr : ∀ c ∈ r, isLetter c = true) (lq : ∀ c ∈ q, isLetter c = true) (hne : r ≠ q) :
    strLt q (r ++ [32]) = strLt q r ∧
      ∀ (off X Y : Bytes) (fuel ptr : Nat), off ≠ [] → (∀ c ∈ off, isDigit c = true) →
        Konkordans.linearLoop (X ++ Record.bytes ⟨r, off⟩ ++ Y) q (fuel + 1) X.length ptr
          = if strLt q r = true then Outcome.noOccurrences
            else Konkordans.linearLoop (X ++ Record.bytes ⟨r, off⟩ ++ Y) q fuel
              (X.length + (Record.bytes ⟨r, off⟩).length)
              (ptr + (Record.bytes ⟨r, off⟩).length) := by
  have hq : ∀ c ∈ q, 32 < c := fun c hc => by
    have := (isLetter_iff c).mp (lq c hc)
    omega
  have hsp := strLt_append_space q r hq hne
  refine ⟨hsp, ?_⟩
  intro off X Y fuel ptr ho hd
  have wr : Record.WellFormed ⟨r, off⟩ := ⟨hr, lr, ho, hd⟩
  have hread := readBytes_word wr X Y
  have hread2 := readBytes_offset wr X Y
  simp only at hread hread2
  have hlen := Record.length_bytes_eq ⟨r, off⟩
  simp only at hlen
  rw [Konkordans.linearLoop]
  simp only [hread, hread2, Bool.false_eq_true, if_false, List.dropLast_concat, hne, hsp,
    hlen]
  simp only [Nat.add_assoc]

/-- C20 at the record word "ab" and the query "a", a proper beginning of it. -/
theorem linear_scan_greater_test_witness :
    ([97, 98] : Bytes) ≠ [] ∧ (∀ c ∈ ([97, 98] : Bytes), isLetter c = true) ∧
      (∀ c ∈ ([97] : Bytes), isLetter c = true) ∧ ([97, 98] : Bytes) ≠ [97] ∧
      strLt [97] ([97, 98] ++ [32]) = strLt [97] [97, 98] ∧
      ∀ (off X Y : Bytes) (fuel ptr : Nat), off ≠ [] → (∀ c ∈ off, isDigit c = true) →
        Konkordans.linearLoop (X ++ Record.bytes ⟨[97, 98], off⟩ ++ Y) [97] (fuel + 1)
            X.length ptr
          = if strLt [97] [97, 98] = true then Outcome.noOccurrences
            else Konkordans.linearLoop (X ++ Record.bytes ⟨[97, 98], off⟩ ++ Y) [97] fuel
              (X.length + (Record.bytes ⟨[97, 98], off⟩).length)
              (ptr + (Record.bytes ⟨[97, 98], off⟩).length) :=
  ⟨by decide, by decide, by decide, by decide,
    linear_scan_greater_test [97, 98] [97] (by decide) (by decide) (by decide) (by decide)⟩

/-! ## Claims on the context renderer -/

/-- C11: for a query word's byte length `L ≥ 1` (the program passes `len(word)` of a
word that `hash` has accepted), `printResLn(p, L)` with corpus size `S` returns the
out-of-bounds error if and only if `p < 0` or `p > S - L`; in every other case it
prints a line and returns no error. -/
theorem printResLn_out_of_bounds_iff (korpus : Bytes) (p L : Int) (hL : 1 ≤ L) :
    (Konkordans.printResLn korpus p L = Outcome.ok Konkordans.PrintRes.outOfBounds
        ↔ p < 0 ∨ p > (korpus.length : Int) - L) ∧
      (¬ (p < 0 ∨ p > (korpus.length : Int) - L) →
        ∃ window text, Konkordans.printResLn korpus p L
          = Outcome.ok (Konkordans.PrintRes.printed window text)) := by
  unfold Konkordans.printResLn
  simp only
  by_cases hb : p < 0 ∨ p > (korpus.length : Int) - L
  · rw [if_pos hb]
    exact ⟨⟨fun _ => hb, fun _ => rfl⟩, fun h => absurd hb h⟩
  · rw [if_neg hb, if_neg (by split_ifs <;> omega)]
    have hgot : ¬ ((List.take (if p < 30 then p + L + 30 else 30 * 2 + L).toNat
        (List.drop (if p < 30 then 0 else p - 30).toNat korpus) = []) ∧
        0 < (if p < 30 then p + L + 30 else 30 * 2 + L)) := by
      intro ⟨hnil, _⟩
      have hlen := congrArg List.length hnil
      rw [List.length_take, List.length_drop, List.length_nil] at hlen
      split_ifs at hlen <;> omega
    rw [if_neg hgot]
    refine ⟨⟨fun h => ?_, fun h => absurd h hb⟩, fun _ => ⟨_, _, rfl⟩⟩
    injection h with h'
    cases h'

/-- C11 at a corpus of 100 bytes and the word length 5: the offset 95, the last
possible one, is within the bounds and a line is printed; the offsets 96 and -1 are
out of bounds and the error is returned. -/
theorem printResLn_out_of_bounds_iff_witness :
    (1 : Int) ≤ 5 ∧
      ¬ ((95 : Int) < 0 ∨ (95 : Int) > (((List.replicate 100 97 : Bytes).length : Nat) : Int) - 5) ∧
      ((96 : Int) < 0 ∨ (96 : Int) > (((List.replicate 100 97 : Bytes).length : Nat) : Int) - 5) ∧
      ((-1 : Int) < 0 ∨ (-1 : Int) > (((List.replicate 100 97 : Bytes).length : Nat) : Int) - 5) ∧
      (∃ window text, Konkordans.printResLn (List.replicate 100 97) 95 5
          = Outcome.ok (Konkordans.PrintRes.printed window text)) ∧
      Konkordans.printResLn (List.replicate 100 97) 95 5
        ≠ Outcome.ok Konkordans.PrintRes.outOfBounds ∧
      Konkordans.printResLn (List.replicate 100 97) 96 5
        = Outcome.ok Konkordans.PrintRes.outOfBounds ∧
      Konkordans.printResLn (List.replicate 100 97) (-1) 5
        = Outcome.ok Konkordans.PrintRes.outOfBounds :=
  ⟨by decide, by decide, by decide, by decide,
    (printResLn_out_of_bounds_iff (List.replicate 100 97) 95 5 (by decide)).2 (by decide),
    fun h => absurd ((printResLn_out_of_bounds_iff (List.replicate 100 97) 95 5
      (by decide)).1.mp h) (by decide),
    (printResLn_out_of_bounds_iff (List.replicate 100 97) 96 5 (by decide)).1.mpr (by decide),
    (printResLn_out_of_bounds_iff (List.replicate 100 97) (-1) 5 (by decide)).1.mpr
      (by decide)⟩

/-- C12 at the corpus "ab", the offset 0 and the word length 2 (so `p = 0 = S - L`):
`printResLn` does not fail, and the line it prints is the 32 bytes of the buffer:
the two corpus bytes followed by thirty zero bytes, which are not bytes of the
corpus. -/
theorem printResLn_prints_zero_bytes :
    (0 : Int) ≤ 0 ∧ (0 : Int) ≤ ((([97, 98] : Bytes).length : Nat) : Int) - 2 ∧
      Konkordans.printResLn [97, 98] 0 2
        = Outcome.ok (Konkordans.PrintRes.printed ([97, 98] ++ List.replicate 30 0)
            ([97, 98] ++ List.replicate 30 0)) ∧
      0 ∉ ([97, 98] : Bytes) := by
  decide

/-! ## Claims on the skip-ahead of the builder -/

/-- C16: for every well-formed word-index with non-decreasing hashes, whatever the
lengths of its records, the builder with `nextHash` ends, the same loop without the
call of `nextHash` ends, and both write the same table (the same values in the same
order, hence the same table file). -/
theorem skip_ahead_same_table (rs : List Record) (wf : WellFormed rs) (hs : HashSorted rs) :
    ∃ t : List Int, Index.tableWrites (render rs) = some t ∧
      Index.tableWritesNoSkip (render rs) = some t ∧
      Index.main (render rs) = (Index.tableWritesNoSkip (render rs)).map indexFile := by
  refine ⟨tableFrom 0 (-1) rs, tableWrites_eq_tableFrom rs wf hs,
    tableWritesNoSkip_eq_tableFrom rs wf, ?_⟩
  rw [Index.main, tableWrites_eq_tableFrom rs wf hs, tableWritesNoSkip_eq_tableFrom rs wf]

/-- C16 at an index of 6018 bytes, six records of 1003 bytes with two hashes, where
the builder calls `nextHash` after the first record. -/
theorem skip_ahead_same_table_witness :
    WellFormed skipIndex ∧ HashSorted skipIndex ∧ (render skipIndex).length = 6018 ∧
      ∃ t : List Int, Index.tableWrites (render skipIndex) = some t ∧
        Index.tableWritesNoSkip (render skipIndex) = some t ∧
        Index.main (render skipIndex)
          = (Index.tableWritesNoSkip (render skipIndex)).map indexFile :=
  ⟨wellFormed_skipIndex, hashSorted_skipIndex, length_render_skipIndex,
    skip_ahead_same_table skipIndex wellFormed_skipIndex hashSorted_skipIndex⟩

/-! ## Claims on the binary-search loop -/

/-- C18 at the index that holds one record, the word of a thousand letters `ö` with
offset 1 (1003 bytes), the query that word and the window `left = 0`, `right = 1003`,
which is the window `getBSPointers` gives for the hash 26999 of the word.  The window
is wider than 1000 bytes, the probe at byte 501 falls into the only record, and the
read of the word after it meets the end of the file: the loop ends the process on
the read error, whatever the step budget; it does not end with a window of at most
1000 bytes. -/
theorem bsLoop_long_last_record_fatal :
    WellFormed longIndex ∧ WordSorted longIndex ∧ (render longIndex).length = 1003 ∧
      Konkordans.hash longWord = Outcome.ok 26999 ∧
      Konkordans.getBSPointers (indexFile (List.replicate 27000 0)) (render longIndex).length
        26999 = Outcome.ok (0, 1003) ∧
      BelowQuery longWord longIndex 0 ∧
      ∀ fuel : Nat,
        Konkordans.bsLoop (render longIndex) longWord (fuel + 1) 0 1003 = Outcome.fatal := by
  refine ⟨wellFormed_longIndex, wordSorted_longIndex, length_render_longIndex, ?_, ?_,
    ⟨[], longIndex, rfl, by simp [render], by simp⟩, fun fuel => bsLoop_longIndex _ fuel⟩
  · have h2 := hashOf_longWord
    rw [hashOf_eq_key3 longWord_ne_nil
      (wellFormed_longIndex ⟨longWord, [49]⟩ (by simp [longIndex])).2.1] at h2
    rw [hash_eq_key3 (overAlphabet_of_letters
        (wellFormed_longIndex ⟨longWord, [49]⟩ (by simp [longIndex])).2.1) longWord_ne_nil
      (head?_ne_space_of_letters
        (wellFormed_longIndex ⟨longWord, [49]⟩ (by simp [longIndex])).2.1), h2]
  · have hg := (getBSPointers_correct wellFormed_longIndex
      (hashSorted_of_wordSorted wellFormed_longIndex wordSorted_longIndex)
      tableCorrect_longIndex (h := 26999) (by decide) (by decide)
      ⟨⟨longWord, [49]⟩, by simp [longIndex], hashOf_longWord⟩).1
    have e1 : firstOffsetGE 26999 longIndex 0 = 0 := by
      unfold longIndex
      rw [firstOffsetGE, if_pos (by rw [hashOf_longWord])]
    have e2 : firstOffsetGE (26999 + 1) longIndex 0 = 1003 := by
      have := firstOffsetGE_of_all_lt (26999 + 1) longIndex 0 (by
        intro r hr
        have := (wellFormed_longIndex r hr).hashOf_lt
        omega)
      rw [this, length_render_longIndex]
    rw [e1, e2] at hg
    simp only [Nat.cast_zero, Nat.cast_ofNat] at hg
    exact hg

end WordSearch
